import Mathlib

/-!
Verification development for the p4est tnodes construction
(`p4est_tnodes.c`): a shallow embedding in Lean 4 of the candidate-node
registry, the element traversal callbacks, the configuration encoding,
the ownership election, the global offset scan, the reply processing and
the finalization, together with theorems settling the specified
properties.

Conventions: C arrays become Lean lists or functions `Nat → Int`;
`p4est_locidx_t` sentinels (-1) are kept as `Int` values; ranks and
element numbers are `Nat` (they are nonnegative in every reachable
state of the C code).
-/

namespace P4est

/-- Boundary codimension of a candidate node: `p4est_connect_type_t`
restricted to the two values used by the tnodes code. -/
inductive ConnectType where
  | face
  | corner
deriving DecidableEq, Repr

/-- A single contributor process to a node under construction
(`tnodes_contr_t`): relative node position, referring process,
element/ghost number. -/
structure tnodes_contr where
  nodene : Nat
  rank   : Nat
  le     : Nat
deriving DecidableEq, Repr

instance : Inhabited tnodes_contr := ⟨⟨0, 0, 0⟩⟩

/-- A node under construction (`tnodes_cnode_t`).  The C code stores the
owner as a pointer into the `contr` array; we store the corresponding
index. -/
structure tnodes_cnode where
  runid : Int
  bcon  : ConnectType
  owner : Nat
  contr : List tnodes_contr
deriving DecidableEq, Repr

/-- The owning contributor of a candidate (dereferencing the owner
pointer); meaningless while the contributor list is empty. -/
def ownerContr (cn : tnodes_cnode) : tnodes_contr :=
  cn.contr.getD cn.owner default

/-- The rank of the owning contributor. -/
def owner_rank (cn : tnodes_cnode) : Nat :=
  (ownerContr cn).rank

/-- The rescan loop of `node_register`: starting from candidate index
`cur` with rank `curRank`, scan the remaining contributors (the first
one at index `pos`) and keep the first index of strictly smaller rank.
This mirrors the loop `for (zz = 1; zz < siz - 1; ++zz)`. -/
def min_rank_scan : List tnodes_contr → Nat → Nat → Nat → Nat
  | [], cur, _, _ => cur
  | c :: rest, cur, curRank, pos =>
      if c.rank < curRank then
        min_rank_scan rest pos c.rank (pos + 1)
      else
        min_rank_scan rest cur curRank (pos + 1)

/-- First index of minimal rank in a contributor list
(`cnode->owner = contr[0]; for zz ... if rank < owner->rank ...`). -/
def min_rank_index : List tnodes_contr → Nat
  | [] => 0
  | c :: rest => min_rank_scan rest 0 c.rank 1

/-- Linear scan for the first contributor of a given rank, returning its
index (the loop `for (zz = 0; zz < siz; ++zz) ... if (contr->rank == rank)`). -/
def find_rank_idx : List tnodes_contr → Nat → Option Nat
  | [], _ => none
  | c :: rest, r =>
      if c.rank = r then some 0 else (find_rank_idx rest r).map (· + 1)

/-- The per-candidate effect of `node_register` when contributing
`(rank, le, nodene)` to candidate `cn`:
if the rank is already present, remember the lexicographically smallest
`(le, nodene)` pair; otherwise append a new contributor and update the
owner exactly as the C code does. -/
def cnode_register (cn : tnodes_cnode) (rank le nodene : Nat) : tnodes_cnode :=
  match find_rank_idx cn.contr rank with
  | some i =>
      if le < (cn.contr.getD i default).le ∨
          (le = (cn.contr.getD i default).le ∧
            nodene < (cn.contr.getD i default).nodene) then
        { cn with contr :=
            cn.contr.set i ⟨nodene, (cn.contr.getD i default).rank, le⟩ }
      else
        cn
  | none =>
      let contr' := cn.contr ++ [⟨nodene, rank, le⟩]
      if cn.contr.isEmpty ∨ rank ≤ owner_rank cn then
        { cn with contr := contr', owner := cn.contr.length }
      else
        -- pushing has invalidated the previous owner pointer: rescan
        -- the previously existing contributors (indices 0 .. siz-2)
        { cn with contr := contr', owner := min_rank_index cn.contr }

/-- A registration event: the arguments of one `node_register` call that
reaches a given candidate. -/
structure RegEvent where
  rank   : Nat
  le     : Nat
  nodene : Nat
deriving DecidableEq, Repr

/-- A candidate node freshly created by `node_register` with `*lni == -1`,
before its first contributor is appended. -/
def fresh_cnode (lni : Int) (bcon : ConnectType) : tnodes_cnode :=
  { runid := lni, bcon := bcon, owner := 0, contr := [] }

/-- Folding a sequence of registration events into a candidate. -/
def register_events (lni : Int) (bcon : ConnectType) (events : List RegEvent) :
    tnodes_cnode :=
  events.foldl (fun cn e => cnode_register cn e.rank e.le e.nodene)
    (fresh_cnode lni bcon)

/-- Well-formedness of a candidate contributor list: nonempty, the owner
index is in range, ranks are pairwise distinct, and the owner attains
the minimal rank. -/
def cnode_wf (cn : tnodes_cnode) : Prop :=
  cn.contr ≠ [] ∧ cn.owner < cn.contr.length ∧
    (cn.contr.map tnodes_contr.rank).Nodup ∧
    ∀ c ∈ cn.contr, owner_rank cn ≤ c.rank

/-- Lexicographic order on (le, nodene) pairs as compared by
`node_register`. -/
def pairLE (a b : Nat × Nat) : Prop :=
  a.1 < b.1 ∨ (a.1 = b.1 ∧ a.2 ≤ b.2)

instance : DecidablePred (fun p : (Nat × Nat) × (Nat × Nat) => pairLE p.1 p.2) := by
  intro p
  unfold pairLE
  infer_instance

lemma pairLE_refl (a : Nat × Nat) : pairLE a a := Or.inr ⟨rfl, le_refl _⟩

lemma pairLE_trans {a b c : Nat × Nat} (h1 : pairLE a b) (h2 : pairLE b c) :
    pairLE a c := by
  rcases h1 with h1 | ⟨h1, h1'⟩ <;> rcases h2 with h2 | ⟨h2, h2'⟩
  · exact Or.inl (h1.trans h2)
  · exact Or.inl (h2 ▸ h1)
  · exact Or.inl (h1 ▸ h2)
  · exact Or.inr ⟨h1.trans h2, h1'.trans h2'⟩

lemma pairLE_of_strict {l n le' nodene' : Nat}
    (h : l < le' ∨ (l = le' ∧ n < nodene')) : pairLE (l, n) (le', nodene') := by
  rcases h with h | ⟨h, h'⟩
  · exact Or.inl h
  · exact Or.inr ⟨h, le_of_lt h'⟩

lemma pairLE_of_not_strict {l n le' nodene' : Nat}
    (h : ¬(l < le' ∨ (l = le' ∧ n < nodene'))) : pairLE (le', nodene') (l, n) := by
  push_neg at h
  obtain ⟨h1, h2⟩ := h
  rcases Nat.lt_or_ge le' l with hlt | hge
  · exact Or.inl hlt
  · have heq : le' = l := le_antisymm h1 hge
    exact Or.inr ⟨heq, h2 heq.symm⟩

lemma find_rank_idx_none {l : List tnodes_contr} {r : Nat}
    (h : find_rank_idx l r = none) : ∀ c ∈ l, c.rank ≠ r := by
  induction l with
  | nil => intro c hc; cases hc
  | cons c rest ih =>
      intro c' hc'
      unfold find_rank_idx at h
      by_cases hc : c.rank = r
      · simp [hc] at h
      · simp only [hc, if_false, Option.map_eq_none'] at h
        rcases List.mem_cons.mp hc' with rfl | hmem
        · exact hc
        · exact ih h c' hmem

lemma find_rank_idx_some {l : List tnodes_contr} {r : Nat} {i : Nat}
    (h : find_rank_idx l r = some i) :
    i < l.length ∧ (l.getD i default).rank = r := by
  induction l generalizing i with
  | nil => simp [find_rank_idx] at h
  | cons c rest ih =>
      unfold find_rank_idx at h
      by_cases hc : c.rank = r
      · simp only [hc, if_true, Option.some.injEq] at h
        subst h
        exact ⟨Nat.succ_pos _, hc⟩
      · simp only [hc, if_false, Option.map_eq_some'] at h
        obtain ⟨j, hj, rfl⟩ := h
        obtain ⟨hjl, hjr⟩ := ih hj
        refine ⟨Nat.succ_lt_succ hjl, ?_⟩
        simpa [List.getD] using hjr

lemma getD_mem {l : List tnodes_contr} {i : Nat} (h : i < l.length) :
    l.getD i default ∈ l := by
  rw [List.getD_eq_getElem _ _ h]
  exact List.getElem_mem h

/-- Specification of the owner rescan loop: the result is an index into
the scanned list attaining a rank no larger than the running candidate
and all the remaining entries. -/
lemma min_rank_scan_spec (g : List tnodes_contr) :
    ∀ rest pos cur curRank, g.drop pos = rest → cur < g.length →
      (g.getD cur default).rank = curRank →
      min_rank_scan rest cur curRank pos < g.length ∧
      (g.getD (min_rank_scan rest cur curRank pos) default).rank ≤ curRank ∧
      ∀ c ∈ rest, (g.getD (min_rank_scan rest cur curRank pos) default).rank ≤ c.rank := by
  intro rest
  induction rest with
  | nil =>
      intro pos cur curRank _ hcur hrank
      refine ⟨hcur, hrank ▸ le_refl _, ?_⟩
      intro c hc; cases hc
  | cons c rest' ih =>
      intro pos cur curRank hdrop hcur hrank
      have hpos : pos < g.length := by
        by_contra hge
        rw [List.drop_eq_nil_of_le (le_of_not_lt hge)] at hdrop
        exact List.cons_ne_nil _ _ hdrop.symm
      have hgetc : g.getD pos default = c := by
        have h0 : (g.drop pos)[0]? = some c := by rw [hdrop]; simp
        rw [List.getElem?_drop, Nat.add_zero] at h0
        simp [List.getD_eq_getElem?_getD, h0]
      have hdrop' : g.drop (pos + 1) = rest' := by
        have : g.drop (pos + 1) = (g.drop pos).drop 1 := by
          rw [List.drop_drop, Nat.add_comm]
        rw [this, hdrop]
        rfl
      unfold min_rank_scan
      by_cases hlt : c.rank < curRank
      · simp only [hlt, if_true]
        obtain ⟨h1, h2, h3⟩ := ih (pos + 1) pos c.rank hdrop' hpos (by rw [hgetc])
        refine ⟨h1, le_of_lt (lt_of_le_of_lt h2 hlt), ?_⟩
        intro c' hc'
        rcases List.mem_cons.mp hc' with rfl | hmem
        · exact h2
        · exact h3 c' hmem
      · simp only [hlt, if_false]
        obtain ⟨h1, h2, h3⟩ := ih (pos + 1) cur curRank hdrop' hcur hrank
        refine ⟨h1, h2, ?_⟩
        intro c' hc'
        rcases List.mem_cons.mp hc' with rfl | hmem
        · exact h2.trans (le_of_not_lt hlt)
        · exact h3 c' hmem

/-- The recomputed owner index is in range and attains the minimal rank. -/
lemma min_rank_index_spec {l : List tnodes_contr} (h : l ≠ []) :
    min_rank_index l < l.length ∧
      ∀ c ∈ l, (l.getD (min_rank_index l) default).rank ≤ c.rank := by
  match l, h with
  | c :: rest, _ =>
      have hdrop : (c :: rest).drop 1 = rest := rfl
      have hcur : 0 < (c :: rest).length := Nat.succ_pos _
      have hrank : ((c :: rest).getD 0 default).rank = c.rank := rfl
      obtain ⟨h1, h2, h3⟩ :=
        min_rank_scan_spec (c :: rest) rest 1 0 c.rank hdrop hcur hrank
      refine ⟨h1, ?_⟩
      intro c' hc'
      rcases List.mem_cons.mp hc' with rfl | hmem
      · exact h2
      · exact h3 c' hmem

/-- Invariant relating a candidate to the multiset of registration
events that produced it: well-formed ownership, every event rank is
represented, and every contributor stores the lexicographically least
(element, position) pair among its rank's events. -/
def reg_inv (cn : tnodes_cnode) (events : List RegEvent) : Prop :=
  cnode_wf cn ∧
  (∀ e ∈ events, ∃ c ∈ cn.contr, c.rank = e.rank) ∧
  (∀ c ∈ cn.contr,
     (∃ e ∈ events, e.rank = c.rank ∧ e.le = c.le ∧ e.nodene = c.nodene) ∧
     ∀ e ∈ events, e.rank = c.rank → pairLE (c.le, c.nodene) (e.le, e.nodene))

lemma rank_mem_unique {L : List tnodes_contr}
    (hnodup : (L.map tnodes_contr.rank).Nodup)
    {c c' : tnodes_contr} (hc : c ∈ L) (hc' : c' ∈ L) (hr : c.rank = c'.rank) :
    c = c' :=
  List.inj_on_of_nodup_map hnodup hc hc' hr

lemma getD_set_self {L : List tnodes_contr} {i : Nat} (h : i < L.length)
    (v : tnodes_contr) : (L.set i v).getD i default = v := by
  simp [List.getD_eq_getElem?_getD, List.getElem?_set_self h]

lemma getD_set_ne {L : List tnodes_contr} {i j : Nat} (h : i ≠ j)
    (v : tnodes_contr) : (L.set i v).getD j default = L.getD j default := by
  simp [List.getD_eq_getElem?_getD, List.getElem?_set_ne h]

lemma getD_append_left {L L' : List tnodes_contr} {i : Nat} (h : i < L.length) :
    (L ++ L').getD i default = L.getD i default :=
  List.getD_append L L' default i h

lemma getD_append_len (L : List tnodes_contr) (v : tnodes_contr) :
    (L ++ [v]).getD L.length default = v := by
  simp [List.getD_eq_getElem?_getD, List.getElem?_append_right]

/-- One step of the registry invariant: contributing one more event to a
candidate that satisfies `reg_inv` preserves it. -/
lemma reg_inv_step (cn : tnodes_cnode) (events : List RegEvent) (r l n : Nat)
    (h : reg_inv cn events) :
    reg_inv (cnode_register cn r l n) (events ++ [⟨r, l, n⟩]) := by
  obtain ⟨⟨hne, howner, hnodup, hmin⟩, hsur, hist⟩ := h
  unfold cnode_register
  cases hfind : find_rank_idx cn.contr r with
  | some i =>
      obtain ⟨hilen, hirank⟩ := find_rank_idx_some hfind
      have hcmem : cn.contr.getD i default ∈ cn.contr := getD_mem hilen
      by_cases hupd : l < (cn.contr.getD i default).le ∨
          (l = (cn.contr.getD i default).le ∧
            n < (cn.contr.getD i default).nodene)
      · -- the stored pair is replaced by the strictly smaller one
        simp only [if_pos hupd]
        set c := cn.contr.getD i default with hc
        set c' : tnodes_contr := ⟨n, c.rank, l⟩ with hc'
        have hmapset : (cn.contr.set i c').map tnodes_contr.rank =
            cn.contr.map tnodes_contr.rank := by
          rw [List.map_set]
          have hi' : i < (cn.contr.map tnodes_contr.rank).length := by
            simpa using hilen
          have hcrank : c'.rank =
              (cn.contr.map tnodes_contr.rank)[i] := by
            simp only [hc', List.getElem_map]
            rw [hc, List.getD_eq_getElem _ _ hilen]
          rw [hcrank]
          apply List.ext_getElem?
          intro j
          by_cases hij : i = j
          · subst hij
            rw [List.getElem?_set_self hi', List.getElem?_eq_getElem hi']
          · rw [List.getElem?_set_ne hij]
        have hlen : (cn.contr.set i c').length = cn.contr.length := by simp
        have hcmem' : c' ∈ cn.contr.set i c' := by
          have h1 : i < (cn.contr.set i c').length := by simpa using hilen
          have h2 := getD_mem h1
          rwa [getD_set_self hilen] at h2
        have hrank_unique : ∀ c'' ∈ cn.contr.set i c', c''.rank = r → c'' = c' := by
          intro c'' hmem'' hr''
          rcases List.mem_or_eq_of_mem_set hmem'' with hold | rfl
          · exfalso
            have hcc : c'' = c :=
              rank_mem_unique hnodup hold hcmem (by rw [hr'', hirank])
            subst hcc
            obtain ⟨j, hj, hget⟩ := List.mem_iff_getElem.mp hmem''
            by_cases hij : i = j
            · subst hij
              have : (cn.contr.set i c')[i] = c' :=
                List.getElem_set_self (by simpa using hilen)
              rw [this] at hget
              rw [← hget] at hupd
              simp only [hc'] at hupd
              rcases hupd with hx | ⟨_, hx⟩ <;> exact absurd hx (lt_irrefl _)
            · have hj' : j < cn.contr.length := by simpa using hj
              have hbi : i < (cn.contr.map tnodes_contr.rank).length := by
                simpa using hilen
              have hbj : j < (cn.contr.map tnodes_contr.rank).length := by
                simpa using hj'
              have : (cn.contr.set i c')[j] = cn.contr[j] := by
                rw [List.getElem_set_ne hij]
              rw [this] at hget
              have hij' : (cn.contr.map tnodes_contr.rank)[i] =
                  (cn.contr.map tnodes_contr.rank)[j] := by
                simp only [List.getElem_map]
                rw [hget]
                rw [hc] at hirank ⊢
                rw [List.getD_eq_getElem _ _ hilen] at hirank
                rw [hirank, hr'']
              exact hij ((List.Nodup.getElem_inj_iff hnodup).mp hij')
          · rfl
        refine ⟨⟨?_, ?_, ?_, ?_⟩, ?_, ?_⟩
        · intro hnil
          apply hne
          have := congrArg List.length hnil
          simp at this
          exact this
        · simpa using howner
        · rw [hmapset]; exact hnodup
        · -- the owner rank is unchanged and stays minimal
          have howrk : owner_rank { cn with contr := cn.contr.set i c' } =
              owner_rank cn := by
            unfold owner_rank ownerContr
            by_cases hoi : cn.owner = i
            · rw [hoi, getD_set_self hilen]
            · rw [getD_set_ne (fun hh => hoi hh.symm)]
          intro c'' hmem''
          rw [howrk]
          rcases List.mem_or_eq_of_mem_set hmem'' with hold | rfl
          · exact hmin c'' hold
          · simpa [hc'] using hmin c hcmem
        · -- every event rank is still represented
          intro e hmem
          rcases List.mem_append.mp hmem with hold | hnew
          · obtain ⟨c₀, hc₀, hr₀⟩ := hsur e hold
            have : e.rank ∈ (cn.contr.set i c').map tnodes_contr.rank := by
              rw [hmapset]
              exact List.mem_map.mpr ⟨c₀, hc₀, hr₀⟩
            obtain ⟨c₁, hc₁, hr₁⟩ := List.mem_map.mp this
            exact ⟨c₁, hc₁, hr₁⟩
          · have : e = ⟨r, l, n⟩ := by simpa using hnew
            subst this
            exact ⟨c', hcmem', hirank⟩
        · -- minimal-pair history
          intro c'' hmem''
          by_cases hr'' : c''.rank = r
          · have : c'' = c' := hrank_unique c'' hmem'' hr''
            subst this
            constructor
            · exact ⟨⟨r, l, n⟩, List.mem_append.mpr (Or.inr (by simp)),
                hirank.symm, rfl, rfl⟩
            · intro e hmem he
              rcases List.mem_append.mp hmem with hold | hnew
              · have hmin_c := (hist c hcmem).2 e hold he
                exact pairLE_trans (pairLE_of_strict hupd) hmin_c
              · have : e = ⟨r, l, n⟩ := by simpa using hnew
                subst this
                exact pairLE_refl _
          · have hold : c'' ∈ cn.contr := by
              rcases List.mem_or_eq_of_mem_set hmem'' with hold | rfl
              · exact hold
              · exact absurd hirank hr''
            obtain ⟨hex, hlb⟩ := hist c'' hold
            constructor
            · obtain ⟨e, he, hprops⟩ := hex
              exact ⟨e, List.mem_append.mpr (Or.inl he), hprops⟩
            · intro e hmem he
              rcases List.mem_append.mp hmem with holde | hnew
              · exact hlb e holde he
              · have : e = ⟨r, l, n⟩ := by simpa using hnew
                subst this
                exact absurd he.symm hr''
      · -- the stored pair is already minimal: candidate unchanged
        simp only [if_neg hupd]
        refine ⟨⟨hne, howner, hnodup, hmin⟩, ?_, ?_⟩
        · intro e hmem
          rcases List.mem_append.mp hmem with hold | hnew
          · exact hsur e hold
          · have : e = ⟨r, l, n⟩ := by simpa using hnew
            subst this
            exact ⟨cn.contr.getD i default, hcmem, hirank⟩
        · intro c'' hmem''
          obtain ⟨hex, hlb⟩ := hist c'' hmem''
          constructor
          · obtain ⟨e, he, hprops⟩ := hex
            exact ⟨e, List.mem_append.mpr (Or.inl he), hprops⟩
          · intro e hmem he
            rcases List.mem_append.mp hmem with holde | hnew
            · exact hlb e holde he
            · have : e = ⟨r, l, n⟩ := by simpa using hnew
              subst this
              have : c'' = cn.contr.getD i default :=
                rank_mem_unique hnodup hmem'' hcmem (by rw [← he]; exact hirank.symm)
              subst this
              exact pairLE_of_not_strict hupd
  | none =>
      have hnone := find_rank_idx_none hfind
      have hnotin : r ∉ cn.contr.map tnodes_contr.rank := by
        intro hmem
        obtain ⟨c₀, hc₀, hr₀⟩ := List.mem_map.mp hmem
        exact hnone c₀ hc₀ hr₀
      have hnodup' : ((cn.contr ++ [(⟨n, r, l⟩ : tnodes_contr)]).map tnodes_contr.rank).Nodup := by
        rw [List.map_append]
        simp [List.nodup_append, hnodup, hnotin]
      have hsur' : ∀ e ∈ events ++ [(⟨r, l, n⟩ : RegEvent)],
          ∃ c ∈ cn.contr ++ [(⟨n, r, l⟩ : tnodes_contr)], c.rank = e.rank := by
        intro e hmem
        rcases List.mem_append.mp hmem with hold | hnew
        · obtain ⟨c₀, hc₀, hr₀⟩ := hsur e hold
          exact ⟨c₀, List.mem_append.mpr (Or.inl hc₀), hr₀⟩
        · have : e = ⟨r, l, n⟩ := by simpa using hnew
          subst this
          exact ⟨⟨n, r, l⟩, List.mem_append.mpr (Or.inr (by simp)), rfl⟩
      have hist' : ∀ c'' ∈ cn.contr ++ [(⟨n, r, l⟩ : tnodes_contr)],
          (∃ e ∈ events ++ [(⟨r, l, n⟩ : RegEvent)],
            e.rank = c''.rank ∧ e.le = c''.le ∧ e.nodene = c''.nodene) ∧
          ∀ e ∈ events ++ [(⟨r, l, n⟩ : RegEvent)], e.rank = c''.rank →
            pairLE (c''.le, c''.nodene) (e.le, e.nodene) := by
        intro c'' hmem''
        rcases List.mem_append.mp hmem'' with hold | hnew
        · obtain ⟨hex, hlb⟩ := hist c'' hold
          constructor
          · obtain ⟨e, he, hprops⟩ := hex
            exact ⟨e, List.mem_append.mpr (Or.inl he), hprops⟩
          · intro e hmem he
            rcases List.mem_append.mp hmem with holde | hnewe
            · exact hlb e holde he
            · have : e = ⟨r, l, n⟩ := by simpa using hnewe
              subst this
              exact absurd he (fun hh => hnone c'' hold hh.symm)
        · have : c'' = ⟨n, r, l⟩ := by simpa using hnew
          subst this
          constructor
          · exact ⟨⟨r, l, n⟩, List.mem_append.mpr (Or.inr (by simp)), rfl, rfl, rfl⟩
          · intro e hmem he
            rcases List.mem_append.mp hmem with holde | hnewe
            · exfalso
              obtain ⟨c₀, hc₀, hr₀⟩ := hsur e holde
              exact hnone c₀ hc₀ (by rw [hr₀, he])
            · have : e = ⟨r, l, n⟩ := by simpa using hnewe
              subst this
              exact pairLE_refl _
      have hownermem : ownerContr cn ∈ cn.contr := getD_mem howner
      by_cases hbr : cn.contr.isEmpty = true ∨ r ≤ owner_rank cn
      · simp only [if_pos hbr]
        have hrle : r ≤ owner_rank cn := by
          rcases hbr with hemp | hle
          · exact absurd (List.isEmpty_iff.mp hemp) hne
          · exact hle
        refine ⟨⟨?_, ?_, hnodup', ?_⟩, hsur', hist'⟩
        · simp
        · simp
        · intro c'' hmem''
          have howrk : owner_rank { cn with
              contr := cn.contr ++ [(⟨n, r, l⟩ : tnodes_contr)],
              owner := cn.contr.length } = r := by
            unfold owner_rank ownerContr
            simp only
            rw [getD_append_len]
          rw [howrk]
          rcases List.mem_append.mp hmem'' with hold | hnewm
          · exact hrle.trans (hmin c'' hold)
          · have : c'' = ⟨n, r, l⟩ := by simpa using hnewm
            subst this
            exact le_refl r
      · simp only [if_neg hbr]
        push_neg at hbr
        obtain ⟨-, hrgt⟩ := hbr
        obtain ⟨hidx, hidxmin⟩ := min_rank_index_spec hne
        refine ⟨⟨?_, ?_, hnodup', ?_⟩, hsur', hist'⟩
        · simp
        · simp
          exact hidx.trans (Nat.lt_succ_self _)
        · intro c'' hmem''
          have howrk : owner_rank { cn with
              contr := cn.contr ++ [(⟨n, r, l⟩ : tnodes_contr)],
              owner := min_rank_index cn.contr } =
              (cn.contr.getD (min_rank_index cn.contr) default).rank := by
            unfold owner_rank ownerContr
            simp only
            rw [getD_append_left hidx]
          rw [howrk]
          rcases List.mem_append.mp hmem'' with hold | hnewm
          · exact hidxmin c'' hold
          · have : c'' = ⟨n, r, l⟩ := by simpa using hnewm
            subst this
            exact (hidxmin _ hownermem).trans (le_of_lt hrgt)

/-- The registry invariant holds after the very first registration into a
fresh candidate. -/
lemma reg_inv_base (lni : Int) (bcon : ConnectType) (e : RegEvent) :
    reg_inv (cnode_register (fresh_cnode lni bcon) e.rank e.le e.nodene) [e] := by
  show reg_inv { runid := lni, bcon := bcon, owner := 0,
                 contr := [⟨e.nodene, e.rank, e.le⟩] } [e]
  refine ⟨⟨by simp, by simp, by simp, ?_⟩, ?_, ?_⟩
  · intro c hc
    have : c = ⟨e.nodene, e.rank, e.le⟩ := by simpa using hc
    subst this
    exact le_refl _
  · intro e' he'
    have : e' = e := by simpa using he'
    subst this
    exact ⟨⟨e'.nodene, e'.rank, e'.le⟩, by simp, rfl⟩
  · intro c hc
    have : c = ⟨e.nodene, e.rank, e.le⟩ := by simpa using hc
    subst this
    refine ⟨⟨e, by simp, rfl, rfl, rfl⟩, ?_⟩
    intro e' he' _
    have : e' = e := by simpa using he'
    subst this
    exact pairLE_refl _

/-- Folding further events preserves the registry invariant. -/
lemma reg_inv_fold (evs : List RegEvent) :
    ∀ (cn : tnodes_cnode) (acc : List RegEvent), reg_inv cn acc →
      reg_inv (evs.foldl (fun cn e => cnode_register cn e.rank e.le e.nodene) cn)
        (acc ++ evs) := by
  induction evs with
  | nil => intro cn acc h; simpa using h
  | cons e rest ih =>
      intro cn acc h
      have h1 : reg_inv (cnode_register cn e.rank e.le e.nodene) (acc ++ [e]) :=
        reg_inv_step cn acc e.rank e.le e.nodene h
      have h2 := ih (cnode_register cn e.rank e.le e.nodene) (acc ++ [e]) h1
      simpa [List.append_assoc] using h2

/-- C3: after every sequence of `node_register` contributions to a
candidate, the owner field designates the contributor with the smallest
rank, the contributor list has at most one entry per rank, and each
entry stores the lexicographically smallest (element, position) pair
seen for its rank. -/
theorem C3_node_register_owner_invariant (lni : Int) (bcon : ConnectType)
    (events : List RegEvent) (h : events ≠ []) :
    reg_inv (register_events lni bcon events) events := by
  match events, h with
  | e :: rest, _ =>
      have hbase := reg_inv_base lni bcon e
      have hfold := reg_inv_fold rest (cnode_register (fresh_cnode lni bcon)
        e.rank e.le e.nodene) [e] hbase
      unfold register_events
      simpa using hfold

/-- Witness for C3: three ranks contribute, rank 1 twice with different
positions; the invariant is established at a concrete input. -/
theorem C3_node_register_owner_invariant_witness :
    ([⟨2, 5, 3⟩, ⟨1, 7, 2⟩, ⟨3, 4, 8⟩, ⟨1, 7, 0⟩] : List RegEvent) ≠ [] ∧
      reg_inv (register_events 0 ConnectType.corner
        [⟨2, 5, 3⟩, ⟨1, 7, 2⟩, ⟨3, 4, 8⟩, ⟨1, 7, 0⟩])
        [⟨2, 5, 3⟩, ⟨1, 7, 2⟩, ⟨3, 4, 8⟩, ⟨1, 7, 0⟩] :=
  ⟨by decide, C3_node_register_owner_invariant 0 ConnectType.corner _ (by decide)⟩

/-! ## Traversal model

The node position schema and the three iterator callbacks
(`iter_volume1`, `iter_face1`, `iter_corner1`) acting on the global
control structure.  The topology iterator itself is external to the
core; a traversal is a list of callback events. -/

def n_center : Nat := 4

def n_mface (f : Fin 4) : Nat := [5, 6, 7, 8].getD f.val 0

def n_cface (j : Fin 4) : Nat := [9, 10, 11, 12].getD j.val 0

def n_split (f : Fin 4) : Nat := [14, 17, 20, 22].getD f.val 0

def n_hface (f : Fin 4) (j : Fin 2) : Nat :=
  ([[13, 15], [16, 18], [19, 21], [23, 24]].getD f.val []).getD j.val 0

def n_ccorn (c : Fin 4) : Nat := c.val

/-- The corner numbers of each face of a quadrant (`p4est_face_corners`). -/
def p4est_face_corners (f : Fin 4) (j : Fin 2) : Nat :=
  ([[0, 2], [1, 3], [0, 1], [2, 3]].getD f.val []).getD j.val 0

/-- Position indices that can never be shared across processes
(element interior nodes); nonzero entries mark such positions. -/
def alwaysowned : List Nat :=
  [0, 0, 0, 0, 1, 0, 0, 0, 0, 1, 1, 1, 1,
   0, 1, 0, 0, 1, 0, 0, 1, 0, 1, 0, 0]

/-- The global control structure (`tnodes_meta_t`) restricted to the
fields the traversal mutates.  `element_nodes` is the flat array
`ln->element_nodes` as a total function with sentinel -1; `ok` records
the conjunction of the checks
`P4EST_ASSERT (ln->element_nodes[le * ln->vnodes + nodene] == -1)`
performed before every slot write in `node_register`.
(The debug-only `chilev` byte per element is not modelled.) -/
structure tnodes_meta where
  full_style : Bool
  with_faces : Bool
  mpirank : Nat
  construct : List tnodes_cnode
  element_nodes : Nat → Int
  configuration : Nat → Nat
  face_code : Nat → Nat
  ok : Bool

/-- `ln->vnodes`: 9 without faces, 25 with faces. -/
def vnodes (with_faces : Bool) : Nat := if with_faces then 25 else 9

def config_write (me : tnodes_meta) (le v : Nat) : tnodes_meta :=
  { me with configuration := fun j => if j = le then v else me.configuration j }

def face_code_write (me : tnodes_meta) (le v : Nat) : tnodes_meta :=
  { me with face_code := fun j => if j = le then v else me.face_code j }

/-- The element-node slot write of `node_register` together with the
preceding sentinel assertion folded into `ok`. -/
def en_write (me : tnodes_meta) (le nodene : Nat) (v : Int) : tnodes_meta :=
  { me with
    element_nodes := fun j =>
      if j = le * vnodes me.with_faces + nodene then v else me.element_nodes j,
    ok := me.ok && (me.element_nodes (le * vnodes me.with_faces + nodene) == -1) }

/-- `node_register`: create a candidate (when `olni = none`, i.e.
`*lni == -1`) or contribute to an existing one, write the local element
slot when the contribution is local, and update the candidate's
contributor list and owner.  `orank = none` stands for the `-1`
argument meaning the local rank. -/
def node_register (me : tnodes_meta) (olni orank : Option Nat)
    (le nodene : Nat) (bcon : ConnectType) : tnodes_meta × Nat :=
  let rank := orank.getD me.mpirank
  let lni := match olni with
    | none => me.construct.length
    | some i => i
  let construct0 := match olni with
    | none => me.construct ++ [fresh_cnode (Int.ofNat me.construct.length) bcon]
    | some _ => me.construct
  let me := { me with construct := construct0 }
  let me := if rank = me.mpirank then en_write me le nodene (Int.ofNat lni) else me
  let cn :=
    cnode_register (me.construct.getD lni (fresh_cnode (-1) bcon)) rank le nodene
  let me := { me with construct := me.construct.set lni cn }
  (me, lni)

def node_lregister (me : tnodes_meta) (olni : Option Nat)
    (le nodene : Nat) (bcon : ConnectType) : tnodes_meta × Nat :=
  node_register me olni none le nodene bcon

/-- `node_gregister`: the ghost-side contribution; the event carries the
ghost owner's rank (`ghost_rank[ghostid]`) and the remote element number
(`gquad->p.piggy3.local_num`). -/
def node_gregister (me : tnodes_meta) (olni : Option Nat) (rank : Nat)
    (le nodene : Nat) (bcon : ConnectType) : tnodes_meta × Nat :=
  node_register me olni (some rank) le nodene bcon

/-- `node_lfacetocorner`: retag the candidate reached through the
element's center slot from face to corner codimension, in place.  The C
code asserts the slot holds a valid candidate id; outside that range the
model leaves the state unchanged. -/
def node_lfacetocorner (me : tnodes_meta) (le nodene : Nat) : tnodes_meta :=
  let lni := me.element_nodes (le * vnodes me.with_faces + nodene)
  if 0 ≤ lni then
    let cn := me.construct.getD lni.toNat (fresh_cnode (-1) ConnectType.face)
    { me with construct := me.construct.set lni.toNat { cn with bcon := ConnectType.corner } }
  else me

/-- `iter_volume1` on one leaf: store the configuration and register the
center (and with faces the four center-to-corner midpoints) as dictated
by full- versus half-style. -/
def iter_volume1 (me : tnodes_meta) (le level childid : Nat) : tnodes_meta :=
  if me.full_style ∨ level = 0 then
    let me := config_write me le 32
    let me := (node_lregister me none le n_center ConnectType.corner).1
    if me.with_faces then
      (List.finRange 4).foldl
        (fun m j => (node_lregister m none le (n_cface j) ConnectType.face).1) me
    else me
  else
    let me := if childid = 1 ∨ childid = 2 then config_write me le 16 else me
    if me.with_faces then
      (node_lregister me none le n_center ConnectType.face).1
    else me

/-- One side of a non-hanging face connection: ghost flag, owner rank
and remote element number when ghost, local element number otherwise,
and the face id on that side. -/
structure FullSide where
  ghost : Bool
  rank  : Nat
  le    : Nat
  face  : Fin 4
deriving DecidableEq, Repr

/-- One half quadrant of a hanging face side. -/
structure HalfQuad where
  ghost : Bool
  rank  : Nat
  le    : Nat
deriving DecidableEq, Repr

/-- The hanging side of a nonconforming face connection. -/
structure HangSide where
  face : Fin 4
  q0   : HalfQuad
  q1   : HalfQuad
deriving DecidableEq, Repr

/-- One side of a corner connection. -/
structure CornerSide where
  ghost  : Bool
  rank   : Nat
  le     : Nat
  corner : Fin 4
deriving DecidableEq, Repr

/-- State threaded through one `iter_face1` invocation: the metadata
plus the local variables `lni` and `lnh[2]` (`none` encodes -1). -/
structure HState where
  me   : tnodes_meta
  lni  : Option Nat
  lnh0 : Option Nat
  lnh1 : Option Nat

def getLnh (st : HState) (k : Nat) : Option Nat :=
  if k = 0 then st.lnh0 else st.lnh1

def setLnh (st : HState) (k : Nat) (v : Nat) : HState :=
  if k = 0 then { st with lnh0 := some v } else { st with lnh1 := some v }

/-- The configuration update of a nonconforming face seen from the
large local side:
`configuration[le] &= ~((1 << 4) | (1 << 5)); configuration[le] |= (1 << face)`.
The mask 207 is the `uint8` complement `~((1 << 4) | (1 << 5))`. -/
def config_face_update (c : Nat) (face : Fin 4) : Nat :=
  (c &&& 207) ||| (1 <<< face.val)

/-- The half-to-full promotion of the large local side of a hanging
face: when `configuration & ~(1 << 4)` is zero the element is still in
pure half style and the center is (re)classified as a corner, with faces
also adding the four center-to-corner midpoints.  The mask 239 is the
`uint8` complement `~(1 << 4)`. -/
def hang_promote (me : tnodes_meta) (le : Nat) : tnodes_meta :=
  if me.configuration le &&& 239 = 0 then
    if me.with_faces = false then
      (node_lregister me none le n_center ConnectType.corner).1
    else
      let me := node_lfacetocorner me le n_center
      (List.finRange 4).foldl
        (fun m j => (node_lregister m none le (n_cface j) ConnectType.face).1) me
  else me

/-- The large local side of a hanging face: possible promotion from half
to full style, configuration update, face midpoint as corner, and with
faces the split-center and the two half-face midpoints. -/
def hang_full_local (st : HState) (le : Nat) (face : Fin 4) (swapi : Bool) :
    HState :=
  let me := hang_promote st.me le
  let me := config_write me le (config_face_update (me.configuration le) face)
  let p := node_lregister me st.lni le (n_mface face) ConnectType.corner
  let st := { st with me := p.1, lni := some p.2 }
  if st.me.with_faces then
    let me := (node_lregister st.me none le (n_split face) ConnectType.face).1
    let t0 := if swapi then 1 else 0
    let p0 := node_lregister me (getLnh st t0) le (n_hface face 0) ConnectType.face
    let st := setLnh { st with me := p0.1 } t0 p0.2
    let t1 := if swapi then 0 else 1
    let p1 := node_lregister st.me (getLnh st t1) le (n_hface face 1) ConnectType.face
    setLnh { st with me := p1.1 } t1 p1.2
  else st

/-- The large ghost side of a hanging face. -/
def hang_full_ghost (st : HState) (rank le : Nat) (face : Fin 4) (swapi : Bool) :
    HState :=
  let p := node_gregister st.me st.lni rank le (n_mface face) ConnectType.corner
  let st := { st with me := p.1, lni := some p.2 }
  if st.me.with_faces then
    let t0 := if swapi then 1 else 0
    let p0 := node_gregister st.me (getLnh st t0) rank le (n_hface face 0) ConnectType.face
    let st := setLnh { st with me := p0.1 } t0 p0.2
    let t1 := if swapi then 0 else 1
    let p1 := node_gregister st.me (getLnh st t1) rank le (n_hface face 1) ConnectType.face
    setLnh { st with me := p1.1 } t1 p1.2
  else st

/-- Dispatch on ghostness of the full side. -/
def hang_side_full (st : HState) (fs : FullSide) (swapi : Bool) : HState :=
  if fs.ghost then hang_full_ghost st fs.rank fs.le fs.face swapi
  else hang_full_local st fs.le fs.face swapi

/-- One half quadrant of the hanging side: the hanging corner of the
small quadrant, with faces its face midpoint, and for local quadrants
the face-code update
`face_code[le] |= (1 << (P4EST_DIM + (face >> 1))) | childid`. -/
def hang_half (st : HState) (face : Fin 4) (q : HalfQuad) (j : Fin 2)
    (swapi : Bool) : HState :=
  let nodene := n_ccorn ⟨p4est_face_corners face ⟨1 - j.val, by omega⟩ % 4, by omega⟩
  let t := if swapi then 1 - j.val else j.val
  if q.ghost then
    let p := node_gregister st.me st.lni q.rank q.le nodene ConnectType.corner
    let st := { st with me := p.1, lni := some p.2 }
    if st.me.with_faces then
      let p0 := node_gregister st.me (getLnh st t) q.rank q.le (n_mface face) ConnectType.face
      setLnh { st with me := p0.1 } t p0.2
    else st
  else
    let p := node_lregister st.me st.lni q.le nodene ConnectType.corner
    let st := { st with me := p.1, lni := some p.2 }
    let st :=
      if st.me.with_faces then
        let p0 := node_lregister st.me (getLnh st t) q.le (n_mface face) ConnectType.face
        setLnh { st with me := p0.1 } t p0.2
      else st
    let childid := p4est_face_corners face j
    let fc := st.me.face_code q.le ||| ((1 <<< (2 + face.val / 2)) ||| childid)
    { st with me := face_code_write st.me q.le fc }

/-- The hanging side of a nonconforming face: both halves in order. -/
def hang_side_hang (st : HState) (hs : HangSide) (swapi : Bool) : HState :=
  let st := hang_half st hs.face hs.q0 0 swapi
  hang_half st hs.face hs.q1 1 swapi

/-- One side of a same-size face connection (`with_faces` only). -/
def conform_side (p : tnodes_meta × Option Nat) (s : FullSide) :
    tnodes_meta × Option Nat :=
  if s.ghost then
    let q := node_gregister p.1 p.2 s.rank s.le (n_mface s.face) ConnectType.face
    (q.1, some q.2)
  else
    let q := node_lregister p.1 p.2 s.le (n_mface s.face) ConnectType.face
    (q.1, some q.2)

/-- One side of a corner connection. -/
def corner_side (p : tnodes_meta × Option Nat) (s : CornerSide) :
    tnodes_meta × Option Nat :=
  if s.ghost then
    let q := node_gregister p.1 p.2 s.rank s.le (n_ccorn s.corner) ConnectType.corner
    (q.1, some q.2)
  else
    let q := node_lregister p.1 p.2 s.le (n_ccorn s.corner) ConnectType.corner
    (q.1, some q.2)

/-- A topology iterator callback event.  The iterator is external to the
core (`p4est_iterate`); it invokes the callbacks once per volume, face
connection and corner connection.  For a hanging face, `hangFirst`
records which array slot holds the hanging side and `orientation` the
face orientation bit used for the `swapi` pairing. -/
inductive Event where
  | volume (le level childid : Nat)
  | faceBoundary (le : Nat) (face : Fin 4)
  | faceConform (s0 s1 : FullSide)
  | faceHanging (orientation hangFirst : Bool) (fs : FullSide) (hs : HangSide)
  | cornerEvent (sides : List CornerSide)
deriving DecidableEq

/-- `iter_face1` and `iter_corner1` dispatched over one event; the side
at loop index 1 of a hanging face gets `swapi = orientation`. -/
def apply_event (me : tnodes_meta) : Event → tnodes_meta
  | Event.volume le level childid => iter_volume1 me le level childid
  | Event.faceBoundary le face =>
      if me.with_faces then
        (node_lregister me none le (n_mface face) ConnectType.face).1
      else me
  | Event.faceConform s0 s1 =>
      if me.with_faces then
        (conform_side (conform_side (me, none) s0) s1).1
      else me
  | Event.faceHanging orientation hangFirst fs hs =>
      let st0 : HState := ⟨me, none, none, none⟩
      if hangFirst then
        (hang_side_full (hang_side_hang st0 hs false) fs orientation).me
      else
        (hang_side_hang (hang_side_full st0 fs false) hs orientation).me
  | Event.cornerEvent sides =>
      (sides.foldl corner_side (me, none)).1

/-- A traversal: `p4est_iterate` invoking the callbacks over a list of
events. -/
def p4est_iterate (me : tnodes_meta) (evs : List Event) : tnodes_meta :=
  evs.foldl apply_event me

/-- The control structure as initialized by `p4est_tnodes_new` before
the traversal (element nodes all -1, configurations and face codes 0). -/
def init_meta (full_style with_faces : Bool) (mpirank : Nat) : tnodes_meta :=
  { full_style := full_style, with_faces := with_faces, mpirank := mpirank,
    construct := [], element_nodes := fun _ => -1,
    configuration := fun _ => 0, face_code := fun _ => 0, ok := true }

/-! ## Ownership election (`owned_query_reply`) -/

/-- A communication peer (`tnodes_peer_t`).  The C structure keeps only
the count `bufcount` and the last added node `lastadd` for reply
bookkeeping; the field `replylni` additionally records the sequence of
node ids passed to `peer_add_reply` (their count equals the bufcount
contribution), so that properties about replies can be stated. -/
structure tnodes_peer where
  rank     : Nat
  bufcount : Nat
  passive  : Nat
  lastadd  : Int
  sharedno : List Nat
  querypos : List Nat
  remosort : List Nat
  replylni : List Nat
deriving DecidableEq, Repr

instance : Inhabited tnodes_peer := ⟨⟨0, 0, 0, -1, [], [], [], []⟩⟩

/-- `peer_add_reply`: the local owner will receive a query for this node. -/
def peer_add_reply (p : tnodes_peer) (lni : Nat) : tnodes_peer :=
  { p with bufcount := p.bufcount + 1, lastadd := Int.ofNat lni,
           replylni := p.replylni ++ [lni] }

/-- `peer_add_query`: the local process queries the remote owner,
recording the queried owner position and the local candidate id. -/
def peer_add_query (p : tnodes_peer) (lni epos : Nat) : tnodes_peer :=
  { p with bufcount := p.bufcount + 1, lastadd := Int.ofNat lni,
           querypos := p.querypos ++ [epos], sharedno := p.sharedno ++ [lni] }

/-- `peer_access`: find the peer of rank `q`, creating it on first use. -/
def peer_access (peers : List tnodes_peer) (q : Nat) : List tnodes_peer × Nat :=
  match peers.findIdx? (fun p => p.rank = q) with
  | some i => (peers, i)
  | none => (peers ++ [{ rank := q, bufcount := 0, passive := 0, lastadd := -1,
                         sharedno := [], querypos := [], remosort := [],
                         replylni := [] }], peers.length)

def peer_update (peers : List tnodes_peer) (q : Nat)
    (f : tnodes_peer → tnodes_peer) : List tnodes_peer :=
  let pi := peer_access peers q
  pi.1.set pi.2 (f (pi.1.getD pi.2 default))

/-- The outcome of `owned_query_reply`: peers with their query buffers,
the owned node list in traversal order, and the counters.  (The C code
also resets each candidate's `runid` to -1 here; the sorting and reply
phases that subsequently assign final runids are modelled separately.) -/
structure qr_state where
  peers : List tnodes_peer
  ownsort : List Nat
  num_owned : Nat
  num_owned_shared : Nat
  num_shared : Nat
deriving DecidableEq, Repr

/-- The body of the `owned_query_reply` loop for candidate number `zz`:
owned candidates join `ownsort` and trigger replies towards every
sharing process; remotely owned candidates without local contributor
are weeded out; the remaining ones count passive shares and post one
query to the owner. -/
def oqr_step (me_rank vn : Nat) (st : qr_state) (zzcn : Nat × tnodes_cnode) :
    qr_state :=
  let zz := zzcn.1
  let cn := zzcn.2
  if owner_rank cn = me_rank then
    let st := { st with ownsort := st.ownsort ++ [zz],
                        num_owned := st.num_owned + 1 }
    let st := cn.contr.foldl (fun s contr =>
      if contr.rank ≠ me_rank then
        { s with peers := peer_update s.peers contr.rank (fun p => peer_add_reply p zz) }
      else s) st
    if cn.contr.length > 1 then
      { st with num_owned_shared := st.num_owned_shared + 1 }
    else st
  else
    if cn.contr.any (fun c => c.rank = me_rank) then
      let st := cn.contr.foldl (fun s contr =>
        if contr.rank ≠ me_rank ∧ contr.rank ≠ owner_rank cn then
          { s with peers := peer_update s.peers contr.rank (fun p => { p with passive := p.passive + 1 }) }
        else s) st
      let epos := (ownerContr cn).le * vn + (ownerContr cn).nodene
      let addq := fun p =>
        let p1 := peer_add_query p zz epos
        { p1 with remosort := p1.remosort ++ [zz] }
      let st := { st with peers := peer_update st.peers (owner_rank cn) addq }
      { st with num_shared := st.num_shared + 1 }
    else
      st

/-- `owned_query_reply` over the whole candidate table. -/
def owned_query_reply (me : tnodes_meta) : qr_state :=
  me.construct.enum.foldl (oqr_step me.mpirank (vnodes me.with_faces))
    { peers := [], ownsort := [], num_owned := 0, num_owned_shared := 0,
      num_shared := 0 }

/-- Modelled from the spec: the topology iterator (`p4est_iterate`,
an external collaborator per the system overview) invokes, for a single
rank holding one unit (level 0) element, the volume callback once, the
face callback once per tree-boundary face, and the corner callback once
per corner with the element as only side. -/
def c8_events : List Event :=
  [Event.volume 0 0 0,
   Event.faceBoundary 0 0, Event.faceBoundary 0 1,
   Event.faceBoundary 0 2, Event.faceBoundary 0 3,
   Event.cornerEvent [⟨false, 0, 0, 0⟩], Event.cornerEvent [⟨false, 0, 0, 1⟩],
   Event.cornerEvent [⟨false, 0, 0, 2⟩], Event.cornerEvent [⟨false, 0, 0, 3⟩]]

/-- C8: on a single rank with a single level-0 element, full_style true
and with_faces false, the construction yields owned_count = 5 (four
corners plus the center), num_shared = 0, and configuration[0] = 32. -/
theorem C8_single_element_counts :
    (owned_query_reply (p4est_iterate (init_meta true false 0) c8_events)).num_owned
        = 5 ∧
    (owned_query_reply (p4est_iterate (init_meta true false 0) c8_events)).num_shared
        = 0 ∧
    (p4est_iterate (init_meta true false 0) c8_events).configuration 0 = 32 :=
  ⟨by decide, by decide, by decide⟩

/-! ## Unfolding lemmas for `node_register` -/

lemma getD_append_len2 {α : Type} (L : List α) (v d : α) :
    (L ++ [v]).getD L.length d = v := by
  simp [List.getD_eq_getElem?_getD, List.getElem?_append_right]

lemma set_append_len {α : Type} (L : List α) (x v : α) :
    (L ++ [x]).set L.length v = L ++ [v] := by
  apply List.ext_getElem?
  intro j
  rcases Nat.lt_trichotomy j L.length with hj | hj | hj
  · rw [List.getElem?_set_ne (Nat.ne_of_lt hj).symm]
    rw [List.getElem?_append_left hj, List.getElem?_append_left hj]
  · subst hj
    have h1 : L.length < (L ++ [x]).length := by simp
    rw [List.getElem?_set_self h1]
    rw [List.getElem?_append_right (le_refl _)]
    simp
  · rw [List.getElem?_set_ne (by omega)]
    have h2 : (L ++ [x])[j]? = none := List.getElem?_eq_none (by simp; omega)
    have h3 : (L ++ [v])[j]? = none := List.getElem?_eq_none (by simp; omega)
    rw [h2, h3]

lemma cnode_register_fresh (lni : Int) (bcon : ConnectType)
    (rank le nodene : Nat) :
    cnode_register (fresh_cnode lni bcon) rank le nodene =
      { runid := lni, bcon := bcon, owner := 0, contr := [⟨nodene, rank, le⟩] } := by
  unfold cnode_register fresh_cnode find_rank_idx
  simp

/-- A local registration of a fresh candidate, as one equation: the
returned id is the old table length, one singleton candidate is
appended, the element slot is written and the sentinel check folded
into `ok`. -/
lemma node_register_none_local (me : tnodes_meta) (le nodene : Nat)
    (bcon : ConnectType) :
    node_lregister me none le nodene bcon =
      ({ me with
         construct := me.construct ++
           [{ runid := Int.ofNat me.construct.length, bcon := bcon, owner := 0,
              contr := [⟨nodene, me.mpirank, le⟩] }],
         element_nodes := fun j =>
           if j = le * vnodes me.with_faces + nodene then Int.ofNat me.construct.length
           else me.element_nodes j,
         ok := me.ok && (me.element_nodes (le * vnodes me.with_faces + nodene) == -1) },
       me.construct.length) := by
  simp only [node_lregister, node_register, en_write, vnodes, Option.getD_none,
    eq_self_iff_true, if_true]
  rw [getD_append_len2, set_append_len, cnode_register_fresh]

/-- A ghost registration of a fresh candidate: only the candidate table
changes; the appended singleton carries the ghost rank. -/
lemma node_register_none_ghost (me : tnodes_meta) (rank le nodene : Nat)
    (bcon : ConnectType) (h : rank ≠ me.mpirank) :
    node_gregister me none rank le nodene bcon =
      ({ me with
         construct := me.construct ++
           [{ runid := Int.ofNat me.construct.length, bcon := bcon, owner := 0,
              contr := [⟨nodene, rank, le⟩] }] },
       me.construct.length) := by
  simp only [node_gregister, node_register, en_write, vnodes, Option.getD_some,
    if_neg h]
  rw [getD_append_len2, set_append_len, cnode_register_fresh]

/-- A local registration into the existing candidate `i`. -/
lemma node_register_some_local (me : tnodes_meta) (i le nodene : Nat)
    (bcon : ConnectType) :
    node_lregister me (some i) le nodene bcon =
      ({ me with
         construct := me.construct.set i
           (cnode_register (me.construct.getD i (fresh_cnode (-1) bcon))
             me.mpirank le nodene),
         element_nodes := fun j =>
           if j = le * vnodes me.with_faces + nodene then Int.ofNat i
           else me.element_nodes j,
         ok := me.ok && (me.element_nodes (le * vnodes me.with_faces + nodene) == -1) },
       i) := by
  simp only [node_lregister, node_register, en_write, vnodes, Option.getD_none,
    eq_self_iff_true, if_true]

/-- A ghost registration into the existing candidate `i`. -/
lemma node_register_some_ghost (me : tnodes_meta) (rank i le nodene : Nat)
    (bcon : ConnectType) (h : rank ≠ me.mpirank) :
    node_gregister me (some i) rank le nodene bcon =
      ({ me with
         construct := me.construct.set i
           (cnode_register (me.construct.getD i (fresh_cnode (-1) bcon))
             rank le nodene) },
       i) := by
  simp only [node_gregister, node_register, en_write, vnodes, Option.getD_some,
    if_neg h]

/-! ## C5: the volume callback and the center node -/

/-- C5 counterexample: a half-style element above level 0 without faces
registers no candidate at all in the volume callback — in particular no
center node, contradicting the claim that the center is always emitted. -/
theorem C5_center_counterexample :
    (iter_volume1 (init_meta false false 0) 0 1 1).construct = [] ∧
    (iter_volume1 (init_meta false false 0) 0 1 1).element_nodes
      (0 * vnodes (init_meta false false 0).with_faces + n_center) = -1 :=
  ⟨by decide, by decide⟩

lemma getD_append_left2 {α : Type} {L L' : List α} {i : Nat} (h : i < L.length)
    (d : α) : (L ++ L').getD i d = L.getD i d :=
  List.getD_append L L' d i h

lemma n_cface_bounds (j : Fin 4) : 9 ≤ n_cface j ∧ n_cface j ≤ 12 := by
  fin_cases j <;> simp [n_cface]

/-- The corner-midpoint loop of the volume callback only appends fresh
candidates and writes the four `n_cface` slots of its element. -/
lemma cface_fold_spec (js : List (Fin 4)) (le : Nat) :
    ∀ me : tnodes_meta,
      (∃ tail,
        (js.foldl (fun m j =>
          (node_lregister m none le (n_cface j) ConnectType.face).1) me).construct
          = me.construct ++ tail) ∧
      (js.foldl (fun m j =>
          (node_lregister m none le (n_cface j) ConnectType.face).1) me).with_faces
        = me.with_faces ∧
      ∀ s, (∀ j ∈ js, s ≠ le * vnodes me.with_faces + n_cface j) →
        (js.foldl (fun m j =>
          (node_lregister m none le (n_cface j) ConnectType.face).1) me).element_nodes s
          = me.element_nodes s := by
  induction js with
  | nil =>
      intro me
      exact ⟨⟨[], by simp⟩, rfl, fun s _ => rfl⟩
  | cons j js ih =>
      intro me
      rw [List.foldl_cons]
      obtain ⟨⟨tail, htail⟩, hwf, hen⟩ :=
        ih ((node_lregister me none le (n_cface j) ConnectType.face).1)
      have hme1 := node_register_none_local me le (n_cface j) ConnectType.face
      have h1 : ((node_lregister me none le (n_cface j) ConnectType.face).1).construct
          = me.construct ++
            [{ runid := Int.ofNat me.construct.length, bcon := ConnectType.face,
               owner := 0, contr := [⟨n_cface j, me.mpirank, le⟩] }] := by
        rw [hme1]
      have h2 : ((node_lregister me none le (n_cface j) ConnectType.face).1).with_faces
          = me.with_faces := by
        rw [hme1]
      have h3 : ∀ s, s ≠ le * vnodes me.with_faces + n_cface j →
          ((node_lregister me none le (n_cface j) ConnectType.face).1).element_nodes s
            = me.element_nodes s := by
        intro s hs
        rw [hme1]
        exact if_neg hs
      refine ⟨⟨{ runid := Int.ofNat me.construct.length, bcon := ConnectType.face,
                 owner := 0, contr := [⟨n_cface j, me.mpirank, le⟩] } :: tail, ?_⟩,
               ?_, ?_⟩
      · rw [htail, h1, List.append_assoc, List.singleton_append]
      · rw [hwf, h2]
      · intro s hs
        have hs' : s ≠ le * vnodes me.with_faces + n_cface j :=
          hs j (List.mem_cons_self j js)
        have havoid : ∀ j' ∈ js, s ≠ le *
            vnodes ((node_lregister me none le (n_cface j) ConnectType.face).1).with_faces
              + n_cface j' := by
          intro j' hj'
          rw [h2]
          exact hs j' (List.mem_cons_of_mem j hj')
        rw [hen s havoid]
        exact h3 s hs'

/-- C5 amended: the volume callback emits a center candidate as
corner-codim exactly when the element is full-style (`full_style` set or
level 0); otherwise it emits the center only when faces are included, as
a face-codim candidate; with half style and no faces, no center node
(indeed no candidate at all) is emitted. -/
theorem C5_volume_center_amended (me : tnodes_meta) (le level childid : Nat) :
    ((me.full_style = true ∨ level = 0) →
      (iter_volume1 me le level childid).element_nodes
          (le * vnodes me.with_faces + n_center) = Int.ofNat me.construct.length ∧
      (iter_volume1 me le level childid).construct.getD me.construct.length
          (fresh_cnode (-1) ConnectType.face)
        = { runid := Int.ofNat me.construct.length, bcon := ConnectType.corner,
            owner := 0, contr := [⟨n_center, me.mpirank, le⟩] }) ∧
    (me.full_style = false → level ≠ 0 → me.with_faces = true →
      (iter_volume1 me le level childid).element_nodes
          (le * vnodes me.with_faces + n_center) = Int.ofNat me.construct.length ∧
      (iter_volume1 me le level childid).construct.getD me.construct.length
          (fresh_cnode (-1) ConnectType.face)
        = { runid := Int.ofNat me.construct.length, bcon := ConnectType.face,
            owner := 0, contr := [⟨n_center, me.mpirank, le⟩] }) ∧
    (me.full_style = false → level ≠ 0 → me.with_faces = false →
      (iter_volume1 me le level childid).construct = me.construct ∧
      (iter_volume1 me le level childid).element_nodes = me.element_nodes) := by
  refine ⟨?_, ?_, ?_⟩
  · intro hfull
    have hcond : (me.full_style = true) ∨ level = 0 := hfull
    simp only [iter_volume1, config_write]
    rw [if_pos hcond, node_register_none_local]
    by_cases hwf : me.with_faces = true
    · simp only [hwf, if_true]
      obtain ⟨⟨tail, htail⟩, _, hen⟩ := cface_fold_spec (List.finRange 4) le _
      constructor
      · rw [hen]
        · dsimp only
          exact if_pos rfl
        · intro j _ heq
          dsimp only at heq
          have hb := n_cface_bounds j
          simp only [n_center] at heq
          omega
      · rw [htail]
        dsimp only
        rw [getD_append_left2 (by simp)]
        exact getD_append_len2 _ _ _
    · have hwf' : me.with_faces = false := by
        cases h : me.with_faces
        · rfl
        · exact absurd h hwf
      simp only [hwf']
      rw [if_neg (by simp : ¬(false = true))]
      constructor
      · exact if_pos rfl
      · exact getD_append_len2 _ _ _
  · intro hfs hlev hwf
    have hcond : ¬((me.full_style = true) ∨ level = 0) := by
      rintro (h | h)
      · rw [hfs] at h; cases h
      · exact hlev h
    simp only [iter_volume1, config_write]
    rw [if_neg hcond]
    by_cases hch : childid = 1 ∨ childid = 2
    · simp only [hch, if_true, hwf, node_register_none_local]
      refine ⟨?_, ?_⟩ <;>
        first
          | trivial
          | exact if_pos rfl
          | exact getD_append_len2 _ _ _
    · simp only [hch, if_false, hwf, node_register_none_local]
      refine ⟨?_, ?_⟩ <;>
        first
          | trivial
          | exact if_pos rfl
          | exact getD_append_len2 _ _ _
  · intro hfs hlev hwf
    have hcond : ¬((me.full_style = true) ∨ level = 0) := by
      rintro (h | h)
      · rw [hfs] at h; cases h
      · exact hlev h
    simp only [iter_volume1, config_write]
    rw [if_neg hcond]
    by_cases hch : childid = 1 ∨ childid = 2
    · simp only [hch, if_true, hwf, if_false]
      refine ⟨?_, ?_⟩ <;> trivial
    · simp only [hch, if_false, hwf]
      refine ⟨?_, ?_⟩ <;> trivial

/-- Witness for C5's amended statement at concrete inputs: the full
branch at level 0 and the no-faces half branch at level 1. -/
theorem C5_volume_center_amended_witness :
    ((init_meta true false 0).full_style = true ∨ (0 : Nat) = 0) ∧
    (iter_volume1 (init_meta true false 0) 0 0 0).element_nodes
        (0 * vnodes (init_meta true false 0).with_faces + n_center) = Int.ofNat 0 ∧
    (iter_volume1 (init_meta true false 0) 0 0 0).construct.getD 0
        (fresh_cnode (-1) ConnectType.face)
      = { runid := Int.ofNat 0, bcon := ConnectType.corner, owner := 0,
          contr := [⟨n_center, 0, 0⟩] } := by
  refine ⟨Or.inl rfl, ?_⟩
  have h := (C5_volume_center_amended (init_meta true false 0) 0 0 0).1
    (Or.inl rfl)
  exact h

end P4est

namespace P4est

/-! ## C6: the configuration code domain -/

/-- The finalization index mapping of `assign_element_nodes`:
`cind = config` for `config <= 16`, and table row 17 for the sentinel
(asserted to be 32). -/
def config_cind (c : Nat) : Nat := if c ≤ 16 then c else 17

/-- The 18 legal configuration values: {0..16} as stored directly plus
the full-style sentinel 32. -/
def config_domain (c : Nat) : Prop := c ≤ 16 ∨ c = 32

lemma config_face_update_domain (c : Nat) (f : Fin 4)
    (h : config_domain c) : config_domain (config_face_update c f) := by
  left
  unfold config_face_update
  have hand : c &&& 207 ≤ 15 := by
    rcases h with h | h
    · rcases Nat.lt_or_ge c 16 with h16 | h16
      · exact le_trans Nat.and_le_left (by omega)
      · have : c = 16 := by omega
        subst this; decide
    · subst h; decide
  have hand' : c &&& 207 < 2 ^ 4 := by omega
  have hsh : (1 <<< f.val) < 2 ^ 4 := by fin_cases f <;> decide
  have hor := Nat.or_lt_two_pow hand' hsh
  omega

lemma node_register_config (me : tnodes_meta) (olni orank : Option Nat)
    (le nodene : Nat) (bcon : ConnectType) :
    (node_register me olni orank le nodene bcon).1.configuration
      = me.configuration := by
  cases olni <;>
    · simp only [node_register, en_write]
      split <;> rfl

lemma node_lfacetocorner_config (me : tnodes_meta) (le nodene : Nat) :
    (node_lfacetocorner me le nodene).configuration = me.configuration := by
  simp only [node_lfacetocorner]
  split <;> rfl

lemma node_lregister_config (me : tnodes_meta) (olni : Option Nat)
    (le nodene : Nat) (bcon : ConnectType) :
    (node_lregister me olni le nodene bcon).1.configuration = me.configuration :=
  node_register_config me olni none le nodene bcon

lemma cface_fold_config (js : List (Fin 4)) (le : Nat) :
    ∀ me : tnodes_meta,
      (js.foldl (fun m j =>
        (node_lregister m none le (n_cface j) ConnectType.face).1) me).configuration
        = me.configuration := by
  induction js with
  | nil => intro me; rfl
  | cons j js ih =>
      intro me
      rw [List.foldl_cons, ih]
      exact node_register_config _ _ _ _ _ _

lemma iter_volume1_config_domain (me : tnodes_meta) (le level childid l : Nat)
    (h : config_domain (me.configuration l)) :
    config_domain ((iter_volume1 me le level childid).configuration l) := by
  simp only [iter_volume1, config_write]
  split
  · split
    · rw [cface_fold_config, node_lregister_config]
      simp only
      split
      · right; rfl
      · exact h
    · rw [node_lregister_config]
      simp only
      split
      · right; rfl
      · exact h
  · split
    · split
      · rw [node_lregister_config]
        simp only
        split
        · left; omega
        · exact h
      · simp only
        split
        · left; omega
        · exact h
    · split
      · rw [node_lregister_config]
        exact h
      · exact h

lemma conform_side_config (p : tnodes_meta × Option Nat) (s : FullSide) :
    (conform_side p s).1.configuration = p.1.configuration := by
  simp only [conform_side, node_lregister, node_gregister]
  split <;> exact node_register_config _ _ _ _ _ _

lemma corner_fold_config (sides : List CornerSide) :
    ∀ p : tnodes_meta × Option Nat,
      (sides.foldl corner_side p).1.configuration = p.1.configuration := by
  induction sides with
  | nil => intro p; rfl
  | cons s sides ih =>
      intro p
      rw [List.foldl_cons, ih]
      simp only [corner_side, node_lregister, node_gregister]
      split <;> exact node_register_config _ _ _ _ _ _

lemma hang_half_config (st : HState) (face : Fin 4) (q : HalfQuad) (j : Fin 2)
    (swapi : Bool) :
    (hang_half st face q j swapi).me.configuration = st.me.configuration := by
  simp only [hang_half, face_code_write, setLnh, getLnh,
    node_lregister, node_gregister]
  repeat' split
  all_goals simp only
  all_goals repeat rw [node_register_config]

lemma hang_full_ghost_config (st : HState) (rank le : Nat) (face : Fin 4)
    (swapi : Bool) :
    (hang_full_ghost st rank le face swapi).me.configuration
      = st.me.configuration := by
  simp only [hang_full_ghost, setLnh, getLnh, node_gregister]
  repeat' split
  all_goals simp only
  all_goals repeat rw [node_register_config]

end P4est

namespace P4est

lemma node_gregister_config (me : tnodes_meta) (olni : Option Nat)
    (rank le nodene : Nat) (bcon : ConnectType) :
    (node_gregister me olni rank le nodene bcon).1.configuration = me.configuration :=
  node_register_config me olni (some rank) le nodene bcon

lemma hang_promote_config (me : tnodes_meta) (le : Nat) :
    (hang_promote me le).configuration = me.configuration := by
  simp only [hang_promote]
  repeat' split
  all_goals
    simp only [node_lregister_config, cface_fold_config, node_lfacetocorner_config]

lemma hang_full_local_config (st : HState) (le : Nat) (face : Fin 4)
    (swapi : Bool) :
    (hang_full_local st le face swapi).me.configuration =
      fun l => if l = le then config_face_update (st.me.configuration le) face
               else st.me.configuration l := by
  simp only [hang_full_local, config_write, setLnh, getLnh]
  repeat' split
  all_goals simp only [node_lregister_config, hang_promote_config]

lemma hang_side_hang_config (st : HState) (hs : HangSide) (swapi : Bool) :
    (hang_side_hang st hs swapi).me.configuration = st.me.configuration := by
  simp only [hang_side_hang]
  rw [hang_half_config, hang_half_config]

lemma hang_side_full_config_domain (st : HState) (fs : FullSide) (swapi : Bool)
    (h : ∀ l, config_domain (st.me.configuration l)) :
    ∀ l, config_domain ((hang_side_full st fs swapi).me.configuration l) := by
  intro l
  simp only [hang_side_full]
  split
  · rw [hang_full_ghost_config]
    exact h l
  · rw [hang_full_local_config]
    dsimp only
    split
    · exact config_face_update_domain _ _ (h fs.le)
    · exact h l

lemma apply_event_config_domain (ev : Event) (me : tnodes_meta)
    (h : ∀ l, config_domain (me.configuration l)) :
    ∀ l, config_domain ((apply_event me ev).configuration l) := by
  cases ev with
  | volume le level childid =>
      intro l
      exact iter_volume1_config_domain me le level childid l (h l)
  | faceBoundary le face =>
      intro l
      simp only [apply_event]
      split
      · rw [node_lregister_config]
        exact h l
      · exact h l
  | faceConform s0 s1 =>
      intro l
      simp only [apply_event]
      split
      · rw [conform_side_config, conform_side_config]
        exact h l
      · exact h l
  | faceHanging orientation hangFirst fs hs =>
      intro l
      simp only [apply_event]
      split
      · refine hang_side_full_config_domain _ fs orientation ?_ l
        intro l'
        rw [hang_side_hang_config]
        exact h l'
      · rw [hang_side_hang_config]
        exact hang_side_full_config_domain ⟨me, none, none, none⟩ fs false h l
  | cornerEvent sides =>
      intro l
      simp only [apply_event]
      rw [corner_fold_config]
      exact h l

lemma p4est_iterate_config_domain (evs : List Event) :
    ∀ me, (∀ l, config_domain (me.configuration l)) →
      ∀ l, config_domain ((p4est_iterate me evs).configuration l) := by
  induction evs with
  | nil => intro me h l; exact h l
  | cons ev evs ih =>
      intro me h l
      rw [p4est_iterate, List.foldl_cons]
      exact ih (apply_event me ev) (apply_event_config_domain ev me h) l

/-- C6: after any traversal every element's configuration value lies in
{0..16} ∪ {32}; the finalization index maps 32 to table row 17 and is
the identity on {0..16}; and the nonconforming-face update sets the
split bit of its face and clears bits 4 and 5. -/
theorem C6_configuration_domain (full_style with_faces : Bool) (mpirank : Nat)
    (evs : List Event) (le : Nat) :
    config_domain
      ((p4est_iterate (init_meta full_style with_faces mpirank) evs).configuration le) ∧
    config_cind 32 = 17 ∧
    (∀ c, c ≤ 16 → config_cind c = c) ∧
    (∀ c (f : Fin 4),
      (config_face_update c f).testBit f.val = true ∧
      (config_face_update c f).testBit 4 = false ∧
      (config_face_update c f).testBit 5 = false) := by
  refine ⟨?_, rfl, ?_, ?_⟩
  · exact p4est_iterate_config_domain evs _ (fun l => Or.inl (by simp [init_meta])) le
  · intro c hc
    unfold config_cind
    rw [if_pos hc]
  · intro c f
    unfold config_face_update
    refine ⟨?_, ?_, ?_⟩
    · fin_cases f <;> simp [Nat.testBit_lor] <;>
        first
          | trivial
          | exact Or.inr (by decide)
    · fin_cases f <;> simp [Nat.testBit_lor, Nat.testBit_land] <;>
        first
          | trivial
          | exact ⟨fun _ => by decide, by decide⟩
    · fin_cases f <;> simp [Nat.testBit_lor, Nat.testBit_land] <;>
        first
          | trivial
          | exact ⟨fun _ => by decide, by decide⟩

/-- Witness for C6 at a concrete traversal, discharging the inner bound
hypothesis at c = 16. -/
theorem C6_configuration_domain_witness :
    config_domain
      ((p4est_iterate (init_meta false false 0)
        [Event.volume 0 1 1]).configuration 0) ∧
    config_cind 32 = 17 ∧
    ((16 : Nat) ≤ 16 ∧ config_cind 16 = 16) ∧
    (config_face_update 16 2).testBit 2 = true ∧
    (config_face_update 16 2).testBit 4 = false ∧
    (config_face_update 16 2).testBit 5 = false := by
  have h := C6_configuration_domain false false 0 [Event.volume 0 1 1] 0
  exact ⟨h.1, h.2.1, ⟨by decide, h.2.2.1 16 (by decide)⟩, h.2.2.2 16 2⟩

end P4est

namespace P4est

/-! ## C7: the global offset scan (`sort_allgather`) -/

/-- The scan loop of `sort_allgather`:
`gc = me->goffset[0] = 0; for (q = 0; q < s; ++q)
   gc = me->goffset[q + 1] = gc + ln->global_owned_count[q];`. -/
def goffset_loop : List Nat → Nat → List Nat
  | [], _ => []
  | c :: rest, gc => (gc + c) :: goffset_loop rest (gc + c)

/-- The global offset vector computed from the gathered owned counts. -/
def goffset (counts : List Nat) : List Nat := 0 :: goffset_loop counts 0

lemma goffset_loop_length (counts : List Nat) :
    ∀ gc, (goffset_loop counts gc).length = counts.length := by
  induction counts with
  | nil => intro gc; rfl
  | cons c rest ih => intro gc; simp [goffset_loop, ih]

lemma goffset_loop_getD (counts : List Nat) :
    ∀ gc i, i < counts.length →
      (goffset_loop counts gc).getD i 0 = gc + (counts.take (i + 1)).sum := by
  induction counts with
  | nil => intro gc i h; cases h
  | cons c rest ih =>
      intro gc i h
      cases i with
      | zero => simp [goffset_loop]
      | succ i =>
          have h' : i < rest.length := by simpa using h
          show (goffset_loop rest (gc + c)).getD i 0 = _
          rw [ih (gc + c) i h']
          have : ((c :: rest).take (i + 1 + 1)).sum = c + (rest.take (i + 1)).sum := by
            simp [List.take, List.sum_cons]
          omega

/-- Closed form: the q-th global offset is the sum of the first q owned
counts. -/
lemma goffset_getD (counts : List Nat) (q : Nat) (hq : q ≤ counts.length) :
    (goffset counts).getD q 0 = (counts.take q).sum := by
  cases q with
  | zero => rfl
  | succ q =>
      show (goffset_loop counts 0).getD q 0 = _
      rw [goffset_loop_getD counts 0 q (by omega)]
      omega

lemma goffset_mono (counts : List Nat) (q q' : Nat) (h : q ≤ q')
    (h' : q' ≤ counts.length) :
    (goffset counts).getD q 0 ≤ (goffset counts).getD q' 0 := by
  rw [goffset_getD counts q (le_trans h h'), goffset_getD counts q' h']
  have hsplit : counts.take q' = counts.take q ++ (counts.drop q).take (q' - q) := by
    rw [← List.take_add]
    congr 1
    omega
  rw [hsplit, List.sum_append]
  omega

/-- In a monotone chain with `f 0 ≤ x < f n` there is exactly one
interval `[f q, f (q+1))` containing `x`. -/
lemma exists_unique_interval (f : Nat → Nat) (n : Nat)
    (hmono : ∀ a b, a ≤ b → b ≤ n → f a ≤ f b) :
    ∀ x, f 0 ≤ x → x < f n →
      ∃! q, q < n ∧ f q ≤ x ∧ x < f (q + 1) := by
  induction n with
  | zero =>
      intro x h0 hn
      exact absurd hn (by omega)
  | succ n ih =>
      intro x h0 hn
      by_cases hsplit : f n ≤ x
      · refine ⟨n, ⟨Nat.lt_succ_self n, hsplit, hn⟩, ?_⟩
        intro q' ⟨hq', hle', hlt'⟩
        by_contra hne
        have hq'n : q' < n := by omega
        have : f (q' + 1) ≤ f n := hmono (q' + 1) n (by omega) (by omega)
        omega
      · have hmono' : ∀ a b, a ≤ b → b ≤ n → f a ≤ f b :=
          fun a b hab hbn => hmono a b hab (by omega)
        obtain ⟨q, ⟨hq, hle, hlt⟩, huniq⟩ := ih hmono' x h0 (by omega)
        refine ⟨q, ⟨by omega, hle, hlt⟩, ?_⟩
        intro q' ⟨hq', hle', hlt'⟩
        by_cases hq'n : q' < n
        · exact huniq q' ⟨hq'n, hle', hlt'⟩
        · have : q' = n := by omega
          subst this
          exact absurd hle' hsplit

/-- C7: the global offset vector is the exclusive prefix scan of the
gathered owned counts: it starts at 0, obeys
goffset[q+1] = goffset[q] + count[q], is nondecreasing, ends at the
global total, and its consecutive intervals tile [0, total) with a
unique owner rank for every global number. -/
theorem C7_goffset_prefix_scan (counts : List Nat) :
    (goffset counts).length = counts.length + 1 ∧
    (goffset counts).getD 0 0 = 0 ∧
    (∀ q, q < counts.length →
      (goffset counts).getD (q + 1) 0 =
        (goffset counts).getD q 0 + counts.getD q 0) ∧
    (∀ q q', q ≤ q' → q' ≤ counts.length →
      (goffset counts).getD q 0 ≤ (goffset counts).getD q' 0) ∧
    (goffset counts).getD counts.length 0 = counts.sum ∧
    (∀ x, x < counts.sum → ∃! q, q < counts.length ∧
      (goffset counts).getD q 0 ≤ x ∧ x < (goffset counts).getD (q + 1) 0) := by
  refine ⟨?_, rfl, ?_, goffset_mono counts, ?_, ?_⟩
  · simp [goffset, goffset_loop_length]
  · intro q hq
    rw [goffset_getD counts q (by omega), goffset_getD counts (q + 1) (by omega)]
    rw [List.sum_take_succ counts q hq]
    rw [List.getD_eq_getElem counts 0 hq]
  · rw [goffset_getD counts counts.length (le_refl _), List.take_length]
  · intro x hx
    refine exists_unique_interval (fun q => (goffset counts).getD q 0)
      counts.length (fun a b hab hbn => goffset_mono counts a b hab hbn) x
      (by show (goffset counts).getD 0 0 ≤ x
          rw [goffset_getD counts 0 (by omega)]
          simp) ?_
    show x < (goffset counts).getD counts.length 0
    rw [goffset_getD counts counts.length (le_refl _), List.take_length]
    exact hx

/-- Witness for C7 at a concrete count vector, discharging the interval
hypothesis at a concrete global number. -/
theorem C7_goffset_prefix_scan_witness :
    (goffset [3, 0, 2]).length = 4 ∧
    (goffset [3, 0, 2]).getD 0 0 = 0 ∧
    (goffset [3, 0, 2]).getD 2 0 = 3 ∧
    (goffset [3, 0, 2]).getD 3 0 = 5 ∧
    ((4 : Nat) < ([3, 0, 2] : List Nat).sum ∧
      ∃! q, q < 3 ∧ (goffset [3, 0, 2]).getD q 0 ≤ 4 ∧
        4 < (goffset [3, 0, 2]).getD (q + 1) 0) := by
  have h := C7_goffset_prefix_scan [3, 0, 2]
  exact ⟨h.1, h.2.1, by decide, by decide,
    ⟨by decide, h.2.2.2.2.2 4 (by decide)⟩⟩

end P4est

namespace P4est

/-! ## C1: finalization (`set_element_node` / `assign_element_nodes`) -/

/-- `p4est_tnodes_config_count`: per configuration index the number of
corner-codim and face-codim nodes. -/
def p4est_tnodes_config_count : List (List Nat) :=
  [[4, 5], [6, 10], [6, 10], [7, 12], [6, 10], [7, 12], [7, 12], [8, 14],
   [6, 10], [7, 12], [7, 12], [8, 14], [7, 12], [8, 14], [8, 14], [9, 16],
   [4, 5], [5, 8]]

/-- `p4est_tnodes_config_corners`: per configuration index the padded
list of corner node positions. -/
def p4est_tnodes_config_corners : List (List Int) :=
  [[0, 1, 2, 3, -1, -1, -1, -1, -1],
   [0, 1, 2, 3, 4, 5, -1, -1, -1],
   [0, 1, 2, 3, 4, 6, -1, -1, -1],
   [0, 1, 2, 3, 4, 5, 6, -1, -1],
   [0, 1, 2, 3, 4, 7, -1, -1, -1],
   [0, 1, 2, 3, 4, 5, 7, -1, -1],
   [0, 1, 2, 3, 4, 6, 7, -1, -1],
   [0, 1, 2, 3, 4, 5, 6, 7, -1],
   [0, 1, 2, 3, 4, 8, -1, -1, -1],
   [0, 1, 2, 3, 4, 5, 8, -1, -1],
   [0, 1, 2, 3, 4, 6, 8, -1, -1],
   [0, 1, 2, 3, 4, 5, 6, 8, -1],
   [0, 1, 2, 3, 4, 7, 8, -1, -1],
   [0, 1, 2, 3, 4, 5, 7, 8, -1],
   [0, 1, 2, 3, 4, 6, 7, 8, -1],
   [0, 1, 2, 3, 4, 5, 6, 7, 8],
   [0, 1, 2, 3, -1, -1, -1, -1, -1],
   [0, 1, 2, 3, 4, -1, -1, -1, -1]]

/-- `p4est_tnodes_config_faces`: per configuration index the padded list
of face node positions. -/
def p4est_tnodes_config_faces : List (List Int) :=
  [[4, 5, 6, 7, 8, -1, -1, -1, -1, -1, -1, -1, -1, -1, -1, -1],
   [6, 7, 8, 9, 10, 11, 12, 13, 14, 15, -1, -1, -1, -1, -1, -1],
   [5, 7, 8, 9, 10, 11, 12, 16, 17, 18, -1, -1, -1, -1, -1, -1],
   [7, 8, 9, 10, 11, 12, 13, 14, 15, 16, 17, 18, -1, -1, -1, -1],
   [5, 6, 8, 9, 10, 11, 12, 19, 20, 21, -1, -1, -1, -1, -1, -1],
   [6, 8, 9, 10, 11, 12, 13, 14, 15, 19, 20, 21, -1, -1, -1, -1],
   [5, 8, 9, 10, 11, 12, 16, 17, 18, 19, 20, 21, -1, -1, -1, -1],
   [8, 9, 10, 11, 12, 13, 14, 15, 16, 17, 18, 19, 20, 21, -1, -1],
   [5, 6, 7, 9, 10, 11, 12, 22, 23, 24, -1, -1, -1, -1, -1, -1],
   [6, 7, 9, 10, 11, 12, 13, 14, 15, 22, 23, 24, -1, -1, -1, -1],
   [5, 7, 9, 10, 11, 12, 16, 17, 18, 22, 23, 24, -1, -1, -1, -1],
   [7, 9, 10, 11, 12, 13, 14, 15, 16, 17, 18, 22, 23, 24, -1, -1],
   [5, 6, 9, 10, 11, 12, 19, 20, 21, 22, 23, 24, -1, -1, -1, -1],
   [6, 9, 10, 11, 12, 13, 14, 15, 19, 20, 21, 22, 23, 24, -1, -1],
   [5, 9, 10, 11, 12, 16, 17, 18, 19, 20, 21, 22, 23, 24, -1, -1],
   [9, 10, 11, 12, 13, 14, 15, 16, 17, 18, 19, 20, 21, 22, 23, 24],
   [4, 5, 6, 7, 8, -1, -1, -1, -1, -1, -1, -1, -1, -1, -1, -1],
   [5, 6, 7, 8, 9, 10, 11, 12, -1, -1, -1, -1, -1, -1, -1, -1]]

/-- The finalization input: the flat element-node array still holding
candidate ids, the candidates' final runids (assigned by the sort and
the reply exchange), and the per-element configurations. -/
structure fin_state where
  with_faces : Bool
  element_nodes : List Int
  runids : List Int
  configuration : List Nat
deriving DecidableEq, Repr

/-- `set_element_node` exactly as written in the source: the candidate
id is read from `element_nodes[le * vnodes + nodene]` and its runid is
written back to `element_nodes[le]` (sic — not to
`element_nodes[le * vnodes + nodene]`). -/
def set_element_node (st : fin_state) (le nodene : Nat) : fin_state :=
  let vn := vnodes st.with_faces
  let lni := st.element_nodes.getD (le * vn + nodene) (-1)
  let runid := st.runids.getD lni.toNat (-1)
  { st with element_nodes := st.element_nodes.set le runid }

/-- The body of the `assign_element_nodes` loop for one element. -/
def assign_element_one (st : fin_state) (le : Nat) : fin_state :=
  let config := st.configuration.getD le 0
  let cind := config_cind config
  let ncorner := (p4est_tnodes_config_count.getD cind []).getD 0 0
  let st := (List.range ncorner).foldl (fun s ci =>
    set_element_node s le
      ((p4est_tnodes_config_corners.getD cind []).getD ci (-1)).toNat) st
  if st.with_faces then
    let nface := (p4est_tnodes_config_count.getD cind []).getD 1 0
    (List.range nface).foldl (fun s fi =>
      set_element_node s le
        ((p4est_tnodes_config_faces.getD cind []).getD fi (-1)).toNat) st
  else st

/-- `assign_element_nodes` over all local elements. -/
def assign_element_nodes (st : fin_state) (lel : Nat) : fin_state :=
  (List.range lel).foldl assign_element_one st

/-- The single-rank single-element scenario immediately before
finalization: `element_nodes` as produced by the traversal (candidate
ids: corners hold 1..4, the center holds 0) and the runids assigned by
the canonical sort (candidates 1..4 at positions 0..3 get runids 0..3,
the center candidate 0 gets runid 4); configuration 32. -/
def c1_state : fin_state :=
  { with_faces := false,
    element_nodes := [1, 2, 3, 4, 0, -1, -1, -1, -1],
    runids := [4, 0, 1, 2, 3],
    configuration := [32] }

/-- C1: `set_element_node` writes `element_nodes[le]` instead of
`element_nodes[le * vnodes + nodene]`.  On the single-element scenario
the populated slot (0, 1) still holds the candidate id 2 after
finalization, whereas the candidate reached through that slot has final
local index 1; slot 0 ends up holding the runid of the last processed
position instead of that of corner 0. -/
theorem C1_assign_element_nodes_bug :
    (assign_element_nodes c1_state 1).element_nodes
        = [4, 2, 3, 4, 0, -1, -1, -1, -1] ∧
    (assign_element_nodes c1_state 1).element_nodes.getD
        (0 * vnodes c1_state.with_faces + 1) (-1) = 2 ∧
    c1_state.runids.getD
        (c1_state.element_nodes.getD
          (0 * vnodes c1_state.with_faces + 1) (-1)).toNat (-1) = 1 :=
  ⟨by decide, by decide, by decide⟩

end P4est

namespace P4est

/-! ## C2: sharer population (`populate_sharers`) -/

/-- A sharer record (`p4est_lnodes_rank_t`), restricted to the fields
the two population loops touch. -/
structure lnodes_rank where
  rank : Nat
  shared_nodes : List Nat
deriving DecidableEq, Repr

instance : Inhabited lnodes_rank := ⟨⟨0, []⟩⟩

/-- `peer_sharer`/`locshare` resolution followed by the push of a local
node index onto the record's `shared_nodes` array.  The C code reaches
the record through the `sharind` index; with one record per rank this is
lookup by rank (`P4EST_ASSERT (sharer->rank == q)`). -/
def sharer_push (sharers : List lnodes_rank) (q : Nat) (lni : Nat) :
    List lnodes_rank :=
  match sharers.findIdx? (fun s => s.rank = q) with
  | some i =>
      sharers.set i
        { rank := (sharers.getD i default).rank,
          shared_nodes := (sharers.getD i default).shared_nodes ++ [lni] }
  | none => sharers

/-- The first loop of `populate_sharers`: owned nodes in sorted order;
every node with more than one contributor is appended to the record of
each of its contributors (the local process included). -/
def populate_owned_loop (construct : List tnodes_cnode) (ownsort : List Nat)
    (sharers : List lnodes_rank) : List lnodes_rank :=
  ownsort.enum.foldl (fun sh lclzz =>
    let cn := construct.getD lclzz.2 (fresh_cnode (-1) ConnectType.corner)
    if cn.contr.length = 1 then sh
    else cn.contr.foldl (fun sh contr => sharer_push sh contr.rank lclzz.1) sh)
    sharers

/-- The second loop of `populate_sharers`, exactly as written in the
source: for each remote node the contributor loop merely overwrites the
`sharer` variable, and the single push after the loop therefore goes to
the record of the node's **last** contributor only (`sharer` being
`locshare` when the last contributor is the local process).  A node
without contributors leaves `sharer` unset and is skipped here (the C
code asserts `contr.elem_count > 1`). -/
def populate_remote_loop (me_rank : Nat) (construct : List tnodes_cnode)
    (num_owned : Nat) (peers : List (Nat × List Nat))
    (sharers : List lnodes_rank) : List lnodes_rank :=
  (peers.foldl (fun shlni p =>
    if p.1 < me_rank then
      p.2.foldl (fun shlni zz =>
        let cn := construct.getD zz (fresh_cnode (-1) ConnectType.corner)
        match cn.contr.getLast? with
        | some c => (sharer_push shlni.1 c.rank shlni.2, shlni.2 + 1)
        | none => (shlni.1, shlni.2 + 1)) shlni
    else shlni) (sharers, num_owned)).1

/-- `populate_sharers`: both loops in order.  (The subsequent
sharer-offset bookkeeping touches no `shared_nodes` array and is not
modelled.) -/
def populate_sharers (me_rank : Nat) (construct : List tnodes_cnode)
    (ownsort : List Nat) (num_owned : Nat) (peers : List (Nat × List Nat))
    (sharers : List lnodes_rank) : List lnodes_rank :=
  populate_remote_loop me_rank construct num_owned peers
    (populate_owned_loop construct ownsort sharers)

/-- A two-rank state on rank 1: one shared-in node (local index 0, no
owned nodes) whose contributors are rank 0 (the owner) and the local
rank 1; one peer of rank 0 with that node in `remosort`; empty sharer
records for ranks 0 and 1. -/
def c2_construct : List tnodes_cnode :=
  [{ runid := 0, bcon := ConnectType.corner, owner := 0,
     contr := [⟨0, 0, 0⟩, ⟨1, 1, 0⟩] }]

def c2_sharers0 : List lnodes_rank := [⟨0, []⟩, ⟨1, []⟩]

/-- C2: the push in the remote loop of `populate_sharers` sits outside
the contributor loop, so only the last contributor's record receives the
node.  On rank 1, the shared-in node 0 is contributed by rank 0 (its
owner) and rank 1, yet after `populate_sharers` the sharer record of
rank 0 remains empty, while the claim requires node 0 to be appended to
every contributing rank's record. -/
theorem C2_populate_sharers_bug :
    ((c2_construct.getD 0 (fresh_cnode (-1) ConnectType.corner)).contr.map
        tnodes_contr.rank) = [0, 1] ∧
    (populate_sharers 1 c2_construct [] 0 [(0, [0])] c2_sharers0)
        = [⟨0, []⟩, ⟨1, [0]⟩] ∧
    ((populate_sharers 1 c2_construct [] 0 [(0, [0])] c2_sharers0).getD 0
        default).rank = 0 ∧
    ((populate_sharers 1 c2_construct [] 0 [(0, [0])] c2_sharers0).getD 0
        default).shared_nodes = [] :=
  ⟨by decide, by decide, by decide, by decide⟩

end P4est

namespace P4est

/-! ## C4: reply processing and the nonlocal table (`wait_query_reply`) -/

lemma goffset_succ (counts : List Nat) (q : Nat) (hq : q < counts.length) :
    (goffset counts).getD (q + 1) 0 =
      (goffset counts).getD q 0 + counts.getD q 0 := by
  rw [goffset_getD counts q (by omega), goffset_getD counts (q + 1) (by omega)]
  rw [List.sum_take_succ counts q hq]
  rw [List.getD_eq_getElem counts 0 hq]

/-- The reply data of one peer of lower rank: the owner-local runids
received and stored into the queried candidates
(`cnode->runid = oind`). -/
structure RPeer where
  rank : Nat
  runids : List Nat
deriving DecidableEq, Repr

/-- The nonlocal entries contributed by one peer: `remosort` sorted by
runid (`sc_array_sort (&peer->remosort, rnode_compare)`), each entry
being `gof + cnode->runid` for `gof = me->goffset[peer->rank]`. -/
def peer_nonlocal (g : List Nat) (p : RPeer) : List Nat :=
  (p.runids.insertionSort (· ≤ ·)).map (fun r => g.getD p.rank 0 + r)

/-- The whole `ln->nonlocal_nodes` array.  Each peer writes the slice
`[shacumul, shacumul + bufcount)` where `shacumul` is the cumulative
bufcount of lower-rank peers (`sort_peers`); since the slices are
disjoint and ordered by rank, the final array equals the rank-ordered
concatenation regardless of message arrival order. -/
def nonlocal_nodes (g : List Nat) (rpeers : List RPeer) : List Nat :=
  rpeers.flatMap (peer_nonlocal g)

lemma peer_nonlocal_mem (g : List Nat) (p : RPeer) (x : Nat)
    (hx : x ∈ peer_nonlocal g p) :
    ∃ r ∈ p.runids, x = g.getD p.rank 0 + r := by
  unfold peer_nonlocal at hx
  obtain ⟨r, hr, rfl⟩ := List.mem_map.mp hx
  exact ⟨r, (List.perm_insertionSort _ _).subset hr, rfl⟩

lemma peer_nonlocal_bounds (counts : List Nat) (p : RPeer)
    (hrank : p.rank < counts.length)
    (hbound : ∀ r ∈ p.runids, r < counts.getD p.rank 0) :
    ∀ x ∈ peer_nonlocal (goffset counts) p,
      (goffset counts).getD p.rank 0 ≤ x ∧
        x < (goffset counts).getD (p.rank + 1) 0 := by
  intro x hx
  obtain ⟨r, hr, rfl⟩ := peer_nonlocal_mem _ p x hx
  have hrec := goffset_succ counts p.rank hrank
  have hb := hbound r hr
  omega

lemma peer_nonlocal_pairwise (g : List Nat) (p : RPeer)
    (hnd : p.runids.Nodup) :
    List.Pairwise (· < ·) (peer_nonlocal g p) := by
  unfold peer_nonlocal
  refine List.pairwise_map.mpr ?_
  have hs := List.sorted_insertionSort (· ≤ ·) p.runids
  have hn : (p.runids.insertionSort (· ≤ ·)).Nodup :=
    (List.perm_insertionSort _ _).nodup_iff.mpr hnd
  exact (hs.and hn).imp (fun h => by omega)

lemma nonlocal_nodes_chain (counts : List Nat) (rpeers : List RPeer)
    (hpair : (rpeers.map RPeer.rank).Pairwise (· < ·))
    (hrk : ∀ p ∈ rpeers, p.rank < counts.length)
    (hbound : ∀ p ∈ rpeers, ∀ r ∈ p.runids, r < counts.getD p.rank 0)
    (hnodup : ∀ p ∈ rpeers, p.runids.Nodup) :
    List.Chain' (· < ·) (nonlocal_nodes (goffset counts) rpeers) := by
  induction rpeers with
  | nil => exact List.chain'_nil
  | cons p ps ih =>
      have hrest := ih (List.Pairwise.of_cons hpair)
        (fun q hq => hrk q (List.mem_cons_of_mem p hq))
        (fun q hq => hbound q (List.mem_cons_of_mem p hq))
        (fun q hq => hnodup q (List.mem_cons_of_mem p hq))
      show List.Chain' (· < ·) (peer_nonlocal (goffset counts) p ++
        nonlocal_nodes (goffset counts) ps)
      rw [List.chain'_append]
      refine ⟨List.chain'_iff_pairwise.mpr
        (peer_nonlocal_pairwise _ p (hnodup p (List.mem_cons_self p ps))), hrest, ?_⟩
      intro x hx y hy
      have hxmem : x ∈ peer_nonlocal (goffset counts) p :=
        List.mem_of_mem_getLast? hx
      have hymem : y ∈ nonlocal_nodes (goffset counts) ps :=
        List.mem_of_mem_head? hy
      obtain ⟨q, hq, hyq⟩ := List.exists_of_mem_flatMap hymem
      have hx2 := (peer_nonlocal_bounds counts p
        (hrk p (List.mem_cons_self p ps))
        (hbound p (List.mem_cons_self p ps)) x hxmem).2
      have hy1 := (peer_nonlocal_bounds counts q
         (hrk q (List.mem_cons_of_mem p hq))
         (hbound q (List.mem_cons_of_mem p hq)) y hyq).1
      have hpq : p.rank < q.rank := by
        have := List.rel_of_pairwise_cons hpair
          (List.mem_map.mpr ⟨q, hq, rfl⟩)
        exact this
      have hmono := goffset_mono counts (p.rank + 1) q.rank (by omega)
        (le_of_lt (hrk q (List.mem_cons_of_mem p hq)))
      omega

/-- C4: every nonlocal entry of a lower-rank peer equals the owner's
global offset plus a received owner-local runid (the slice being a
permutation of exactly those sums), lies inside the owner's global range
and hence strictly below the local rank's owned range, and the whole
`nonlocal_nodes` array is strictly increasing. -/
theorem C4_nonlocal_nodes_table (counts : List Nat) (me : Nat)
    (rpeers : List RPeer) (hme : me ≤ counts.length)
    (hpair : (rpeers.map RPeer.rank).Pairwise (· < ·))
    (hrank : ∀ p ∈ rpeers, p.rank < me)
    (hbound : ∀ p ∈ rpeers, ∀ r ∈ p.runids, r < counts.getD p.rank 0)
    (hnodup : ∀ p ∈ rpeers, p.runids.Nodup) :
    (∀ p ∈ rpeers, (peer_nonlocal (goffset counts) p).Perm
        (p.runids.map (fun r => (goffset counts).getD p.rank 0 + r))) ∧
    (∀ p ∈ rpeers, ∀ x ∈ peer_nonlocal (goffset counts) p,
        (goffset counts).getD p.rank 0 ≤ x ∧
          x < (goffset counts).getD (p.rank + 1) 0) ∧
    (∀ x ∈ nonlocal_nodes (goffset counts) rpeers,
        x < (goffset counts).getD me 0) ∧
    List.Chain' (· < ·) (nonlocal_nodes (goffset counts) rpeers) := by
  have hrk : ∀ p ∈ rpeers, p.rank < counts.length :=
    fun p hp => lt_of_lt_of_le (hrank p hp) hme
  refine ⟨?_, ?_, ?_, ?_⟩
  · intro p _
    exact (List.perm_insertionSort _ _).map _
  · intro p hp
    exact peer_nonlocal_bounds counts p (hrk p hp) (hbound p hp)
  · intro x hx
    obtain ⟨p, hp, hxp⟩ := List.exists_of_mem_flatMap hx
    have h2 := (peer_nonlocal_bounds counts p (hrk p hp) (hbound p hp) x hxp).2
    have hmono := goffset_mono counts (p.rank + 1) me (hrank p hp) hme
    omega
  · exact nonlocal_nodes_chain counts rpeers hpair hrk hbound hnodup

/-- Witness for C4: three ranks, the local rank 2 holding replies from
peers 0 and 1. -/
theorem C4_nonlocal_nodes_table_witness :
    ((2 : Nat) ≤ ([2, 3, 1] : List Nat).length) ∧
    (∀ p ∈ [RPeer.mk 0 [1, 0], RPeer.mk 1 [2, 0]],
      ∀ x ∈ peer_nonlocal (goffset [2, 3, 1]) p,
        (goffset [2, 3, 1]).getD p.rank 0 ≤ x ∧
          x < (goffset [2, 3, 1]).getD (p.rank + 1) 0) ∧
    (∀ x ∈ nonlocal_nodes (goffset [2, 3, 1])
        [RPeer.mk 0 [1, 0], RPeer.mk 1 [2, 0]],
      x < (goffset [2, 3, 1]).getD 2 0) ∧
    List.Chain' (· < ·) (nonlocal_nodes (goffset [2, 3, 1])
        [RPeer.mk 0 [1, 0], RPeer.mk 1 [2, 0]]) := by
  have h := C4_nonlocal_nodes_table [2, 3, 1] 2
    [RPeer.mk 0 [1, 0], RPeer.mk 1 [2, 0]]
    (by decide) (by decide) (by decide) (by decide) (by decide)
  exact ⟨by decide, h.2.1, h.2.2.1, h.2.2.2⟩

end P4est

namespace P4est

/-! ## C10: interior node positions are never shared -/

/-- `alwaysowned[nodene]` as a Boolean test. -/
def is_alwaysowned (n : Nat) : Bool := alwaysowned.getD n 0 != 0

instance : Inhabited tnodes_cnode := ⟨fresh_cnode (-1) ConnectType.face⟩

/-- A candidate none of whose contributions sits at an interior
(always-owned) position. -/
def contr_clean (cn : tnodes_cnode) : Prop :=
  ∀ c ∈ cn.contr, is_alwaysowned c.nodene = false

/-- A candidate with exactly one, local, contribution (as created by a
`node_lregister (..., NULL, ...)` call) and the owner pointing at it. -/
def cnode_interior (mpirank : Nat) (cn : tnodes_cnode) : Prop :=
  (∃ c, cn.contr = [c] ∧ c.rank = mpirank) ∧ cn.owner = 0

/-- The registry dichotomy: every candidate either has only
non-interior contributions, or is a purely local singleton. -/
def interior_inv (me : tnodes_meta) : Prop :=
  ∀ cn ∈ me.construct, contr_clean cn ∨ cnode_interior me.mpirank cn

/-- A threaded `lni` variable points at a candidate with only
non-interior contributions. -/
def lni_ok (me : tnodes_meta) (olni : Option Nat) : Prop :=
  ∀ i, olni = some i → i < me.construct.length ∧
    contr_clean (me.construct.getD i default)

lemma lni_ok_none (me : tnodes_meta) : lni_ok me none := by
  intro i h
  cases h

lemma interior_of_lt_4 (n : Nat) (h : n < 4) : is_alwaysowned n = false := by
  interval_cases n <;> decide

lemma mface_clean (f : Fin 4) : is_alwaysowned (n_mface f) = false := by
  fin_cases f <;> decide

lemma hface_clean (f : Fin 4) (j : Fin 2) :
    is_alwaysowned (n_hface f j) = false := by
  fin_cases f <;> fin_cases j <;> decide

lemma face_corners_lt_4 (f : Fin 4) (j : Fin 2) :
    p4est_face_corners f j < 4 := by
  fin_cases f <;> fin_cases j <;> decide

/-- Contributions after `cnode_register` either existed before or sit at
the newly contributed position. -/
lemma cnode_register_contr_mem (cn : tnodes_cnode) (rank le p : Nat) :
    ∀ c ∈ (cnode_register cn rank le p).contr, c ∈ cn.contr ∨ c.nodene = p := by
  intro c hc
  unfold cnode_register at hc
  revert hc
  cases hfind : find_rank_idx cn.contr rank with
  | some i =>
      intro hc
      dsimp only at hc
      by_cases hcond : le < (cn.contr.getD i default).le ∨
          (le = (cn.contr.getD i default).le ∧ p < (cn.contr.getD i default).nodene)
      · rw [if_pos hcond] at hc
        rcases List.mem_or_eq_of_mem_set hc with h | h
        · exact Or.inl h
        · right
          rw [h]
      · rw [if_neg hcond] at hc
        exact Or.inl hc
  | none =>
      intro hc
      dsimp only at hc
      by_cases hcond : (cn.contr.isEmpty = true) ∨ rank ≤ owner_rank cn
      · rw [if_pos hcond] at hc
        rcases List.mem_append.mp hc with h | h
        · exact Or.inl h
        · right
          have : c = ⟨p, rank, le⟩ := by simpa using h
          rw [this]
      · rw [if_neg hcond] at hc
        rcases List.mem_append.mp hc with h | h
        · exact Or.inl h
        · right
          have : c = ⟨p, rank, le⟩ := by simpa using h
          rw [this]

lemma cnode_register_clean (cn : tnodes_cnode) (rank le p : Nat)
    (hcn : contr_clean cn) (hp : is_alwaysowned p = false) :
    contr_clean (cnode_register cn rank le p) := by
  intro c hc
  rcases cnode_register_contr_mem cn rank le p c hc with h | h
  · exact hcn c h
  · rw [h]
    exact hp

end P4est

namespace P4est

lemma getD_mem2 {α : Type} [Inhabited α] {l : List α} {i : Nat}
    (h : i < l.length) : l.getD i default ∈ l := by
  rw [List.getD_eq_getElem _ _ h]
  exact List.getElem_mem h

lemma getD_set_self2 {α : Type} [Inhabited α] {L : List α} {i : Nat}
    (h : i < L.length) (v : α) : (L.set i v).getD i default = v := by
  simp [List.getD_eq_getElem?_getD, List.getElem?_set_self h]

lemma getD_set_ne2 {α : Type} [Inhabited α] {L : List α} {i j : Nat}
    (h : i ≠ j) (v : α) : (L.set i v).getD j default = L.getD j default := by
  simp [List.getD_eq_getElem?_getD, List.getElem?_set_ne h]

/-- The candidate-table effect of a fresh registration, independent of
the rank test. -/
lemma node_register_none_construct (me : tnodes_meta) (orank : Option Nat)
    (le p : Nat) (bcon : ConnectType) :
    (node_register me none orank le p bcon).1.construct =
      me.construct ++
        [cnode_register (fresh_cnode (Int.ofNat me.construct.length) bcon)
          (orank.getD me.mpirank) le p] ∧
    (node_register me none orank le p bcon).2 = me.construct.length ∧
    (node_register me none orank le p bcon).1.mpirank = me.mpirank := by
  simp only [node_register, en_write]
  split <;>
    · refine ⟨?_, ?_, ?_⟩ <;>
        first
          | rfl
          | trivial
          | rw [getD_append_len2, set_append_len]

/-- The candidate-table effect of a registration into candidate `i`,
independent of the rank test. -/
lemma node_register_some_construct (me : tnodes_meta) (orank : Option Nat)
    (i le p : Nat) (bcon : ConnectType) :
    (node_register me (some i) orank le p bcon).1.construct =
      me.construct.set i
        (cnode_register (me.construct.getD i (fresh_cnode (-1) bcon))
          (orank.getD me.mpirank) le p) ∧
    (node_register me (some i) orank le p bcon).2 = i ∧
    (node_register me (some i) orank le p bcon).1.mpirank = me.mpirank := by
  simp only [node_register, en_write]
  split <;>
    · refine ⟨?_, ?_, ?_⟩ <;> first | rfl | trivial

/-- A fresh registration preserves the registry dichotomy, keeps old
threaded ids valid, and returns a clean id when the position is not an
interior one. -/
lemma node_register_none_inv (me : tnodes_meta) (orank : Option Nat)
    (le p : Nat) (bcon : ConnectType)
    (hp : is_alwaysowned p = false ∨ orank = none)
    (h : interior_inv me) :
    interior_inv (node_register me none orank le p bcon).1 ∧
    (∀ olni', lni_ok me olni' →
      lni_ok (node_register me none orank le p bcon).1 olni') ∧
    (is_alwaysowned p = false →
      lni_ok (node_register me none orank le p bcon).1
        (some (node_register me none orank le p bcon).2)) := by
  obtain ⟨hcon, hsnd, hmr⟩ := node_register_none_construct me orank le p bcon
  refine ⟨?_, ?_, ?_⟩
  · intro cn hcn
    rw [hcon] at hcn
    rw [hmr]
    rcases List.mem_append.mp hcn with hold | hnew
    · exact h cn hold
    · have hcn' : cn = cnode_register
          (fresh_cnode (Int.ofNat me.construct.length) bcon)
          (orank.getD me.mpirank) le p := by
        simpa using hnew
      rw [cnode_register_fresh] at hcn'
      subst hcn'
      rcases hp with hp | hp
      · left
        intro c hc
        have : c = ⟨p, orank.getD me.mpirank, le⟩ := by simpa using hc
        rw [this]
        exact hp
      · right
        subst hp
        exact ⟨⟨⟨p, me.mpirank, le⟩, rfl, rfl⟩, rfl⟩
  · intro olni' hok i hi
    obtain ⟨hlt, hclean⟩ := hok i hi
    rw [hcon]
    refine ⟨by simp; omega, ?_⟩
    rw [getD_append_left2 hlt]
    exact hclean
  · intro hp' i hi
    have hieq : (node_register me none orank le p bcon).2 = i := by
      injection hi
    rw [← hieq, hcon, hsnd]
    refine ⟨by simp, ?_⟩
    rw [getD_append_len2, cnode_register_fresh]
    intro c hc
    have : c = ⟨p, orank.getD me.mpirank, le⟩ := by simpa using hc
    rw [this]
    exact hp'

/-- A registration into an existing clean candidate at a non-interior
position preserves the dichotomy and all threaded ids. -/
lemma node_register_some_inv (me : tnodes_meta) (orank : Option Nat)
    (i le p : Nat) (bcon : ConnectType)
    (hp : is_alwaysowned p = false)
    (hilt : i < me.construct.length)
    (hiclean : contr_clean (me.construct.getD i default))
    (h : interior_inv me) :
    interior_inv (node_register me (some i) orank le p bcon).1 ∧
    (∀ olni', lni_ok me olni' →
      lni_ok (node_register me (some i) orank le p bcon).1 olni') ∧
    lni_ok (node_register me (some i) orank le p bcon).1
      (some (node_register me (some i) orank le p bcon).2) := by
  obtain ⟨hcon, hsnd, hmr⟩ := node_register_some_construct me orank i le p bcon
  have hdflt : me.construct.getD i (fresh_cnode (-1) bcon)
      = me.construct.getD i default := by
    rw [List.getD_eq_getElem _ _ hilt, List.getD_eq_getElem _ _ hilt]
  have hvclean : contr_clean
      (cnode_register (me.construct.getD i (fresh_cnode (-1) bcon))
        (orank.getD me.mpirank) le p) := by
    rw [hdflt]
    exact cnode_register_clean _ _ _ _ hiclean hp
  have hokpres : ∀ olni', lni_ok me olni' →
      lni_ok (node_register me (some i) orank le p bcon).1 olni' := by
    intro olni' hok j hj
    obtain ⟨hlt, hclean⟩ := hok j hj
    rw [hcon]
    refine ⟨by simpa using hlt, ?_⟩
    by_cases hij : i = j
    · subst hij
      rw [getD_set_self2 hilt]
      exact hvclean
    · rw [getD_set_ne2 hij]
      exact hclean
  refine ⟨?_, hokpres, ?_⟩
  · intro cn hcn
    rw [hcon] at hcn
    rw [hmr]
    rcases List.mem_or_eq_of_mem_set hcn with hold | rfl
    · exact h cn hold
    · exact Or.inl hvclean
  · intro j hj
    have hieq : (node_register me (some i) orank le p bcon).2 = j := by
      injection hj
    rw [← hieq, hsnd, hcon]
    refine ⟨by simpa using hilt, ?_⟩
    rw [getD_set_self2 hilt]
    exact hvclean

/-- Retagging the center candidate's codimension changes no contributor
list: the dichotomy and all threaded ids survive. -/
lemma node_lfacetocorner_inv (me : tnodes_meta) (le p : Nat)
    (h : interior_inv me) :
    interior_inv (node_lfacetocorner me le p) ∧
    (∀ olni', lni_ok me olni' → lni_ok (node_lfacetocorner me le p) olni') ∧
    (node_lfacetocorner me le p).mpirank = me.mpirank := by
  simp only [node_lfacetocorner]
  split
  · set idx := (me.element_nodes (le * vnodes me.with_faces + p)).toNat with hidx
    refine ⟨?_, ?_, rfl⟩
    · intro cn hcn
      rcases List.mem_or_eq_of_mem_set hcn with hold | rfl
      · exact h cn hold
      · by_cases hr : idx < me.construct.length
        · have hmem := getD_mem2 hr
          have hd : me.construct.getD idx (fresh_cnode (-1) ConnectType.face)
              = me.construct.getD idx default := rfl
          rcases h _ hmem with hc | hc
          · left
            intro c hcc
            exact hc c (by simpa [hd] using hcc)
          · right
            obtain ⟨⟨c, hc1, hc2⟩, hc3⟩ := hc
            exact ⟨⟨c, by simpa [hd] using hc1, hc2⟩, by simpa [hd] using hc3⟩
        · left
          intro c hcc
          have : me.construct.getD idx (fresh_cnode (-1) ConnectType.face)
              = fresh_cnode (-1) ConnectType.face := by
            apply List.getD_eq_default
            omega
          rw [this] at hcc
          cases hcc
    · intro olni' hok j hj
      obtain ⟨hlt, hclean⟩ := hok j hj
      refine ⟨by simpa using hlt, ?_⟩
      by_cases hij : idx = j
      · subst hij
        have hr : idx < me.construct.length := hlt
        rw [getD_set_self2 hr]
        intro c hcc
        have hd : me.construct.getD idx (fresh_cnode (-1) ConnectType.face)
            = me.construct.getD idx default := rfl
        exact hclean c (by simpa [hd] using hcc)
      · rw [getD_set_ne2 hij]
        exact hclean
  · exact ⟨h, fun _ hok => hok, rfl⟩

end P4est

namespace P4est

lemma ccorn_clean (c : Fin 4) : is_alwaysowned (n_ccorn c) = false :=
  interior_of_lt_4 c.val c.isLt

/-- A registration at a non-interior position through a threaded id
variable preserves the dichotomy, keeps every valid threaded id valid,
and returns a valid id. -/
lemma node_register_clean_inv (me : tnodes_meta) (olni orank : Option Nat)
    (le p : Nat) (bcon : ConnectType)
    (hp : is_alwaysowned p = false)
    (h : interior_inv me) (hok : lni_ok me olni) :
    interior_inv (node_register me olni orank le p bcon).1 ∧
    (∀ olni', lni_ok me olni' →
      lni_ok (node_register me olni orank le p bcon).1 olni') ∧
    lni_ok (node_register me olni orank le p bcon).1
      (some (node_register me olni orank le p bcon).2) := by
  cases olni with
  | none =>
      obtain ⟨h1, h2, h3⟩ :=
        node_register_none_inv me orank le p bcon (Or.inl hp) h
      exact ⟨h1, h2, h3 hp⟩
  | some i =>
      obtain ⟨hlt, hclean⟩ := hok i rfl
      exact node_register_some_inv me orank i le p bcon hp hlt hclean h

/-- A local registration of a fresh candidate (at any position, in
particular an interior one) preserves the dichotomy and keeps old
threaded ids valid. -/
lemma node_register_interior_inv (me : tnodes_meta) (le p : Nat)
    (bcon : ConnectType) (h : interior_inv me) :
    interior_inv (node_register me none none le p bcon).1 ∧
    (∀ olni', lni_ok me olni' →
      lni_ok (node_register me none none le p bcon).1 olni') := by
  obtain ⟨h1, h2, _⟩ := node_register_none_inv me none le p bcon (Or.inr rfl) h
  exact ⟨h1, h2⟩

lemma interior_inv_config_write (me : tnodes_meta) (le v : Nat)
    (h : interior_inv me) : interior_inv (config_write me le v) :=
  fun cn hcn => h cn hcn

lemma lni_ok_config_write (me : tnodes_meta) (le v : Nat) (x : Option Nat)
    (h : lni_ok me x) : lni_ok (config_write me le v) x :=
  fun i hi => h i hi

/-- The center-to-corner midpoint registrations of a full-style element
(a fold over the four `n_cface` positions, all fresh and local). -/
lemma cface_fold_ok (le : Nat) (js : List (Fin 4)) :
    ∀ me : tnodes_meta, interior_inv me →
      interior_inv (js.foldl
        (fun m j => (node_lregister m none le (n_cface j) ConnectType.face).1)
        me) ∧
      (∀ olni', lni_ok me olni' →
        lni_ok (js.foldl
          (fun m j => (node_lregister m none le (n_cface j) ConnectType.face).1)
          me) olni') := by
  induction js with
  | nil => exact fun me h => ⟨h, fun _ hk => hk⟩
  | cons j rest ih =>
      intro me h
      simp only [List.foldl_cons]
      obtain ⟨g1, g2⟩ :=
        node_register_interior_inv me le (n_cface j) ConnectType.face h
      obtain ⟨k1, k2⟩ := ih _ g1
      exact ⟨k1, fun olni' hk => k2 olni' (g2 olni' hk)⟩

/-- The faces-only tail of the full-style volume branch. -/
lemma volume_full_tail_interior (me : tnodes_meta) (le : Nat)
    (h : interior_inv me) :
    interior_inv (if me.with_faces = true then
      (List.finRange 4).foldl
        (fun m j => (node_lregister m none le (n_cface j) ConnectType.face).1)
        me
    else me) := by
  split
  · exact (cface_fold_ok le (List.finRange 4) me h).1
  · exact h

/-- The faces-only tail of the half-style volume branch. -/
lemma volume_half_tail_interior (me : tnodes_meta) (le : Nat)
    (h : interior_inv me) :
    interior_inv (if me.with_faces = true then
      (node_lregister me none le n_center ConnectType.face).1 else me) := by
  split
  · exact (node_register_interior_inv me le n_center ConnectType.face h).1
  · exact h

/-- `iter_volume1` preserves the registry dichotomy. -/
lemma iter_volume1_interior (me : tnodes_meta) (le level childid : Nat)
    (h : interior_inv me) : interior_inv (iter_volume1 me le level childid) := by
  simp only [iter_volume1]
  split
  · exact volume_full_tail_interior _ le
      (node_register_interior_inv (config_write me le 32) le n_center
        ConnectType.corner (interior_inv_config_write me le 32 h)).1
  · by_cases hc : childid = 1 ∨ childid = 2
    · rw [if_pos hc]
      exact volume_half_tail_interior _ le (interior_inv_config_write me le 16 h)
    · rw [if_neg hc]
      exact volume_half_tail_interior me le h

/-- `hang_promote` preserves the registry dichotomy and threaded ids. -/
lemma hang_promote_inv (me : tnodes_meta) (le : Nat) (h : interior_inv me) :
    interior_inv (hang_promote me le) ∧
    (∀ olni', lni_ok me olni' → lni_ok (hang_promote me le) olni') := by
  unfold hang_promote
  split
  · split
    · exact node_register_interior_inv me le n_center ConnectType.corner h
    · obtain ⟨a1, a2, _⟩ := node_lfacetocorner_inv me le n_center h
      obtain ⟨b1, b2⟩ := cface_fold_ok le (List.finRange 4) _ a1
      exact ⟨b1, fun olni' hk => b2 olni' (a2 olni' hk)⟩
  · exact ⟨h, fun _ hk => hk⟩

/-- The invariant on the full `iter_face1` state. -/
def hstate_ok (st : HState) : Prop :=
  interior_inv st.me ∧ lni_ok st.me st.lni ∧
    lni_ok st.me st.lnh0 ∧ lni_ok st.me st.lnh1

lemma getLnh_ok (st : HState) (h : hstate_ok st) (t : Nat) :
    lni_ok st.me (getLnh st t) := by
  unfold getLnh
  split
  · exact h.2.2.1
  · exact h.2.2.2

/-- A clean-position registration threaded through the `lni` variable. -/
lemma hstep_lni_ok (st : HState) (orank : Option Nat) (le p : Nat)
    (bcon : ConnectType) (hp : is_alwaysowned p = false) (h : hstate_ok st) :
    hstate_ok { st with me := (node_register st.me st.lni orank le p bcon).1,
                        lni := some (node_register st.me st.lni orank le p bcon).2 } := by
  obtain ⟨g1, g2, g3⟩ :=
    node_register_clean_inv st.me st.lni orank le p bcon hp h.1 h.2.1
  exact ⟨g1, g3, g2 _ h.2.2.1, g2 _ h.2.2.2⟩

/-- A clean-position registration threaded through one of the `lnh`
variables. -/
lemma hstep_lnh_ok (st : HState) (orank : Option Nat) (t le p : Nat)
    (bcon : ConnectType) (hp : is_alwaysowned p = false) (h : hstate_ok st) :
    hstate_ok (setLnh
      { st with me := (node_register st.me (getLnh st t) orank le p bcon).1 } t
      (node_register st.me (getLnh st t) orank le p bcon).2) := by
  obtain ⟨g1, g2, g3⟩ := node_register_clean_inv st.me (getLnh st t) orank le p
    bcon hp h.1 (getLnh_ok st h t)
  unfold setLnh
  split
  · exact ⟨g1, g2 _ h.2.1, g3, g2 _ h.2.2.2⟩
  · exact ⟨g1, g2 _ h.2.1, g2 _ h.2.2.1, g3⟩

/-- A fresh local registration (interior position allowed) touching only
the metadata field of the state. -/
lemma hstep_interior_ok (st : HState) (le p : Nat) (bcon : ConnectType)
    (h : hstate_ok st) :
    hstate_ok { st with me := (node_register st.me none none le p bcon).1 } := by
  obtain ⟨g1, g2⟩ := node_register_interior_inv st.me le p bcon h.1
  exact ⟨g1, g2 _ h.2.1, g2 _ h.2.2.1, g2 _ h.2.2.2⟩

lemma hstate_fc_ok (st : HState) (le v : Nat) (h : hstate_ok st) :
    hstate_ok { st with me := face_code_write st.me le v } :=
  ⟨h.1, h.2.1, h.2.2.1, h.2.2.2⟩

end P4est

namespace P4est

/-- The large local side of a hanging face preserves the state
invariant. -/
lemma hang_full_local_ok (st : HState) (le : Nat) (face : Fin 4) (swapi : Bool)
    (h : hstate_ok st) : hstate_ok (hang_full_local st le face swapi) := by
  obtain ⟨p1, p2⟩ := hang_promote_inv st.me le h.1
  have hA : hstate_ok (HState.mk (config_write (hang_promote st.me le) le
      (config_face_update ((hang_promote st.me le).configuration le) face))
      st.lni st.lnh0 st.lnh1) :=
    ⟨interior_inv_config_write _ _ _ p1,
     lni_ok_config_write _ _ _ _ (p2 _ h.2.1),
     lni_ok_config_write _ _ _ _ (p2 _ h.2.2.1),
     lni_ok_config_write _ _ _ _ (p2 _ h.2.2.2)⟩
  have hB := hstep_lni_ok _ none le (n_mface face) ConnectType.corner
    (mface_clean face) hA
  have hC := hstep_interior_ok _ le (n_split face) ConnectType.face hB
  have hD := hstep_lnh_ok _ none (if swapi then 1 else 0) le (n_hface face 0)
    ConnectType.face (hface_clean face 0) hC
  have hE := hstep_lnh_ok _ none (if swapi then 0 else 1) le (n_hface face 1)
    ConnectType.face (hface_clean face 1) hD
  simp only [hang_full_local, node_lregister]
  split
  · exact hE
  · exact hB

/-- The large ghost side of a hanging face preserves the state
invariant. -/
lemma hang_full_ghost_ok (st : HState) (rank le : Nat) (face : Fin 4)
    (swapi : Bool) (h : hstate_ok st) :
    hstate_ok (hang_full_ghost st rank le face swapi) := by
  have hB := hstep_lni_ok st (some rank) le (n_mface face) ConnectType.corner
    (mface_clean face) h
  have hD := hstep_lnh_ok _ (some rank) (if swapi then 1 else 0) le
    (n_hface face 0) ConnectType.face (hface_clean face 0) hB
  have hE := hstep_lnh_ok _ (some rank) (if swapi then 0 else 1) le
    (n_hface face 1) ConnectType.face (hface_clean face 1) hD
  simp only [hang_full_ghost, node_gregister]
  split
  · exact hE
  · exact hB

lemma hang_side_full_ok (st : HState) (fs : FullSide) (swapi : Bool)
    (h : hstate_ok st) : hstate_ok (hang_side_full st fs swapi) := by
  unfold hang_side_full
  split
  · exact hang_full_ghost_ok st fs.rank fs.le fs.face swapi h
  · exact hang_full_local_ok st fs.le fs.face swapi h

/-- One half quadrant of the hanging side preserves the state
invariant. -/
lemma hang_half_ok (st : HState) (face : Fin 4) (q : HalfQuad) (j : Fin 2)
    (swapi : Bool) (h : hstate_ok st) :
    hstate_ok (hang_half st face q j swapi) := by
  simp only [hang_half, node_gregister, node_lregister]
  split
  · have hB := hstep_lni_ok st (some q.rank) q.le
      (n_ccorn ⟨p4est_face_corners face ⟨1 - j.val, by omega⟩ % 4, by omega⟩)
      ConnectType.corner (ccorn_clean _) h
    split
    · exact hstep_lnh_ok _ (some q.rank) (if swapi then 1 - j.val else j.val)
        q.le (n_mface face) ConnectType.face (mface_clean face) hB
    · exact hB
  · have hB := hstep_lni_ok st none q.le
      (n_ccorn ⟨p4est_face_corners face ⟨1 - j.val, by omega⟩ % 4, by omega⟩)
      ConnectType.corner (ccorn_clean _) h
    have hD := hstep_lnh_ok _ none (if swapi then 1 - j.val else j.val) q.le
      (n_mface face) ConnectType.face (mface_clean face) hB
    refine hstate_fc_ok _ q.le _ ?_
    split
    · exact hD
    · exact hB

lemma hang_side_hang_ok (st : HState) (hs : HangSide) (swapi : Bool)
    (h : hstate_ok st) : hstate_ok (hang_side_hang st hs swapi) := by
  unfold hang_side_hang
  exact hang_half_ok _ hs.face hs.q1 1 swapi
    (hang_half_ok st hs.face hs.q0 0 swapi h)

/-- One side of a conforming face preserves the dichotomy and returns a
valid threaded id. -/
lemma conform_side_ok (p : tnodes_meta × Option Nat) (s : FullSide)
    (h : interior_inv p.1) (hok : lni_ok p.1 p.2) :
    interior_inv (conform_side p s).1 ∧
      lni_ok (conform_side p s).1 (conform_side p s).2 := by
  simp only [conform_side, node_gregister, node_lregister]
  split
  · obtain ⟨g1, _, g3⟩ := node_register_clean_inv p.1 p.2 (some s.rank) s.le
      (n_mface s.face) ConnectType.face (mface_clean s.face) h hok
    exact ⟨g1, g3⟩
  · obtain ⟨g1, _, g3⟩ := node_register_clean_inv p.1 p.2 none s.le
      (n_mface s.face) ConnectType.face (mface_clean s.face) h hok
    exact ⟨g1, g3⟩

/-- One side of a corner connection preserves the dichotomy and returns
a valid threaded id. -/
lemma corner_side_ok (p : tnodes_meta × Option Nat) (s : CornerSide)
    (h : interior_inv p.1) (hok : lni_ok p.1 p.2) :
    interior_inv (corner_side p s).1 ∧
      lni_ok (corner_side p s).1 (corner_side p s).2 := by
  simp only [corner_side, node_gregister, node_lregister]
  split
  · obtain ⟨g1, _, g3⟩ := node_register_clean_inv p.1 p.2 (some s.rank) s.le
      (n_ccorn s.corner) ConnectType.corner (ccorn_clean s.corner) h hok
    exact ⟨g1, g3⟩
  · obtain ⟨g1, _, g3⟩ := node_register_clean_inv p.1 p.2 none s.le
      (n_ccorn s.corner) ConnectType.corner (ccorn_clean s.corner) h hok
    exact ⟨g1, g3⟩

lemma corner_fold_ok (sides : List CornerSide) :
    ∀ p : tnodes_meta × Option Nat, interior_inv p.1 → lni_ok p.1 p.2 →
      interior_inv (sides.foldl corner_side p).1 ∧
        lni_ok (sides.foldl corner_side p).1 (sides.foldl corner_side p).2 := by
  induction sides with
  | nil => exact fun p h hok => ⟨h, hok⟩
  | cons s rest ih =>
      intro p h hok
      simp only [List.foldl_cons]
      obtain ⟨g1, g2⟩ := corner_side_ok p s h hok
      exact ih _ g1 g2

/-- Every callback event preserves the registry dichotomy. -/
lemma apply_event_interior (me : tnodes_meta) (e : Event)
    (h : interior_inv me) : interior_inv (apply_event me e) := by
  cases e with
  | volume le level childid => exact iter_volume1_interior me le level childid h
  | faceBoundary le face =>
      simp only [apply_event, node_lregister]
      split
      · exact (node_register_clean_inv me none none le (n_mface face)
          ConnectType.face (mface_clean face) h (lni_ok_none me)).1
      · exact h
  | faceConform s0 s1 =>
      simp only [apply_event]
      split
      · obtain ⟨g1, g2⟩ := conform_side_ok (me, none) s0 h (lni_ok_none me)
        exact (conform_side_ok _ s1 g1 g2).1
      · exact h
  | faceHanging orientation hangFirst fs hs =>
      simp only [apply_event]
      have h0 : hstate_ok ⟨me, none, none, none⟩ :=
        ⟨h, lni_ok_none me, lni_ok_none me, lni_ok_none me⟩
      split
      · exact (hang_side_full_ok _ fs orientation
          (hang_side_hang_ok _ hs false h0)).1
      · exact (hang_side_hang_ok _ hs orientation
          (hang_side_full_ok _ fs false h0)).1
  | cornerEvent sides =>
      simp only [apply_event]
      exact (corner_fold_ok sides (me, none) h (lni_ok_none me)).1

/-- A whole traversal preserves the registry dichotomy. -/
lemma p4est_iterate_interior (evs : List Event) :
    ∀ me, interior_inv me → interior_inv (p4est_iterate me evs) := by
  induction evs with
  | nil => exact fun _ h => h
  | cons e rest ih =>
      intro me h
      exact ih _ (apply_event_interior me e h)

end P4est

namespace P4est

/-- All candidate ids recorded in one peer's buffers: reply ids, query
(shared-in) ids and the remote sort list. -/
def peer_ids (p : tnodes_peer) : List Nat :=
  p.replylni ++ p.sharedno ++ p.remosort

lemma peer_ids_default : peer_ids (default : tnodes_peer) = [] := rfl

lemma peer_access_mem (peers : List tnodes_peer) (r : Nat) :
    ∀ q ∈ (peer_access peers r).1, q ∈ peers ∨ peer_ids q = [] := by
  intro q hq
  unfold peer_access at hq
  cases hfind : peers.findIdx? (fun p => p.rank = r) with
  | some j =>
      rw [hfind] at hq
      exact Or.inl hq
  | none =>
      rw [hfind] at hq
      rcases List.mem_append.mp hq with h | h
      · exact Or.inl h
      · right
        rw [List.mem_singleton] at h
        subst h
        rfl

/-- Ids found in the records after a `peer_update` either predate the
update or were introduced by the update function. -/
lemma peer_update_ids (peers : List tnodes_peer) (r : Nat)
    (f : tnodes_peer → tnodes_peer) (A : List Nat)
    (hf : ∀ p, ∀ j ∈ peer_ids (f p), j ∈ peer_ids p ∨ j ∈ A) :
    ∀ q ∈ peer_update peers r f, ∀ i ∈ peer_ids q,
      (∃ q0 ∈ peers, i ∈ peer_ids q0) ∨ i ∈ A := by
  intro q hq i hi
  unfold peer_update at hq
  rcases List.mem_or_eq_of_mem_set hq with hq1 | hq1
  · rcases peer_access_mem peers r q hq1 with h | h
    · exact Or.inl ⟨q, h, hi⟩
    · rw [h] at hi
      cases hi
  · subst hq1
    rcases hf _ i hi with h | h
    · by_cases hlt : (peer_access peers r).2 < (peer_access peers r).1.length
      · rcases peer_access_mem peers r _ (getD_mem2 hlt) with h2 | h2
        · exact Or.inl ⟨_, h2, h⟩
        · rw [h2] at h
          cases h
      · rw [List.getD_eq_default _ _ (by omega)] at h
        rw [peer_ids_default] at h
        cases h
    · exact Or.inr h

lemma peer_add_reply_ids (zz : Nat) (p : tnodes_peer) :
    ∀ j ∈ peer_ids (peer_add_reply p zz), j ∈ peer_ids p ∨ j ∈ [zz] := by
  intro j hj
  simp only [peer_ids, peer_add_reply, List.mem_append,
    List.mem_singleton] at hj ⊢
  tauto

lemma peer_add_query_push_ids (zz epos : Nat) (p : tnodes_peer) :
    ∀ j ∈ peer_ids { peer_add_query p zz epos with
        remosort := (peer_add_query p zz epos).remosort ++ [zz] },
      j ∈ peer_ids p ∨ j ∈ [zz] := by
  intro j hj
  simp only [peer_ids, peer_add_query, List.mem_append,
    List.mem_singleton] at hj ⊢
  tauto

lemma peer_passive_ids (p : tnodes_peer) :
    ∀ j ∈ peer_ids { p with passive := p.passive + 1 },
      j ∈ peer_ids p ∨ j ∈ ([] : List Nat) := by
  intro j hj
  exact Or.inl hj

/-- The reply loop of the owned branch of `owned_query_reply` adds only
the current candidate id to the peer buffers. -/
lemma reply_fold_ids (me_rank zz : Nat) (L : List tnodes_contr) :
    ∀ (st : qr_state), ∀ q ∈ (L.foldl (fun s contr =>
        if contr.rank ≠ me_rank then
          { s with peers := peer_update s.peers contr.rank (fun p => peer_add_reply p zz) }
        else s) st).peers, ∀ i ∈ peer_ids q,
      (∃ q0 ∈ st.peers, i ∈ peer_ids q0) ∨ i = zz := by
  induction L with
  | nil => exact fun st q hq i hi => Or.inl ⟨q, hq, hi⟩
  | cons c rest ih =>
      intro st q hq i hi
      simp only [List.foldl_cons] at hq
      rcases ih _ q hq i hi with ⟨q0, hq0, hi0⟩ | h
      · by_cases hc : c.rank ≠ me_rank
        · rw [if_pos hc] at hq0
          rcases peer_update_ids st.peers c.rank _ [zz]
              (peer_add_reply_ids zz) q0 hq0 i hi0 with ⟨q1, hq1, hi1⟩ | hzz
          · exact Or.inl ⟨q1, hq1, hi1⟩
          · right
            simpa using hzz
        · rw [if_neg hc] at hq0
          exact Or.inl ⟨q0, hq0, hi0⟩
      · exact Or.inr h

/-- The passive loop of the shared branch of `owned_query_reply` adds no
candidate id to the peer buffers. -/
lemma passive_fold_ids (me_rank orank : Nat) (L : List tnodes_contr) :
    ∀ (st : qr_state), ∀ q ∈ (L.foldl (fun s contr =>
        if contr.rank ≠ me_rank ∧ contr.rank ≠ orank then
          { s with peers := peer_update s.peers contr.rank (fun p => { p with passive := p.passive + 1 }) }
        else s) st).peers, ∀ i ∈ peer_ids q,
      ∃ q0 ∈ st.peers, i ∈ peer_ids q0 := by
  induction L with
  | nil => exact fun st q hq i hi => ⟨q, hq, hi⟩
  | cons c rest ih =>
      intro st q hq i hi
      simp only [List.foldl_cons] at hq
      obtain ⟨q0, hq0, hi0⟩ := ih _ q hq i hi
      by_cases hc : c.rank ≠ me_rank ∧ c.rank ≠ orank
      · rw [if_pos hc] at hq0
        rcases peer_update_ids st.peers c.rank _ []
            peer_passive_ids q0 hq0 i hi0 with ⟨q1, hq1, hi1⟩ | hz
        · exact ⟨q1, hq1, hi1⟩
        · cases hz
      · rw [if_neg hc] at hq0
        exact ⟨q0, hq0, hi0⟩

/-- One step of `owned_query_reply` adds at most the processed candidate
id to the peer buffers. -/
lemma oqr_step_ids (me_rank vn : Nat) (st : qr_state) (zz : Nat)
    (cn : tnodes_cnode) :
    ∀ q ∈ (oqr_step me_rank vn st (zz, cn)).peers, ∀ i ∈ peer_ids q,
      (∃ q0 ∈ st.peers, i ∈ peer_ids q0) ∨ i = zz := by
  intro q hq i hi
  simp only [oqr_step] at hq
  split at hq
  · split at hq
    · rcases reply_fold_ids me_rank zz cn.contr _ q hq i hi with
        ⟨q0, hq0, hi0⟩ | h
      · exact Or.inl ⟨q0, hq0, hi0⟩
      · exact Or.inr h
    · rcases reply_fold_ids me_rank zz cn.contr _ q hq i hi with
        ⟨q0, hq0, hi0⟩ | h
      · exact Or.inl ⟨q0, hq0, hi0⟩
      · exact Or.inr h
  · split at hq
    · rcases peer_update_ids _ (owner_rank cn) _ [zz]
          (peer_add_query_push_ids zz
            ((ownerContr cn).le * vn + (ownerContr cn).nodene)) q hq i hi with
        ⟨q0, hq0, hi0⟩ | hz
      · obtain ⟨q1, hq1, hi1⟩ :=
          passive_fold_ids me_rank (owner_rank cn) cn.contr st q0 hq0 i hi0
        exact Or.inl ⟨q1, hq1, hi1⟩
      · right
        simpa using hz
    · exact Or.inl ⟨q, hq, hi⟩

/-- An interior candidate (single local contribution, owner 0) leaves
the peer buffers untouched: it is owned locally and shared with nobody. -/
lemma oqr_step_interior (me_rank vn : Nat) (st : qr_state) (zz : Nat)
    (cn : tnodes_cnode) (hcn : cnode_interior me_rank cn) :
    (oqr_step me_rank vn st (zz, cn)).peers = st.peers := by
  obtain ⟨⟨c, hc1, hc2⟩, hc3⟩ := hcn
  have hor : owner_rank cn = me_rank := by
    simp [owner_rank, ownerContr, hc1, hc3, hc2]
  simp only [oqr_step]
  rw [if_pos hor, hc1]
  simp only [List.foldl_cons, List.foldl_nil]
  rw [if_neg (not_not_intro hc2), if_neg (by simp)]

/-- Over a fold of `oqr_step`, peer buffers only ever hold ids of
candidates that are not interior at that id: interior steps do not touch
the buffers, the others push their own id. -/
lemma oqr_fold_ids (me_rank vn : Nat) (C : List tnodes_cnode)
    (pairs : List (Nat × tnodes_cnode)) :
    ∀ (st : qr_state),
      (∀ zc ∈ pairs, cnode_interior me_rank zc.2 ∨
        contr_clean (C.getD zc.1 default)) →
      (∀ q ∈ st.peers, ∀ i ∈ peer_ids q, contr_clean (C.getD i default)) →
      ∀ q ∈ (pairs.foldl (oqr_step me_rank vn) st).peers, ∀ i ∈ peer_ids q,
        contr_clean (C.getD i default) := by
  induction pairs with
  | nil => exact fun st _ h => h
  | cons zc rest ih =>
      intro st hp h
      simp only [List.foldl_cons]
      refine ih _ (fun x hx => hp x (List.mem_cons_of_mem _ hx)) ?_
      intro q hq i hi
      rcases hp zc (List.mem_cons_self _ _) with hint | hcl
      · rw [oqr_step_interior me_rank vn st zc.1 zc.2 hint] at hq
        exact h q hq i hi
      · rcases oqr_step_ids me_rank vn st zc.1 zc.2 q hq i hi with
          ⟨q0, hq0, hi0⟩ | hz
        · exact h q0 hq0 i hi0
        · rw [hz]
          exact hcl

end P4est

namespace P4est

/-- A push onto a sharer record adds only the pushed index. -/
lemma sharer_push_mem (sharers : List lnodes_rank) (q li : Nat) :
    ∀ s ∈ sharer_push sharers q li, ∀ x ∈ s.shared_nodes,
      (∃ s0 ∈ sharers, x ∈ s0.shared_nodes) ∨ x = li := by
  unfold sharer_push
  cases hfind : sharers.findIdx? (fun s => s.rank = q) with
  | none =>
      intro s hs x hx
      exact Or.inl ⟨s, hs, hx⟩
  | some i =>
      intro s hs x hx
      rcases List.mem_or_eq_of_mem_set hs with h | h
      · exact Or.inl ⟨s, h, hx⟩
      · subst h
        rcases List.mem_append.mp hx with h | h
        · by_cases hlt : i < sharers.length
          · exact Or.inl ⟨_, getD_mem2 hlt, h⟩
          · rw [List.getD_eq_default _ _ (by omega)] at h
            cases h
        · right
          simpa using h

/-- Pushing one index to each contributor's record adds only that
index. -/
lemma push_fold_mem (L : List tnodes_contr) (li : Nat) :
    ∀ sh, ∀ s ∈ L.foldl (fun sh contr => sharer_push sh contr.rank li) sh,
      ∀ x ∈ s.shared_nodes,
        (∃ s0 ∈ sh, x ∈ s0.shared_nodes) ∨ x = li := by
  induction L with
  | nil => exact fun sh s hs x hx => Or.inl ⟨s, hs, hx⟩
  | cons c rest ih =>
      intro sh s hs x hx
      simp only [List.foldl_cons] at hs
      rcases ih _ s hs x hx with ⟨s0, hs0, hx0⟩ | h
      · exact sharer_push_mem sh c.rank li s0 hs0 x hx0
      · exact Or.inr h

/-- The owned loop of `populate_sharers` pushes an owned index only for
a candidate with more than one contributor. -/
lemma owned_loop_ids (C : List tnodes_cnode)
    (pairs : List (Nat × Nat)) :
    ∀ (sh : List lnodes_rank),
      ∀ s ∈ pairs.foldl (fun sh lclzz =>
          let cn := C.getD lclzz.2 (fresh_cnode (-1) ConnectType.corner)
          if cn.contr.length = 1 then sh
          else cn.contr.foldl (fun sh contr => sharer_push sh contr.rank lclzz.1) sh)
        sh,
      ∀ li ∈ s.shared_nodes,
        (∃ s0 ∈ sh, li ∈ s0.shared_nodes) ∨
        ∃ zz, (li, zz) ∈ pairs ∧
          (C.getD zz (fresh_cnode (-1) ConnectType.corner)).contr.length ≠ 1 := by
  induction pairs with
  | nil => exact fun sh s hs li hli => Or.inl ⟨s, hs, hli⟩
  | cons lz rest ih =>
      intro sh s hs li hli
      simp only [List.foldl_cons] at hs
      rcases ih _ s hs li hli with ⟨s0, hs0, hli0⟩ | ⟨zz, hzz, hlen⟩
      · by_cases hone :
            (C.getD lz.2 (fresh_cnode (-1) ConnectType.corner)).contr.length = 1
        · rw [if_pos hone] at hs0
          exact Or.inl ⟨s0, hs0, hli0⟩
        · rw [if_neg hone] at hs0
          rcases push_fold_mem _ lz.1 sh s0 hs0 li hli0 with ⟨s1, hs1, hli1⟩ | hl
          · exact Or.inl ⟨s1, hs1, hli1⟩
          · right
            refine ⟨lz.2, ?_, hone⟩
            rw [hl]
            exact List.mem_cons_self _ _
      · exact Or.inr ⟨zz, List.mem_cons_of_mem _ hzz, hlen⟩

end P4est

namespace P4est

/-- The whole traversal from the freshly initialized control structure. -/
def tnodes_traverse (fs wf : Bool) (rank : Nat) (evs : List Event) :
    tnodes_meta :=
  p4est_iterate (init_meta fs wf rank) evs

/-- C10: interior node positions are never shared across ranks.  After
any traversal: (a) every candidate with a contribution at an
always-owned position (center 4, center-to-corner midpoints 9-12,
split-face midpoints 14, 17, 20, 22) has exactly one contribution,
local, and is owned by it; (b) no candidate id held in any peer's reply,
query or remote-sort buffer after `owned_query_reply` refers to such a
candidate; (c) the owned loop of `populate_sharers` appends a node to a
sharer record only for a candidate all of whose contributions sit at
non-interior positions. -/
theorem C10_interior_positions_private (fs wf : Bool) (rank : Nat)
    (evs : List Event) :
    (∀ cn ∈ (tnodes_traverse fs wf rank evs).construct,
      (∃ c ∈ cn.contr, is_alwaysowned c.nodene = true) →
      (∃ c, cn.contr = [c] ∧
        c.rank = (tnodes_traverse fs wf rank evs).mpirank) ∧
        cn.owner = 0) ∧
    (∀ q ∈ (owned_query_reply (tnodes_traverse fs wf rank evs)).peers,
      ∀ i ∈ q.replylni ++ q.sharedno ++ q.remosort,
      ∀ c ∈ ((tnodes_traverse fs wf rank evs).construct.getD i default).contr,
        is_alwaysowned c.nodene = false) ∧
    (∀ sharers0 : List lnodes_rank,
      ∀ s ∈ populate_owned_loop (tnodes_traverse fs wf rank evs).construct
          (owned_query_reply (tnodes_traverse fs wf rank evs)).ownsort sharers0,
      ∀ li ∈ s.shared_nodes,
        (∃ s0 ∈ sharers0, li ∈ s0.shared_nodes) ∨
        ∃ zz, (li, zz) ∈
            (owned_query_reply (tnodes_traverse fs wf rank evs)).ownsort.enum ∧
          ∀ c ∈ ((tnodes_traverse fs wf rank evs).construct.getD zz
              (fresh_cnode (-1) ConnectType.corner)).contr,
            is_alwaysowned c.nodene = false) := by
  have hinv : interior_inv (tnodes_traverse fs wf rank evs) :=
    p4est_iterate_interior evs (init_meta fs wf rank)
      (fun cn hcn => absurd hcn (List.not_mem_nil cn))
  refine ⟨?_, ?_, ?_⟩
  · intro cn hcn hex
    obtain ⟨c, hc, hct⟩ := hex
    rcases hinv cn hcn with hclean | hint
    · rw [hclean c hc] at hct
      simp at hct
    · exact hint
  · have hpairs : ∀ zc ∈ (tnodes_traverse fs wf rank evs).construct.enum,
        cnode_interior (tnodes_traverse fs wf rank evs).mpirank zc.2 ∨
        contr_clean
          ((tnodes_traverse fs wf rank evs).construct.getD zc.1 default) := by
      intro zc hzc
      have hlt := List.fst_lt_of_mem_enum hzc
      have heq := List.snd_eq_of_mem_enum hzc
      have hgd : (tnodes_traverse fs wf rank evs).construct.getD zc.1 default
          = zc.2 := by
        rw [List.getD_eq_getElem _ _ hlt]
        exact heq.symm
      rw [hgd]
      have hmem : zc.2 ∈ (tnodes_traverse fs wf rank evs).construct := by
        rw [heq]
        exact List.getElem_mem hlt
      rcases hinv zc.2 hmem with h | h
      · exact Or.inr h
      · exact Or.inl h
    intro q hq i hi c hc
    exact oqr_fold_ids (tnodes_traverse fs wf rank evs).mpirank
      (vnodes (tnodes_traverse fs wf rank evs).with_faces)
      (tnodes_traverse fs wf rank evs).construct
      (tnodes_traverse fs wf rank evs).construct.enum
      ⟨[], [], 0, 0, 0⟩ hpairs
      (fun q hq => absurd hq (List.not_mem_nil q)) q hq i hi c hc
  · intro sharers0 s hs li hli
    rcases owned_loop_ids (tnodes_traverse fs wf rank evs).construct
        (owned_query_reply (tnodes_traverse fs wf rank evs)).ownsort.enum
        sharers0 s hs li hli with h | ⟨zz, hzz, hlen⟩
    · exact Or.inl h
    · right
      refine ⟨zz, hzz, ?_⟩
      intro c hc
      by_cases hlt : zz < (tnodes_traverse fs wf rank evs).construct.length
      · have hdef : (tnodes_traverse fs wf rank evs).construct.getD zz
            (fresh_cnode (-1) ConnectType.corner)
            = (tnodes_traverse fs wf rank evs).construct.getD zz default := by
          rw [List.getD_eq_getElem _ _ hlt, List.getD_eq_getElem _ _ hlt]
        rw [hdef] at hc hlen
        rcases hinv _ (getD_mem2 hlt) with hcl | hint
        · exact hcl c hc
        · obtain ⟨⟨c0, hc0, _⟩, _⟩ := hint
          rw [hc0] at hlen
          simp at hlen
      · rw [List.getD_eq_default _ _ (by omega)] at hc
        simp [fresh_cnode] at hc

/-- A concrete instantiation of C10: a half-style level-1 element
without faces on rank 0, whose volume callback registers an interior
center candidate. -/
theorem C10_interior_positions_private_witness :
    (∀ cn ∈ (tnodes_traverse false true 0 [Event.volume 0 1 1]).construct,
      (∃ c ∈ cn.contr, is_alwaysowned c.nodene = true) →
      (∃ c, cn.contr = [c] ∧
        c.rank = (tnodes_traverse false true 0 [Event.volume 0 1 1]).mpirank) ∧
        cn.owner = 0) ∧
    (∀ q ∈ (owned_query_reply
        (tnodes_traverse false true 0 [Event.volume 0 1 1])).peers,
      ∀ i ∈ q.replylni ++ q.sharedno ++ q.remosort,
      ∀ c ∈ ((tnodes_traverse false true 0
          [Event.volume 0 1 1]).construct.getD i default).contr,
        is_alwaysowned c.nodene = false) ∧
    (∀ sharers0 : List lnodes_rank,
      ∀ s ∈ populate_owned_loop
          (tnodes_traverse false true 0 [Event.volume 0 1 1]).construct
          (owned_query_reply
            (tnodes_traverse false true 0 [Event.volume 0 1 1])).ownsort
          sharers0,
      ∀ li ∈ s.shared_nodes,
        (∃ s0 ∈ sharers0, li ∈ s0.shared_nodes) ∨
        ∃ zz, (li, zz) ∈ (owned_query_reply
            (tnodes_traverse false true 0 [Event.volume 0 1 1])).ownsort.enum ∧
          ∀ c ∈ ((tnodes_traverse false true 0
              [Event.volume 0 1 1]).construct.getD zz
              (fresh_cnode (-1) ConnectType.corner)).contr,
            is_alwaysowned c.nodene = false) :=
  C10_interior_positions_private false true 0 [Event.volume 0 1 1]

end P4est

namespace P4est

/-! ## C9: every element-node slot is written at most once -/

/-- Flat element-node slots are injective in `(le, p)` as long as the
position stays below `vnodes`. -/
lemma slot_inj {vn le p le' p' : Nat} (hp : p < vn) (hp' : p' < vn)
    (h : le' * vn + p' = le * vn + p) : le' = le ∧ p' = p := by
  have h1 : (p' + le' * vn) % vn = (p + le * vn) % vn := by
    rw [Nat.add_comm (le' * vn) p'] at h
    rw [Nat.add_comm (le * vn) p] at h
    rw [h]
  rw [Nat.add_mul_mod_self_right, Nat.add_mul_mod_self_right,
    Nat.mod_eq_of_lt hp', Nat.mod_eq_of_lt hp] at h1
  subst h1
  have h2 : le' * vn = le * vn := by omega
  have hvn : 0 < vn := by omega
  exact ⟨Nat.eq_of_mul_eq_mul_right hvn h2, rfl⟩

/-- A slot still holds the sentinel. -/
def en_empty (me : tnodes_meta) (le p : Nat) : Prop :=
  me.element_nodes (le * vnodes me.with_faces + p) = -1

lemma node_register_mpirank (me : tnodes_meta) (olni orank : Option Nat)
    (le nodene : Nat) (bcon : ConnectType) :
    (node_register me olni orank le nodene bcon).1.mpirank = me.mpirank := by
  cases olni <;>
    · simp only [node_register, en_write]
      split <;> rfl

lemma node_register_with_faces (me : tnodes_meta) (olni orank : Option Nat)
    (le nodene : Nat) (bcon : ConnectType) :
    (node_register me olni orank le nodene bcon).1.with_faces
      = me.with_faces := by
  cases olni <;>
    · simp only [node_register, en_write]
      split <;> rfl

lemma node_register_full_style (me : tnodes_meta) (olni orank : Option Nat)
    (le nodene : Nat) (bcon : ConnectType) :
    (node_register me olni orank le nodene bcon).1.full_style
      = me.full_style := by
  cases olni <;>
    · simp only [node_register, en_write]
      split <;> rfl

lemma node_register_face_code (me : tnodes_meta) (olni orank : Option Nat)
    (le nodene : Nat) (bcon : ConnectType) :
    (node_register me olni orank le nodene bcon).1.face_code
      = me.face_code := by
  cases olni <;>
    · simp only [node_register, en_write]
      split <;> rfl

/-- `node_register` leaves every element-node slot other than its own
target unchanged. -/
lemma node_register_en_eq (me : tnodes_meta) (olni orank : Option Nat)
    (le nodene : Nat) (bcon : ConnectType) (j : Nat)
    (hne : j ≠ le * vnodes me.with_faces + nodene) :
    (node_register me olni orank le nodene bcon).1.element_nodes j
      = me.element_nodes j := by
  cases olni <;>
    · simp only [node_register, en_write]
      split
      · exact if_neg hne
      · rfl

/-- The `ok` flag after `node_register`: a local registration performs
the sentinel check on its target slot, a remote one does not touch it. -/
lemma node_register_ok_eq (me : tnodes_meta) (olni orank : Option Nat)
    (le nodene : Nat) (bcon : ConnectType) :
    (node_register me olni orank le nodene bcon).1.ok =
      if orank.getD me.mpirank = me.mpirank
      then me.ok && (me.element_nodes
        (le * vnodes me.with_faces + nodene) == -1)
      else me.ok := by
  by_cases h : orank.getD me.mpirank = me.mpirank
  · rw [if_pos h]
    cases olni <;>
      · simp only [node_register, en_write]
        rw [if_pos h]
  · rw [if_neg h]
    cases olni <;>
      · simp only [node_register, en_write]
        rw [if_neg h]

lemma node_lfacetocorner_fields (me : tnodes_meta) (le nodene : Nat) :
    (node_lfacetocorner me le nodene).element_nodes = me.element_nodes ∧
    (node_lfacetocorner me le nodene).ok = me.ok ∧
    (node_lfacetocorner me le nodene).mpirank = me.mpirank ∧
    (node_lfacetocorner me le nodene).with_faces = me.with_faces ∧
    (node_lfacetocorner me le nodene).full_style = me.full_style ∧
    (node_lfacetocorner me le nodene).face_code = me.face_code := by
  simp only [node_lfacetocorner]
  split <;> exact ⟨rfl, rfl, rfl, rfl, rfl, rfl⟩

end P4est

namespace P4est

lemma node_register_empty_iff (me : tnodes_meta) (olni orank : Option Nat)
    (le nodene : Nat) (bcon : ConnectType) (le' p' : Nat)
    (h : le' * vnodes me.with_faces + p'
      ≠ le * vnodes me.with_faces + nodene) :
    en_empty (node_register me olni orank le nodene bcon).1 le' p'
      ↔ en_empty me le' p' := by
  unfold en_empty
  rw [node_register_with_faces, node_register_en_eq me olni orank le nodene
    bcon _ h]

lemma slot_ne {vn : Nat} (le nodene le' p' : Nat) (hp : nodene < vn)
    (hp' : p' < vn) (hne : ¬ (le' = le ∧ p' = nodene)) :
    le' * vn + p' ≠ le * vn + nodene :=
  fun h => hne (slot_inj hp hp' h)

/-- The hanging corner position of half quadrant `j` of a hanging face. -/
def hang_corner (face : Fin 4) (j : Fin 2) : Nat :=
  p4est_face_corners face ⟨1 - j.val, by omega⟩ % 4

lemma hang_corner_lt (face : Fin 4) (j : Fin 2) : hang_corner face j < 4 :=
  Nat.mod_lt _ (by norm_num)

/-- The traversal invariant behind the slot-write assertion: the `ok`
flag is intact, the fixed flags are what `p4est_tnodes_new` set, a
configuration is zero until the element's volume callback ran, and every
slot whose node has not yet been produced by a processed callback still
holds the sentinel (split according to the position schema). -/
structure EnInv (rank0 : Nat) (fs0 wf0 : Bool) (Vs : List Nat)
    (Fs Hs Cs : List (Nat × Nat)) (me : tnodes_meta) : Prop where
  hok : me.ok = true
  hmp : me.mpirank = rank0
  hwf : me.with_faces = wf0
  hfs : me.full_style = fs0
  hdom : ∀ l, config_domain (me.configuration l)
  hcfg : ∀ le, le ∉ Vs → me.configuration le = 0
  hmf : ∀ le f, f < 4 → (le, f) ∉ Fs → (le, f) ∉ Hs → en_empty me le (5 + f)
  hcr : ∀ le c, c < 4 → (le, c) ∉ Cs → en_empty me le c
  hsp : ∀ le f, ∀ hf : f < 4, (le, f) ∉ Hs → wf0 = true →
      en_empty me le (n_split ⟨f, hf⟩) ∧
      en_empty me le (n_hface ⟨f, hf⟩ 0) ∧ en_empty me le (n_hface ⟨f, hf⟩ 1)
  hc4 : ∀ le, wf0 = false →
      me.configuration le = 0 ∨ me.configuration le = 16 → en_empty me le 4
  hc4f : ∀ le, wf0 = true → le ∉ Vs → en_empty me le 4
  hcf : ∀ le j, j < 4 → wf0 = true →
      me.configuration le = 0 ∨ me.configuration le = 16 →
      en_empty me le (9 + j)

/-- Modelled from the spec: the per-event bookkeeping of which mesh
entities the iterator has already presented.  `ev_vs` records volume
callbacks, `ev_fs` face-midpoint claims (conforming sides and hanging
half sides), `ev_hs` big hanging sides, `ev_cs` corner claims (corner
sides and hanging corners). -/
def ev_vs : Event → List Nat
  | Event.volume le _ _ => [le]
  | _ => []

def ev_fs : Event → List (Nat × Nat)
  | Event.faceBoundary le f => [(le, f.val)]
  | Event.faceConform s0 s1 =>
      (if s0.ghost then [] else [(s0.le, s0.face.val)]) ++
      (if s1.ghost then [] else [(s1.le, s1.face.val)])
  | Event.faceHanging _ _ _ hs =>
      (if hs.q0.ghost then [] else [(hs.q0.le, hs.face.val)]) ++
      (if hs.q1.ghost then [] else [(hs.q1.le, hs.face.val)])
  | _ => []

def ev_hs : Event → List (Nat × Nat)
  | Event.faceHanging _ _ fs _ =>
      if fs.ghost then [] else [(fs.le, fs.face.val)]
  | _ => []

def corner_claims (sides : List CornerSide) : List (Nat × Nat) :=
  sides.filterMap (fun s => if s.ghost then none else some (s.le, s.corner.val))

def ev_cs : Event → List (Nat × Nat)
  | Event.cornerEvent sides => corner_claims sides
  | Event.faceHanging _ _ _ hs =>
      (if hs.q0.ghost then [] else [(hs.q0.le, hang_corner hs.face 0)]) ++
      (if hs.q1.ghost then [] else [(hs.q1.le, hang_corner hs.face 1)])
  | _ => []

/-- Modelled from the spec: one side of a conforming face is admissible
when a ghost side is genuinely remote and a local side's face has not
been presented before. -/
def side_adm (rank0 : Nat) (Fs Hs : List (Nat × Nat)) (s : FullSide) : Bool :=
  if s.ghost then s.rank != rank0
  else !(decide ((s.le, s.face.val) ∈ Fs)) &&
       !(decide ((s.le, s.face.val) ∈ Hs))

/-- Modelled from the spec: one half quadrant of a hanging face is
admissible when remote sides are genuinely remote and the local hanging
corner and face have not been presented before. -/
def half_adm (rank0 : Nat) (Fs Hs Cs : List (Nat × Nat)) (face : Fin 4)
    (q : HalfQuad) (j : Fin 2) : Bool :=
  if q.ghost then q.rank != rank0
  else !(decide ((q.le, hang_corner face j) ∈ Cs)) &&
       !(decide ((q.le, face.val) ∈ Fs)) &&
       !(decide ((q.le, face.val) ∈ Hs))

/-- Modelled from the spec: admissibility of a single callback event
against the already presented entities — each local element gets one
volume callback, each local element face is presented by exactly one
face connection (the big side of a hanging face after its volume
callback), each local corner claim is presented once, all sides of one
connection are distinct elements, and ghost sides carry a remote rank. -/
def ev_adm (rank0 : Nat) (Vs : List Nat) (Fs Hs Cs : List (Nat × Nat)) :
    Event → Bool
  | Event.volume le _ _ => !(decide (le ∈ Vs))
  | Event.faceBoundary le f =>
      !(decide ((le, f.val) ∈ Fs)) && !(decide ((le, f.val) ∈ Hs))
  | Event.faceConform s0 s1 =>
      side_adm rank0 Fs Hs s0 && side_adm rank0 Fs Hs s1 &&
      (if s0.ghost || s1.ghost then true
       else decide ((s0.le, s0.face.val) ≠ (s1.le, s1.face.val)))
  | Event.faceHanging _ _ fs hs =>
      (if fs.ghost then fs.rank != rank0
       else decide (fs.le ∈ Vs) && !(decide ((fs.le, fs.face.val) ∈ Fs)) &&
            !(decide ((fs.le, fs.face.val) ∈ Hs))) &&
      half_adm rank0 Fs Hs Cs hs.face hs.q0 0 &&
      half_adm rank0 Fs Hs Cs hs.face hs.q1 1 &&
      (if hs.q0.ghost || hs.q1.ghost then true else hs.q0.le != hs.q1.le) &&
      (if fs.ghost || hs.q0.ghost then true else fs.le != hs.q0.le) &&
      (if fs.ghost || hs.q1.ghost then true else fs.le != hs.q1.le)
  | Event.cornerEvent sides =>
      sides.all (fun s => if s.ghost then s.rank != rank0 else true) &&
      decide (corner_claims sides).Nodup &&
      sides.all (fun s => if s.ghost then true
        else !(decide ((s.le, s.corner.val) ∈ Cs)))

/-- Modelled from the spec: admissibility of a whole event stream,
threading the presented entities through. -/
def adm (rank0 : Nat) : List Event → List Nat → List (Nat × Nat) →
    List (Nat × Nat) → List (Nat × Nat) → Bool
  | [], _, _, _, _ => true
  | e :: rest, Vs, Fs, Hs, Cs =>
      ev_adm rank0 Vs Fs Hs Cs e &&
      adm rank0 rest (ev_vs e ++ Vs) (ev_fs e ++ Fs) (ev_hs e ++ Hs)
        (ev_cs e ++ Cs)

end P4est

namespace P4est

lemma vnodes_ge9 (b : Bool) : 9 ≤ vnodes b := by
  cases b <;> norm_num [vnodes]

lemma n_split_lt25 (f : Fin 4) : n_split f < 25 := by
  fin_cases f <;> decide

lemma n_hface_lt25 (f : Fin 4) (j : Fin 2) : n_hface f j < 25 := by
  fin_cases f <;> fin_cases j <;> decide

/-- Weakening: more presented entities only weaken the invariant. -/
lemma EnInv_mono {rank0 : Nat} {fs0 wf0 : Bool} {Vs Vs' : List Nat}
    {Fs Hs Cs Fs' Hs' Cs' : List (Nat × Nat)} {me : tnodes_meta}
    (h : EnInv rank0 fs0 wf0 Vs Fs Hs Cs me)
    (hV : ∀ x ∈ Vs, x ∈ Vs') (hF : ∀ x ∈ Fs, x ∈ Fs')
    (hH : ∀ x ∈ Hs, x ∈ Hs') (hC : ∀ x ∈ Cs, x ∈ Cs') :
    EnInv rank0 fs0 wf0 Vs' Fs' Hs' Cs' me where
  hok := h.hok
  hmp := h.hmp
  hwf := h.hwf
  hfs := h.hfs
  hdom := h.hdom
  hcfg := fun le hle => h.hcfg le (fun hmem => hle (hV le hmem))
  hmf := fun le f hf hFs hHs =>
    h.hmf le f hf (fun hm => hFs (hF _ hm)) (fun hm => hHs (hH _ hm))
  hcr := fun le c hc hCs => h.hcr le c hc (fun hm => hCs (hC _ hm))
  hsp := fun le f hf hHs hw =>
    h.hsp le f hf (fun hm => hHs (hH _ hm)) hw
  hc4 := h.hc4
  hc4f := fun le hw hle => h.hc4f le hw (fun hmem => hle (hV le hmem))
  hcf := h.hcf

/-- A registration never disturbs an element-node slot other than its
target. -/
lemma register_empty_pres {wf0 : Bool} (me : tnodes_meta)
    (olni orank : Option Nat) (le p : Nat) (bcon : ConnectType)
    (hwfv : me.with_faces = wf0) (hp : p < vnodes wf0) (le' p' : Nat)
    (hp' : p' < vnodes wf0) (hne : ¬ (le' = le ∧ p' = p)) :
    en_empty (node_register me olni orank le p bcon).1 le' p'
      ↔ en_empty me le' p' := by
  apply node_register_empty_iff
  rw [hwfv]
  exact slot_ne le p le' p' hp hp' hne

lemma node_register_ghost_eq (me : tnodes_meta) (olni : Option Nat)
    (le p : Nat) (bcon : ConnectType) (r : Nat) (hr : r ≠ me.mpirank) :
    (node_register me olni (some r) le p bcon).1.element_nodes
      = me.element_nodes ∧
    (node_register me olni (some r) le p bcon).1.ok = me.ok := by
  cases olni <;>
    · simp only [node_register, en_write]
      rw [if_neg (by simpa using hr)]
      exact ⟨rfl, rfl⟩

/-- A genuinely remote contribution preserves the whole invariant. -/
lemma EnInv_gregister {rank0 : Nat} {fs0 wf0 : Bool} {Vs : List Nat}
    {Fs Hs Cs : List (Nat × Nat)} {me : tnodes_meta}
    (h : EnInv rank0 fs0 wf0 Vs Fs Hs Cs me) (olni : Option Nat)
    (le p : Nat) (bcon : ConnectType) (r : Nat) (hr : r ≠ rank0) :
    EnInv rank0 fs0 wf0 Vs Fs Hs Cs
      (node_register me olni (some r) le p bcon).1 := by
  have hr' : r ≠ me.mpirank := by
    rw [h.hmp]
    exact hr
  obtain ⟨hen, hok⟩ := node_register_ghost_eq me olni le p bcon r hr'
  have hemp : ∀ le' p',
      en_empty (node_register me olni (some r) le p bcon).1 le' p'
        ↔ en_empty me le' p' := by
    intro le' p'
    unfold en_empty
    rw [node_register_with_faces, hen]
  constructor
  · rw [hok]
    exact h.hok
  · rw [node_register_mpirank]
    exact h.hmp
  · rw [node_register_with_faces]
    exact h.hwf
  · rw [node_register_full_style]
    exact h.hfs
  · intro l
    rw [node_register_config]
    exact h.hdom l
  · intro l hl
    rw [node_register_config]
    exact h.hcfg l hl
  · intro le' f hf h1 h2
    exact (hemp _ _).mpr (h.hmf le' f hf h1 h2)
  · intro le' c hc h1
    exact (hemp _ _).mpr (h.hcr le' c hc h1)
  · intro le' f hf h1 hw
    obtain ⟨a, b, c⟩ := h.hsp le' f hf h1 hw
    exact ⟨(hemp _ _).mpr a, (hemp _ _).mpr b, (hemp _ _).mpr c⟩
  · intro le' hw hcfg
    rw [node_register_config] at hcfg
    exact (hemp _ _).mpr (h.hc4 le' hw hcfg)
  · intro le' hw hl
    exact (hemp _ _).mpr (h.hc4f le' hw hl)
  · intro le' j hj hw hcfg
    rw [node_register_config] at hcfg
    exact (hemp _ _).mpr (h.hcf le' j hj hw hcfg)

lemma gregister_empty_pres (me : tnodes_meta) (olni : Option Nat)
    (le p : Nat) (bcon : ConnectType) (r : Nat) (hr : r ≠ me.mpirank)
    (le' p' : Nat) :
    en_empty (node_register me olni (some r) le p bcon).1 le' p'
      ↔ en_empty me le' p' := by
  unfold en_empty
  rw [node_register_with_faces,
    (node_register_ghost_eq me olni le p bcon r hr).1]

/-- A local registration at a position already covered by the presented
entities preserves the invariant; the sentinel check passes because the
target slot is still empty. -/
lemma EnInv_lregister {rank0 : Nat} {fs0 wf0 : Bool} {Vs : List Nat}
    {Fs Hs Cs : List (Nat × Nat)} {me : tnodes_meta}
    (h : EnInv rank0 fs0 wf0 Vs Fs Hs Cs me) (olni : Option Nat)
    (le p : Nat) (bcon : ConnectType)
    (hp : p < vnodes wf0)
    (hemp : en_empty me le p)
    (hcov_cr : p < 4 → (le, p) ∈ Cs)
    (hcov_mf : ∀ f, f < 4 → p = 5 + f → (le, f) ∈ Fs ∨ (le, f) ∈ Hs)
    (hcov_c4 : p = 4 → (wf0 = true → le ∈ Vs) ∧
      (wf0 = false →
        ¬ (me.configuration le = 0 ∨ me.configuration le = 16)))
    (hcov_cf : ∀ j, j < 4 → p = 9 + j → wf0 = true →
      ¬ (me.configuration le = 0 ∨ me.configuration le = 16))
    (hcov_sp : ∀ f, ∀ hf : f < 4, wf0 = true →
      (p = n_split ⟨f, hf⟩ ∨ p = n_hface ⟨f, hf⟩ 0 ∨ p = n_hface ⟨f, hf⟩ 1) →
      (le, f) ∈ Hs) :
    EnInv rank0 fs0 wf0 Vs Fs Hs Cs
      (node_register me olni none le p bcon).1 := by
  have hwfv := h.hwf
  constructor
  · have hcond : (none : Option Nat).getD me.mpirank = me.mpirank := rfl
    rw [node_register_ok_eq, if_pos hcond, h.hok]
    have hemp' : me.element_nodes (le * vnodes me.with_faces + p) = -1 := hemp
    rw [hemp']
    rfl
  · rw [node_register_mpirank]
    exact h.hmp
  · rw [node_register_with_faces]
    exact h.hwf
  · rw [node_register_full_style]
    exact h.hfs
  · intro l
    rw [node_register_config]
    exact h.hdom l
  · intro l hl
    rw [node_register_config]
    exact h.hcfg l hl
  · intro le' f hf h1 h2
    rw [register_empty_pres me olni none le p bcon hwfv hp le' (5 + f)
      (by have := vnodes_ge9 wf0; omega)
      (by
        rintro ⟨rfl, rfl⟩
        rcases hcov_mf f hf rfl with hm | hm
        · exact h1 hm
        · exact h2 hm)]
    exact h.hmf le' f hf h1 h2
  · intro le' c hc h1
    rw [register_empty_pres me olni none le p bcon hwfv hp le' c
      (by have := vnodes_ge9 wf0; omega)
      (by
        rintro ⟨rfl, rfl⟩
        exact h1 (hcov_cr hc))]
    exact h.hcr le' c hc h1
  · intro le' f hf h1 hw
    subst hw
    obtain ⟨a, b, c⟩ := h.hsp le' f hf h1 rfl
    refine ⟨?_, ?_, ?_⟩
    · rw [register_empty_pres me olni none le p bcon hwfv hp le' _
        (n_split_lt25 ⟨f, hf⟩)
        (by
          rintro ⟨rfl, hpp⟩
          exact h1 (hcov_sp f hf rfl (Or.inl hpp.symm)))]
      exact a
    · rw [register_empty_pres me olni none le p bcon hwfv hp le' _
        (n_hface_lt25 ⟨f, hf⟩ 0)
        (by
          rintro ⟨rfl, hpp⟩
          exact h1 (hcov_sp f hf rfl (Or.inr (Or.inl hpp.symm))))]
      exact b
    · rw [register_empty_pres me olni none le p bcon hwfv hp le' _
        (n_hface_lt25 ⟨f, hf⟩ 1)
        (by
          rintro ⟨rfl, hpp⟩
          exact h1 (hcov_sp f hf rfl (Or.inr (Or.inr hpp.symm))))]
      exact c
  · intro le' hw hcfg
    rw [node_register_config] at hcfg
    rw [register_empty_pres me olni none le p bcon hwfv hp le' 4
      (by have := vnodes_ge9 wf0; omega)
      (by
        rintro ⟨rfl, rfl⟩
        exact (hcov_c4 rfl).2 hw hcfg)]
    exact h.hc4 le' hw hcfg
  · intro le' hw hl
    rw [register_empty_pres me olni none le p bcon hwfv hp le' 4
      (by have := vnodes_ge9 wf0; omega)
      (by
        rintro ⟨rfl, rfl⟩
        exact hl ((hcov_c4 rfl).1 hw))]
    exact h.hc4f le' hw hl
  · intro le' j hj hw hcfg
    rw [node_register_config] at hcfg
    rw [register_empty_pres me olni none le p bcon hwfv hp le' (9 + j)
      (by rw [hw]; norm_num [vnodes]; omega)
      (by
        rintro ⟨rfl, rfl⟩
        exact hcov_cf j hj rfl hw hcfg)]
    exact h.hcf le' j hj hw hcfg

end P4est

namespace P4est

/-- Master step lemma: a state `Y` that differs from an invariant state
only in element `le`'s configuration and in slots of `le` listed in `P`,
with every touched slot covered by the presented entities and the `ok`
flag re-established, satisfies the invariant again. -/
lemma EnInv_of_effect {rank0 : Nat} {fs0 wf0 : Bool} {Vs : List Nat}
    {Fs Hs Cs : List (Nat × Nat)} {me : tnodes_meta} (Y : tnodes_meta)
    (P : List Nat) (le : Nat)
    (h : EnInv rank0 fs0 wf0 Vs Fs Hs Cs me)
    (hfw : Y.with_faces = me.with_faces) (hmpY : Y.mpirank = me.mpirank)
    (hfsY : Y.full_style = me.full_style)
    (hcfg_off : ∀ l, l ≠ le → Y.configuration l = me.configuration l)
    (hcfg_dom : config_domain (Y.configuration le))
    (hcfg_le : Y.configuration le = 0 ∨ Y.configuration le = 16 →
        me.configuration le = 0 ∨ me.configuration le = 16)
    (hokY : Y.ok = true)
    (hleV : le ∈ Vs)
    (hen : ∀ le' p', p' < vnodes wf0 → ¬ (le' = le ∧ p' ∈ P) →
        (en_empty Y le' p' ↔ en_empty me le' p'))
    (hvac_cr : ∀ p ∈ P, p < 4 → (le, p) ∈ Cs)
    (hvac_mf : ∀ f, f < 4 → (5 + f) ∈ P → (le, f) ∈ Fs ∨ (le, f) ∈ Hs)
    (hvac_c4 : 4 ∈ P → wf0 = false →
        ¬ (Y.configuration le = 0 ∨ Y.configuration le = 16))
    (hvac_cf : ∀ j, j < 4 → (9 + j) ∈ P →
        ¬ (Y.configuration le = 0 ∨ Y.configuration le = 16))
    (hvac_sp : ∀ f, ∀ hf : f < 4,
        (n_split ⟨f, hf⟩ ∈ P ∨ n_hface ⟨f, hf⟩ 0 ∈ P ∨
          n_hface ⟨f, hf⟩ 1 ∈ P) → (le, f) ∈ Hs) :
    EnInv rank0 fs0 wf0 Vs Fs Hs Cs Y := by
  constructor
  · exact hokY
  · rw [hmpY]
    exact h.hmp
  · rw [hfw]
    exact h.hwf
  · rw [hfsY]
    exact h.hfs
  · intro l
    by_cases hl : l = le
    · rw [hl]
      exact hcfg_dom
    · rw [hcfg_off l hl]
      exact h.hdom l
  · intro l hl
    have hne : l ≠ le := fun he => hl (he ▸ hleV)
    rw [hcfg_off l hne]
    exact h.hcfg l hl
  · intro le' f hf h1 h2
    by_cases hc : le' = le ∧ (5 + f) ∈ P
    · obtain ⟨rfl, hin⟩ := hc
      rcases hvac_mf f hf hin with hm | hm
      · exact absurd hm h1
      · exact absurd hm h2
    · rw [hen le' (5 + f) (by have := vnodes_ge9 wf0; omega) hc]
      exact h.hmf le' f hf h1 h2
  · intro le' c hc h1
    by_cases hcc : le' = le ∧ c ∈ P
    · obtain ⟨rfl, hin⟩ := hcc
      exact absurd (hvac_cr c hin hc) h1
    · rw [hen le' c (by have := vnodes_ge9 wf0; omega) hcc]
      exact h.hcr le' c hc h1
  · intro le' f hf h1 hw
    subst hw
    obtain ⟨a, b, c⟩ := h.hsp le' f hf h1 rfl
    refine ⟨?_, ?_, ?_⟩
    · by_cases hcc : le' = le ∧ n_split ⟨f, hf⟩ ∈ P
      · obtain ⟨rfl, hin⟩ := hcc
        exact absurd (hvac_sp f hf (Or.inl hin)) h1
      · rw [hen le' _ (n_split_lt25 ⟨f, hf⟩) hcc]
        exact a
    · by_cases hcc : le' = le ∧ n_hface ⟨f, hf⟩ 0 ∈ P
      · obtain ⟨rfl, hin⟩ := hcc
        exact absurd (hvac_sp f hf (Or.inr (Or.inl hin))) h1
      · rw [hen le' _ (n_hface_lt25 ⟨f, hf⟩ 0) hcc]
        exact b
    · by_cases hcc : le' = le ∧ n_hface ⟨f, hf⟩ 1 ∈ P
      · obtain ⟨rfl, hin⟩ := hcc
        exact absurd (hvac_sp f hf (Or.inr (Or.inr hin))) h1
      · rw [hen le' _ (n_hface_lt25 ⟨f, hf⟩ 1) hcc]
        exact c
  · intro le' hw hcfgY
    by_cases hcc : le' = le ∧ (4 : Nat) ∈ P
    · obtain ⟨rfl, hin⟩ := hcc
      exact absurd hcfgY (hvac_c4 hin hw)
    · rw [hen le' 4 (by have := vnodes_ge9 wf0; omega) hcc]
      by_cases hl : le' = le
      · subst hl
        exact h.hc4 le' hw (hcfg_le hcfgY)
      · rw [hcfg_off le' hl] at hcfgY
        exact h.hc4 le' hw hcfgY
  · intro le' hw hl
    have hne : ¬ (le' = le ∧ (4 : Nat) ∈ P) := by
      rintro ⟨rfl, _⟩
      exact hl hleV
    rw [hen le' 4 (by have := vnodes_ge9 wf0; omega) hne]
    exact h.hc4f le' hw hl
  · intro le' j hj hw hcfgY
    by_cases hcc : le' = le ∧ (9 + j) ∈ P
    · obtain ⟨rfl, hin⟩ := hcc
      exact absurd hcfgY (hvac_cf j hj hin)
    · rw [hen le' (9 + j) (by rw [hw]; norm_num [vnodes]; omega) hcc]
      by_cases hl : le' = le
      · subst hl
        exact h.hcf le' j hj hw (hcfg_le hcfgY)
      · rw [hcfg_off le' hl] at hcfgY
        exact h.hcf le' j hj hw hcfgY

lemma EnInv_face_code_write {rank0 : Nat} {fs0 wf0 : Bool} {Vs : List Nat}
    {Fs Hs Cs : List (Nat × Nat)} {me : tnodes_meta}
    (h : EnInv rank0 fs0 wf0 Vs Fs Hs Cs me) (le v : Nat) :
    EnInv rank0 fs0 wf0 Vs Fs Hs Cs (face_code_write me le v) where
  hok := h.hok
  hmp := h.hmp
  hwf := h.hwf
  hfs := h.hfs
  hdom := h.hdom
  hcfg := h.hcfg
  hmf := h.hmf
  hcr := h.hcr
  hsp := h.hsp
  hc4 := h.hc4
  hc4f := h.hc4f
  hcf := h.hcf

end P4est

namespace P4est

/-- A run of fresh local registrations at positions `ps` of element
`le`. -/
def lreg_fold (le : Nat) (bcon : ConnectType) (ps : List Nat)
    (st : tnodes_meta) : tnodes_meta :=
  ps.foldl (fun m p => (node_register m none none le p bcon).1) st

/-- Effect of such a run: all metadata fields except the candidate table
and the element nodes are preserved, slots off the run are preserved,
and the `ok` flag survives when the run's slots were empty and pairwise
distinct. -/
lemma lreg_chain (le : Nat) (bcon : ConnectType) (ps : List Nat) :
    ∀ st : tnodes_meta, (∀ p ∈ ps, p < vnodes st.with_faces) →
      (lreg_fold le bcon ps st).with_faces = st.with_faces ∧
      (lreg_fold le bcon ps st).mpirank = st.mpirank ∧
      (lreg_fold le bcon ps st).full_style = st.full_style ∧
      (lreg_fold le bcon ps st).configuration = st.configuration ∧
      (lreg_fold le bcon ps st).face_code = st.face_code ∧
      (∀ j, (∀ p ∈ ps, j ≠ le * vnodes st.with_faces + p) →
        (lreg_fold le bcon ps st).element_nodes j = st.element_nodes j) ∧
      (st.ok = true → ps.Pairwise (· ≠ ·) →
        (∀ p ∈ ps, en_empty st le p) →
        (lreg_fold le bcon ps st).ok = true) := by
  induction ps with
  | nil =>
      intro st hps
      exact ⟨rfl, rfl, rfl, rfl, rfl, fun j _ => rfl, fun hok _ _ => hok⟩
  | cons p ps ih =>
      intro st hps
      have hp : p < vnodes st.with_faces := hps p (List.mem_cons_self _ _)
      have hstep : lreg_fold le bcon (p :: ps) st
          = lreg_fold le bcon ps ((node_register st none none le p bcon).1) :=
        rfl
      have hw1 : ((node_register st none none le p bcon).1).with_faces
          = st.with_faces := node_register_with_faces st none none le p bcon
      have hps' : ∀ q ∈ ps,
          q < vnodes ((node_register st none none le p bcon).1).with_faces := by
        intro q hq
        rw [hw1]
        exact hps q (List.mem_cons_of_mem _ hq)
      obtain ⟨a1, a2, a3, a4, a5, a6, a7⟩ :=
        ih ((node_register st none none le p bcon).1) hps'
      rw [hstep]
      refine ⟨?_, ?_, ?_, ?_, ?_, ?_, ?_⟩
      · rw [a1, hw1]
      · rw [a2, node_register_mpirank]
      · rw [a3, node_register_full_style]
      · rw [a4, node_register_config]
      · rw [a5, node_register_face_code]
      · intro j hj
        have hj' : ∀ q ∈ ps,
            j ≠ le * vnodes ((node_register st none none le p bcon).1).with_faces
              + q := by
          intro q hq
          rw [hw1]
          exact hj q (List.mem_cons_of_mem _ hq)
        rw [a6 j hj', node_register_en_eq st none none le p bcon j
          (hj p (List.mem_cons_self _ _))]
      · intro hok hpair hemp
        rw [List.pairwise_cons] at hpair
        apply a7
        · rw [node_register_ok_eq, if_pos (show (none : Option Nat).getD
            st.mpirank = st.mpirank from rfl), hok]
          have he : st.element_nodes (le * vnodes st.with_faces + p) = -1 :=
            hemp p (List.mem_cons_self _ _)
          rw [he]
          rfl
        · exact hpair.2
        · intro q hq
          have hq4 : q < vnodes st.with_faces :=
            hps q (List.mem_cons_of_mem _ hq)
          have hne : ¬ (le = le ∧ q = p) := by
            rintro ⟨_, rfl⟩
            exact hpair.1 q hq rfl
          exact (register_empty_pres st none none le p bcon rfl hp le q hq4
            hne).mpr (hemp q (List.mem_cons_of_mem _ hq))

end P4est

namespace P4est

lemma n_split_ge13 (f : Fin 4) : 13 ≤ n_split f := by
  fin_cases f <;> decide

lemma n_hface_ge13 (f : Fin 4) (j : Fin 2) : 13 ≤ n_hface f j := by
  fin_cases f <;> fin_cases j <;> decide

/-- Writing a configuration entry of a volume-processed element
preserves the invariant, provided the new code keeps the sentinel
obligations of the center and midpoint slots. -/
lemma EnInv_config_write {rank0 : Nat} {fs0 wf0 : Bool} {Vs : List Nat}
    {Fs Hs Cs : List (Nat × Nat)} {me : tnodes_meta}
    (h : EnInv rank0 fs0 wf0 Vs Fs Hs Cs me) (le v : Nat)
    (hleV : le ∈ Vs) (hvdom : config_domain v)
    (hc4' : wf0 = false → v = 0 ∨ v = 16 → en_empty me le 4)
    (hcf' : ∀ j, j < 4 → wf0 = true → v = 0 ∨ v = 16 →
      en_empty me le (9 + j)) :
    EnInv rank0 fs0 wf0 Vs Fs Hs Cs (config_write me le v) := by
  constructor
  · exact h.hok
  · exact h.hmp
  · exact h.hwf
  · exact h.hfs
  · intro l
    show config_domain (if l = le then v else me.configuration l)
    by_cases hl : l = le
    · rw [if_pos hl]
      exact hvdom
    · rw [if_neg hl]
      exact h.hdom l
  · intro l hl
    show (if l = le then v else me.configuration l) = 0
    have hne : l ≠ le := fun he => hl (he ▸ hleV)
    rw [if_neg hne]
    exact h.hcfg l hl
  · exact h.hmf
  · exact h.hcr
  · exact h.hsp
  · intro le' hw hcfg'
    have hcfg'' : (if le' = le then v else me.configuration le') = 0 ∨
        (if le' = le then v else me.configuration le') = 16 := hcfg'
    by_cases hl : le' = le
    · subst hl
      rw [if_pos rfl] at hcfg''
      exact hc4' hw hcfg''
    · rw [if_neg hl] at hcfg''
      exact h.hc4 le' hw hcfg''
  · exact h.hc4f
  · intro le' j hj hw hcfg'
    have hcfg'' : (if le' = le then v else me.configuration le') = 0 ∨
        (if le' = le then v else me.configuration le') = 16 := hcfg'
    by_cases hl : le' = le
    · subst hl
      rw [if_pos rfl] at hcfg''
      exact hcf' j hj hw hcfg''
    · rw [if_neg hl] at hcfg''
      exact h.hcf le' j hj hw hcfg''

end P4est

namespace P4est

/-- The four center-to-corner midpoint registrations preserve the
invariant once the element's configuration rules the midpoints out. -/
lemma EnInv_cface_fold {rank0 : Nat} {fs0 : Bool} {Vs : List Nat}
    {Fs Hs Cs : List (Nat × Nat)} {st : tnodes_meta} {le : Nat}
    (h : EnInv rank0 fs0 true Vs Fs Hs Cs st)
    (hnc : ¬ (st.configuration le = 0 ∨ st.configuration le = 16))
    (hemp : ∀ k, k < 4 → en_empty st le (9 + k)) :
    EnInv rank0 fs0 true Vs Fs Hs Cs
      ((List.finRange 4).foldl
        (fun m j => (node_lregister m none le (n_cface j) ConnectType.face).1)
        st) := by
  have hfr : (List.finRange 4) = [0, 1, 2, 3] := rfl
  rw [hfr]
  simp only [List.foldl_cons, List.foldl_nil, node_lregister]
  have hcov_cr : ∀ k, 9 + k < 4 → True := fun _ _ => trivial
  -- step 1
  have hstep : ∀ (m : tnodes_meta) (k : Nat), k < 4 →
      EnInv rank0 fs0 true Vs Fs Hs Cs m →
      ¬ (m.configuration le = 0 ∨ m.configuration le = 16) →
      en_empty m le (9 + k) →
      EnInv rank0 fs0 true Vs Fs Hs Cs
        (node_register m none none le (9 + k) ConnectType.face).1 := by
    intro m k hk hm hmc hme
    refine EnInv_lregister hm none le (9 + k) ConnectType.face
      (by norm_num [vnodes]; omega) hme ?_ ?_ ?_ ?_ ?_
    · intro hlt
      omega
    · intro f hf hpe
      omega
    · intro hpe
      omega
    · intro j hj hpe hw
      have hjk : j = k := by omega
      subst hjk
      exact hmc
    · intro f hf _ hor
      have hs := n_split_ge13 ⟨f, hf⟩
      have h0 := n_hface_ge13 ⟨f, hf⟩ 0
      have h1 := n_hface_ge13 ⟨f, hf⟩ 1
      rcases hor with hpe | hpe | hpe <;> omega
  have hw1 : ∀ (m : tnodes_meta) (k : Nat),
      (node_register m none none le k ConnectType.face).1.with_faces
        = m.with_faces := fun m k =>
    node_register_with_faces m none none le k ConnectType.face
  have hcfg1 : ∀ (m : tnodes_meta) (k : Nat),
      (node_register m none none le k ConnectType.face).1.configuration
        = m.configuration := fun m k =>
    node_register_config m none none le k ConnectType.face
  -- emptiness transport across one register at position 9+k
  have htr : ∀ (m : tnodes_meta) (k k' : Nat), k < 4 → k' < 4 → k ≠ k' →
      m.with_faces = true →
      en_empty m le (9 + k') →
      en_empty (node_register m none none le (9 + k) ConnectType.face).1
        le (9 + k') := by
    intro m k k' hk hk' hne hmw hme
    exact (register_empty_pres m none none le (9 + k) ConnectType.face hmw
      (by norm_num [vnodes]; omega) le (9 + k')
      (by norm_num [vnodes]; omega)
      (by rintro ⟨_, hpe⟩; omega)).mpr hme
  -- chain the four steps
  have hwst : st.with_faces = true := h.hwf
  have e0 := hemp 0 (by omega)
  have e1 := hemp 1 (by omega)
  have e2 := hemp 2 (by omega)
  have e3 := hemp 3 (by omega)
  have h1 := hstep st 0 (by omega) h hnc e0
  have hnc1 : ¬ ((node_register st none none le 9
      ConnectType.face).1.configuration le = 0 ∨
      (node_register st none none le 9
      ConnectType.face).1.configuration le = 16) := by
    rw [hcfg1]
    exact hnc
  have hw1' := hw1 st 9
  have e1' := htr st 0 1 (by omega) (by omega) (by omega) hwst e1
  have e2' := htr st 0 2 (by omega) (by omega) (by omega) hwst e2
  have e3' := htr st 0 3 (by omega) (by omega) (by omega) hwst e3
  set m1 := (node_register st none none le 9 ConnectType.face).1 with hm1
  have h2 := hstep m1 1 (by omega) h1 hnc1 e1'
  have hnc2 : ¬ ((node_register m1 none none le 10
      ConnectType.face).1.configuration le = 0 ∨
      (node_register m1 none none le 10
      ConnectType.face).1.configuration le = 16) := by
    rw [hcfg1]
    exact hnc1
  have hm1w : m1.with_faces = true := by
    rw [hm1, hw1 st 9]
    exact hwst
  have e2'' := htr m1 1 2 (by omega) (by omega) (by omega) hm1w e2'
  have e3'' := htr m1 1 3 (by omega) (by omega) (by omega) hm1w e3'
  set m2 := (node_register m1 none none le 10 ConnectType.face).1 with hm2
  have h3 := hstep m2 2 (by omega) h2 hnc2 e2''
  have hnc3 : ¬ ((node_register m2 none none le 11
      ConnectType.face).1.configuration le = 0 ∨
      (node_register m2 none none le 11
      ConnectType.face).1.configuration le = 16) := by
    rw [hcfg1]
    exact hnc2
  have hm2w : m2.with_faces = true := by
    rw [hm2, hw1 m1 10]
    exact hm1w
  have e3''' := htr m2 2 3 (by omega) (by omega) (by omega) hm2w e3''
  set m3 := (node_register m2 none none le 11 ConnectType.face).1 with hm3
  have h4 := hstep m3 3 (by omega) h3 hnc3 e3'''
  exact h4

end P4est

namespace P4est

/-- The volume callback of a not-yet-presented element preserves the
invariant (and presents the element). -/
lemma iter_volume1_EnInv {rank0 : Nat} {fs0 wf0 : Bool} {Vs : List Nat}
    {Fs Hs Cs : List (Nat × Nat)} {me : tnodes_meta}
    (h : EnInv rank0 fs0 wf0 Vs Fs Hs Cs me) (le level childid : Nat)
    (hle : le ∉ Vs) :
    EnInv rank0 fs0 wf0 (le :: Vs) Fs Hs Cs
      (iter_volume1 me le level childid) := by
  have hc0 : me.configuration le = 0 := h.hcfg le hle
  have h' : EnInv rank0 fs0 wf0 (le :: Vs) Fs Hs Cs me :=
    EnInv_mono h (fun x hx => List.mem_cons_of_mem _ hx)
      (fun _ hx => hx) (fun _ hx => hx) (fun _ hx => hx)
  have e4 : en_empty me le 4 := by
    cases hwf0 : wf0 with
    | false => exact h.hc4 le hwf0 (Or.inl hc0)
    | true => exact h.hc4f le hwf0 hle
  have ecf : ∀ k, k < 4 → wf0 = true → en_empty me le (9 + k) :=
    fun k hk hw => h.hcf le k hk hw (Or.inl hc0)
  have hlein : le ∈ le :: Vs := List.mem_cons_self _ _
  simp only [iter_volume1, node_lregister]
  split
  · -- full style
    have h1 : EnInv rank0 fs0 wf0 (le :: Vs) Fs Hs Cs
        (config_write me le 32) :=
      EnInv_config_write h' le 32 hlein (Or.inr rfl)
        (fun _ h32 => absurd h32 (by decide))
        (fun _ _ _ h32 => absurd h32 (by decide))
    have hcfg32 : (config_write me le 32).configuration le = 32 :=
      if_pos rfl
    have h2 : EnInv rank0 fs0 wf0 (le :: Vs) Fs Hs Cs
        (node_register (config_write me le 32) none none le 4
          ConnectType.corner).1 := by
      refine EnInv_lregister h1 none le 4 ConnectType.corner
        (by have := vnodes_ge9 wf0; omega) e4 ?_ ?_ ?_ ?_ ?_
      · intro hlt
        omega
      · intro f hf hpe
        omega
      · intro _
        refine ⟨fun _ => hlein, fun _ => ?_⟩
        rw [hcfg32]
        decide
      · intro j hj hpe
        omega
      · intro f hf _ hor
        have hs := n_split_ge13 ⟨f, hf⟩
        have h0 := n_hface_ge13 ⟨f, hf⟩ 0
        have h1 := n_hface_ge13 ⟨f, hf⟩ 1
        rcases hor with hpe | hpe | hpe <;> omega
    split
    · -- with faces: four midpoint registrations
      rename_i hbw
      have hwt : wf0 = true := by
        rw [← h.hwf]
        rw [node_register_with_faces] at hbw
        exact hbw
      subst hwt
      have hnc2 : ¬ ((node_register (config_write me le 32) none none le 4
          ConnectType.corner).1.configuration le = 0 ∨
          (node_register (config_write me le 32) none none le 4
          ConnectType.corner).1.configuration le = 16) := by
        rw [node_register_config, hcfg32]
        decide
      have hemp2 : ∀ k, k < 4 →
          en_empty (node_register (config_write me le 32) none none le 4
            ConnectType.corner).1 le (9 + k) := by
        intro k hk
        refine (register_empty_pres (config_write me le 32) none none le 4
          ConnectType.corner h.hwf (by norm_num [vnodes]) le (9 + k)
          (by norm_num [vnodes]; omega)
          (by rintro ⟨_, hpe⟩; omega)).mpr ?_
        exact ecf k hk rfl
      exact EnInv_cface_fold h2 hnc2 hemp2
    · exact h2
  · -- half style
    by_cases hch : childid = 1 ∨ childid = 2
    · rw [if_pos hch]
      have h1 : EnInv rank0 fs0 wf0 (le :: Vs) Fs Hs Cs
          (config_write me le 16) :=
        EnInv_config_write h' le 16 hlein (Or.inl (by norm_num))
          (fun _ _ => e4) (fun j hj hw _ => ecf j hj hw)
      split
      · rename_i hbw
        have hwt : wf0 = true := by
          rw [← h.hwf]
          exact hbw
        refine EnInv_lregister h1 none le 4 ConnectType.face
          (by have := vnodes_ge9 wf0; omega) e4 ?_ ?_ ?_ ?_ ?_
        · intro hlt
          omega
        · intro f hf hpe
          omega
        · intro _
          refine ⟨fun _ => hlein, fun hwf0f => ?_⟩
          rw [hwt] at hwf0f
          cases hwf0f
        · intro j hj hpe
          omega
        · intro f hf _ hor
          have hs := n_split_ge13 ⟨f, hf⟩
          have h0 := n_hface_ge13 ⟨f, hf⟩ 0
          have h1 := n_hface_ge13 ⟨f, hf⟩ 1
          rcases hor with hpe | hpe | hpe <;> omega
      · exact h1
    · rw [if_neg hch]
      split
      · rename_i hbw
        have hwt : wf0 = true := by
          rw [← h.hwf]
          exact hbw
        refine EnInv_lregister h' none le 4 ConnectType.face
          (by have := vnodes_ge9 wf0; omega) e4 ?_ ?_ ?_ ?_ ?_
        · intro hlt
          omega
        · intro f hf hpe
          omega
        · intro _
          refine ⟨fun _ => hlein, fun hwf0f => ?_⟩
          rw [hwt] at hwf0f
          cases hwf0f
        · intro j hj hpe
          omega
        · intro f hf _ hor
          have hs := n_split_ge13 ⟨f, hf⟩
          have h0 := n_hface_ge13 ⟨f, hf⟩ 0
          have h1 := n_hface_ge13 ⟨f, hf⟩ 1
          rcases hor with hpe | hpe | hpe <;> omega
      · exact h'

end P4est

namespace P4est

/-- The nonconforming-face configuration update never lands on a
pure-half or empty code: the face's split bit is set. -/
lemma config_face_update_ne (c : Nat) (f : Fin 4) :
    config_face_update c f ≠ 0 ∧ config_face_update c f ≠ 16 := by
  have hbit : (config_face_update c f).testBit f.val = true := by
    unfold config_face_update
    rw [Nat.testBit_lor]
    have : (1 <<< f.val).testBit f.val = true := by
      rw [Nat.shiftLeft_eq, Nat.one_mul, Nat.testBit_two_pow_self]
    rw [this, Bool.or_true]
  constructor
  · intro he
    rw [he] at hbit
    rw [Nat.zero_testBit] at hbit
    cases hbit
  · intro he
    rw [he] at hbit
    revert hbit
    fin_cases f <;> decide

lemma gate_config_mem (c : Nat) (hd : config_domain c)
    (hg : c &&& 239 = 0) : c = 0 ∨ c = 16 := by
  rcases hd with hd | hd
  · interval_cases c <;> revert hg <;> decide
  · subst hd
    revert hg
    decide
set_option maxHeartbeats 2000000 in
/-- The promotion followed by the configuration update on the large
local side of a hanging face: the invariant survives, slots away from
the element's interior positions are untouched, and the configuration
is updated at `le` only. -/
lemma EnInv_promote_config {rank0 : Nat} {fs0 wf0 : Bool} {Vs : List Nat}
    {Fs Hs Cs : List (Nat × Nat)} {X : tnodes_meta}
    (h : EnInv rank0 fs0 wf0 Vs Fs Hs Cs X) (le : Nat) (face : Fin 4)
    (hleV : le ∈ Vs) :
    EnInv rank0 fs0 wf0 Vs Fs Hs Cs
      (config_write (hang_promote X le) le
        (config_face_update ((hang_promote X le).configuration le) face)) ∧
    (∀ le' p', p' < vnodes wf0 →
      ¬ (le' = le ∧ p' ∈ ([4, 9, 10, 11, 12] : List Nat)) →
      (en_empty (config_write (hang_promote X le) le
          (config_face_update ((hang_promote X le).configuration le) face))
          le' p' ↔ en_empty X le' p')) ∧
    (∀ l, l ≠ le →
      (config_write (hang_promote X le) le
        (config_face_update
          ((hang_promote X le).configuration le) face)).configuration l
        = X.configuration l) := by
  by_cases hg : X.configuration le &&& 239 = 0
  · have hmem : X.configuration le = 0 ∨ X.configuration le = 16 :=
      gate_config_mem _ (h.hdom le) hg
    cases hXw : X.with_faces with
    | false =>
        have hwf0 : wf0 = false := by
          rw [← h.hwf]
          exact hXw
        have hpr : hang_promote X le
            = (node_register X none none le n_center ConnectType.corner).1 := by
          unfold hang_promote
          rw [if_pos hg, if_pos hXw]
          rfl
        rw [hpr]
        have hZcfg : (node_register X none none le n_center
            ConnectType.corner).1.configuration = X.configuration :=
          node_register_config X none none le n_center ConnectType.corner
        have hYcfg : (config_write (node_register X none none le n_center
              ConnectType.corner).1 le
            (config_face_update ((node_register X none none le n_center
              ConnectType.corner).1.configuration le) face)).configuration le
            = config_face_update ((node_register X none none le n_center
              ConnectType.corner).1.configuration le) face :=
          if_pos rfl
        have hnY : ¬ ((config_write (node_register X none none le n_center
              ConnectType.corner).1 le
            (config_face_update ((node_register X none none le n_center
              ConnectType.corner).1.configuration le) face)).configuration le
              = 0 ∨
            (config_write (node_register X none none le n_center
              ConnectType.corner).1 le
            (config_face_update ((node_register X none none le n_center
              ConnectType.corner).1.configuration le) face)).configuration le
              = 16) := by
          rw [hYcfg]
          rintro (h0 | h0)
          · exact (config_face_update_ne _ face).1 h0
          · exact (config_face_update_ne _ face).2 h0
        have he4 : en_empty X le 4 := h.hc4 le hwf0 hmem
        have htr : ∀ le' p', p' < vnodes wf0 → ¬ (le' = le ∧ p' = 4) →
            (en_empty (node_register X none none le n_center
              ConnectType.corner).1 le' p' ↔ en_empty X le' p') := by
          intro le' p' hp' hne
          exact register_empty_pres X none none le n_center ConnectType.corner
            h.hwf (by have := vnodes_ge9 wf0; show (4 : Nat) < vnodes wf0; omega)
            le' p' hp' hne
        refine ⟨?_, ?_, ?_⟩
        · refine EnInv_of_effect _ [4] le h ?_ ?_ ?_ ?_ ?_ ?_ ?_ hleV ?_ ?_ ?_
            ?_ ?_ ?_
          · exact node_register_with_faces X none none le n_center
              ConnectType.corner
          · exact node_register_mpirank X none none le n_center
              ConnectType.corner
          · exact node_register_full_style X none none le n_center
              ConnectType.corner
          · intro l hl
            show (if l = le then _ else _) = _
            rw [if_neg hl, hZcfg]
          · rw [hYcfg]
            exact config_face_update_domain _ _ (by rw [hZcfg]; exact h.hdom le)
          · intro hin
            exact absurd hin hnY
          · show (node_register X none none le n_center
              ConnectType.corner).1.ok = true
            rw [node_register_ok_eq, if_pos (show (none : Option Nat).getD
              X.mpirank = X.mpirank from rfl), h.hok]
            have he4' : X.element_nodes
                (le * vnodes X.with_faces + n_center) = -1 := he4
            rw [he4']
            rfl
          · intro le' p' hp' hne
            have hne' : ¬ (le' = le ∧ p' = 4) := by
              rintro ⟨rfl, rfl⟩
              exact hne ⟨rfl, by decide⟩
            exact htr le' p' hp' hne'
          · intro p hp hlt
            rw [List.mem_singleton] at hp
            omega
          · intro f hf hin
            rw [List.mem_singleton] at hin
            omega
          · intro _ _
            exact hnY
          · intro j hj hin
            rw [List.mem_singleton] at hin
            omega
          · intro f hf hor
            exfalso
            have hs := n_split_ge13 ⟨f, hf⟩
            have h0 := n_hface_ge13 ⟨f, hf⟩ 0
            have h1 := n_hface_ge13 ⟨f, hf⟩ 1
            rcases hor with hm | hm | hm <;>
              (rw [List.mem_singleton] at hm; omega)
        · intro le' p' hp' hne
          have hne' : ¬ (le' = le ∧ p' = 4) := by
            rintro ⟨rfl, rfl⟩
            exact hne ⟨rfl, by decide⟩
          exact htr le' p' hp' hne'
        · intro l hl
          show (if l = le then _ else _) = _
          rw [if_neg hl, hZcfg]
    | true =>
        have hwf0 : wf0 = true := by
          rw [← h.hwf]
          exact hXw
        have hpr : hang_promote X le
            = (List.finRange 4).foldl
              (fun m j =>
                (node_lregister m none le (n_cface j) ConnectType.face).1)
              (node_lfacetocorner X le n_center) := by
          unfold hang_promote
          rw [if_pos hg]
          rw [if_neg (by rw [hXw]; decide)]
        rw [hpr]
        obtain ⟨hften, hftok, hftmp, hftwf, hftfs, hftfc⟩ :=
          node_lfacetocorner_fields X le n_center
        have hftcfg := node_lfacetocorner_config X le n_center
        have hZw : (node_lfacetocorner X le n_center).with_faces = wf0 := by
          rw [hftwf]
          exact h.hwf
        obtain ⟨b1, b2, b3, b4, b5, b6, b7⟩ :=
          lreg_chain le ConnectType.face [9, 10, 11, 12]
            (node_lfacetocorner X le n_center)
            (by
              intro p hp
              rw [hZw, hwf0]
              simp only [List.mem_cons, List.not_mem_nil, or_false] at hp
              rcases hp with rfl | rfl | rfl | rfl <;> norm_num [vnodes])
        have hfold_eq : (List.finRange 4).foldl
            (fun m j =>
              (node_lregister m none le (n_cface j) ConnectType.face).1)
            (node_lfacetocorner X le n_center)
            = lreg_fold le ConnectType.face [9, 10, 11, 12]
              (node_lfacetocorner X le n_center) := rfl
        rw [hfold_eq]
        have hokF : (lreg_fold le ConnectType.face [9, 10, 11, 12]
            (node_lfacetocorner X le n_center)).ok = true := by
          apply b7
          · rw [hftok]
            exact h.hok
          · decide
          · intro p hp
            have hemp : ∀ k, k < 4 → en_empty X le (9 + k) := fun k hk =>
              h.hcf le k hk hwf0 hmem
            have hpe : p = 9 ∨ p = 10 ∨ p = 11 ∨ p = 12 := by
              simpa using hp
            have hX : en_empty X le p := by
              rcases hpe with rfl | rfl | rfl | rfl
              · exact hemp 0 (by omega)
              · exact hemp 1 (by omega)
              · exact hemp 2 (by omega)
              · exact hemp 3 (by omega)
            show (node_lfacetocorner X le n_center).element_nodes
              (le * vnodes (node_lfacetocorner X le n_center).with_faces + p)
                = -1
            rw [hften, hftwf]
            exact hX
        have hYcfg : (lreg_fold le ConnectType.face [9, 10, 11, 12]
            (node_lfacetocorner X le n_center)).configuration le
            = X.configuration le := by
          rw [b4, hftcfg]
        have hYcfg2 : (config_write (lreg_fold le ConnectType.face
              [9, 10, 11, 12] (node_lfacetocorner X le n_center)) le
            (config_face_update ((lreg_fold le ConnectType.face [9, 10, 11, 12]
              (node_lfacetocorner X le n_center)).configuration le)
              face)).configuration le
            = config_face_update ((lreg_fold le ConnectType.face [9, 10, 11, 12]
              (node_lfacetocorner X le n_center)).configuration le) face :=
          if_pos rfl
        have hnY : ¬ ((config_write (lreg_fold le ConnectType.face
              [9, 10, 11, 12] (node_lfacetocorner X le n_center)) le
            (config_face_update ((lreg_fold le ConnectType.face [9, 10, 11, 12]
              (node_lfacetocorner X le n_center)).configuration le)
              face)).configuration le = 0 ∨
            (config_write (lreg_fold le ConnectType.face
              [9, 10, 11, 12] (node_lfacetocorner X le n_center)) le
            (config_face_update ((lreg_fold le ConnectType.face [9, 10, 11, 12]
              (node_lfacetocorner X le n_center)).configuration le)
              face)).configuration le = 16) := by
          rw [hYcfg2]
          rintro (h0 | h0)
          · exact (config_face_update_ne _ face).1 h0
          · exact (config_face_update_ne _ face).2 h0
        have htrF : ∀ le' p', p' < vnodes wf0 →
            ¬ (le' = le ∧ p' ∈ ([4, 9, 10, 11, 12] : List Nat)) →
            (en_empty (lreg_fold le ConnectType.face [9, 10, 11, 12]
              (node_lfacetocorner X le n_center)) le' p'
              ↔ en_empty X le' p') := by
          intro le' p' hp' hne
          have hb1 : (lreg_fold le ConnectType.face [9, 10, 11, 12]
              (node_lfacetocorner X le n_center)).with_faces = wf0 := by
            rw [b1]
            exact hZw
          unfold en_empty
          rw [hb1]
          rw [b6 (le' * vnodes wf0 + p') ?_]
          · rw [hften, h.hwf]
          · intro p hp
            rw [hZw]
            have hpe : p = 9 ∨ p = 10 ∨ p = 11 ∨ p = 12 := by
              simpa using hp
            apply slot_ne le p le' p' ?_ hp'
            · rintro ⟨rfl, rfl⟩
              apply hne
              refine ⟨rfl, ?_⟩
              rcases hpe with rfl | rfl | rfl | rfl <;> decide
            · rcases hpe with rfl | rfl | rfl | rfl <;>
                (rw [hwf0]; norm_num [vnodes])
        refine ⟨?_, ?_, ?_⟩
        · refine EnInv_of_effect _ [4, 9, 10, 11, 12] le h ?_ ?_ ?_ ?_ ?_ ?_
            ?_ hleV ?_ ?_ ?_ ?_ ?_ ?_
          · show (lreg_fold le ConnectType.face [9, 10, 11, 12]
              (node_lfacetocorner X le n_center)).with_faces = X.with_faces
            rw [b1, hftwf]
          · show (lreg_fold le ConnectType.face [9, 10, 11, 12]
              (node_lfacetocorner X le n_center)).mpirank = X.mpirank
            rw [b2, hftmp]
          · show (lreg_fold le ConnectType.face [9, 10, 11, 12]
              (node_lfacetocorner X le n_center)).full_style = X.full_style
            rw [b3, hftfs]
          · intro l hl
            show (if l = le then _ else _) = _
            rw [if_neg hl, b4, hftcfg]
          · rw [hYcfg2]
            refine config_face_update_domain _ _ ?_
            rw [hYcfg]
            exact h.hdom le
          · intro hin
            exact absurd hin hnY
          · exact hokF
          · exact htrF
          · intro p hp hlt
            exfalso
            simp only [List.mem_cons, List.not_mem_nil, or_false] at hp
            rcases hp with rfl | rfl | rfl | rfl | rfl <;> omega
          · intro f hf hin
            exfalso
            simp only [List.mem_cons, List.not_mem_nil, or_false] at hin
            rcases hin with h5 | h5 | h5 | h5 | h5 <;> omega
          · intro _ _
            exact hnY
          · intro _ _ _
            exact hnY
          · intro f hf hor
            exfalso
            have hs := n_split_ge13 ⟨f, hf⟩
            have h0 := n_hface_ge13 ⟨f, hf⟩ 0
            have h1 := n_hface_ge13 ⟨f, hf⟩ 1
            rcases hor with hm | hm | hm <;>
              · simp only [List.mem_cons, List.not_mem_nil, or_false] at hm
                rcases hm with h5 | h5 | h5 | h5 | h5 <;> omega
        · exact htrF
        · intro l hl
          show (if l = le then _ else _) = _
          rw [if_neg hl, b4, hftcfg]
  · have hpr : hang_promote X le = X := by
      unfold hang_promote
      rw [if_neg hg]
    rw [hpr]
    refine ⟨?_, ?_, ?_⟩
    · refine EnInv_config_write h le _ hleV
        (config_face_update_domain _ _ (h.hdom le)) ?_ ?_
      · intro _ hin
        exfalso
        rcases hin with h0 | h0
        · exact (config_face_update_ne _ face).1 h0
        · exact (config_face_update_ne _ face).2 h0
      · intro j hj _ hin
        exfalso
        rcases hin with h0 | h0
        · exact (config_face_update_ne _ face).1 h0
        · exact (config_face_update_ne _ face).2 h0
    · intro le' p' _ _
      exact Iff.rfl
    · intro l hl
      show (if l = le then _ else _) = _
      rw [if_neg hl]

end P4est

namespace P4est

lemma n_mface_eq (f : Fin 4) : n_mface f = 5 + f.val := by
  fin_cases f <;> decide

lemma n_mface_lt9 (f : Fin 4) : n_mface f < 9 := by
  fin_cases f <;> decide

lemma n_mface_ge5 (f : Fin 4) : 5 ≤ n_mface f := by
  fin_cases f <;> decide

lemma n_split_inj {f g : Fin 4} (h : n_split f = n_split g) : f = g := by
  fin_cases f <;> fin_cases g <;> first | rfl | (exfalso; revert h; decide)

lemma n_split_ne_hface (f g : Fin 4) (j : Fin 2) :
    n_split f ≠ n_hface g j := by
  fin_cases f <;> fin_cases g <;> fin_cases j <;> decide

lemma n_hface_inj {f g : Fin 4} {j j' : Fin 2}
    (h : n_hface f j = n_hface g j') : f = g ∧ j = j' := by
  fin_cases f <;> fin_cases g <;> fin_cases j <;> fin_cases j' <;>
    first | exact ⟨rfl, rfl⟩ | (exfalso; revert h; decide)

/-- One side of a conforming face connection: a ghost side with a
genuinely remote rank, or a local side whose face claim is presented and
whose midpoint slot is still empty. -/
lemma conform_side_EnInv {rank0 : Nat} {fs0 wf0 : Bool} {Vs : List Nat}
    {Fs Hs Cs : List (Nat × Nat)} (p : tnodes_meta × Option Nat)
    (s : FullSide)
    (h : EnInv rank0 fs0 wf0 Vs Fs Hs Cs p.1)
    (hcase : (s.ghost = true ∧ s.rank ≠ rank0) ∨
      (s.ghost = false ∧ (s.le, s.face.val) ∈ Fs ∧
        en_empty p.1 s.le (n_mface s.face))) :
    EnInv rank0 fs0 wf0 Vs Fs Hs Cs (conform_side p s).1 ∧
    (∀ le' p', p' < vnodes wf0 →
      ¬ (s.ghost = false ∧ le' = s.le ∧ p' = n_mface s.face) →
      (en_empty (conform_side p s).1 le' p' ↔ en_empty p.1 le' p')) := by
  simp only [conform_side, node_gregister, node_lregister]
  rcases hcase with ⟨hg, hr⟩ | ⟨hg, hmem, hemp⟩
  · rw [if_pos hg]
    have hr' : s.rank ≠ p.1.mpirank := by
      rw [h.hmp]
      exact hr
    constructor
    · exact EnInv_gregister h p.2 s.le (n_mface s.face) ConnectType.face
        s.rank hr
    · intro le' p' _ _
      exact gregister_empty_pres p.1 p.2 s.le (n_mface s.face)
        ConnectType.face s.rank hr' le' p'
  · rw [if_neg (by rw [hg]; exact Bool.false_ne_true)]
    have hplt : n_mface s.face < vnodes wf0 := by
      have := n_mface_lt9 s.face
      have := vnodes_ge9 wf0
      omega
    constructor
    · refine EnInv_lregister h p.2 s.le (n_mface s.face) ConnectType.face
        hplt hemp ?_ ?_ ?_ ?_ ?_
      · intro hlt
        have := n_mface_ge5 s.face
        omega
      · intro f hf hpe
        rw [n_mface_eq] at hpe
        have hfv : f = s.face.val := by omega
        subst hfv
        exact Or.inl hmem
      · intro hpe
        have := n_mface_ge5 s.face
        omega
      · intro jj hj hpe
        have := n_mface_lt9 s.face
        omega
      · intro f hf _ hor
        have hs := n_split_ge13 ⟨f, hf⟩
        have h0 := n_hface_ge13 ⟨f, hf⟩ 0
        have h1 := n_hface_ge13 ⟨f, hf⟩ 1
        have := n_mface_lt9 s.face
        rcases hor with hpe | hpe | hpe <;> omega
    · intro le' p' hp' hne
      refine register_empty_pres p.1 p.2 none s.le (n_mface s.face)
        ConnectType.face h.hwf hplt le' p' hp' ?_
      rintro ⟨rfl, rfl⟩
      exact hne ⟨hg, rfl, rfl⟩

/-- One side of a corner connection: a ghost side with a genuinely
remote rank, or a local side whose corner claim is presented and whose
corner slot is still empty. -/
lemma corner_side_EnInv {rank0 : Nat} {fs0 wf0 : Bool} {Vs : List Nat}
    {Fs Hs Cs : List (Nat × Nat)} (p : tnodes_meta × Option Nat)
    (s : CornerSide)
    (h : EnInv rank0 fs0 wf0 Vs Fs Hs Cs p.1)
    (hcase : (s.ghost = true ∧ s.rank ≠ rank0) ∨
      (s.ghost = false ∧ (s.le, s.corner.val) ∈ Cs ∧
        en_empty p.1 s.le (n_ccorn s.corner))) :
    EnInv rank0 fs0 wf0 Vs Fs Hs Cs (corner_side p s).1 ∧
    (∀ le' p', p' < vnodes wf0 →
      ¬ (s.ghost = false ∧ le' = s.le ∧ p' = n_ccorn s.corner) →
      (en_empty (corner_side p s).1 le' p' ↔ en_empty p.1 le' p')) := by
  simp only [corner_side, node_gregister, node_lregister]
  rcases hcase with ⟨hg, hr⟩ | ⟨hg, hmem, hemp⟩
  · rw [if_pos hg]
    have hr' : s.rank ≠ p.1.mpirank := by
      rw [h.hmp]
      exact hr
    constructor
    · exact EnInv_gregister h p.2 s.le (n_ccorn s.corner) ConnectType.corner
        s.rank hr
    · intro le' p' _ _
      exact gregister_empty_pres p.1 p.2 s.le (n_ccorn s.corner)
        ConnectType.corner s.rank hr' le' p'
  · rw [if_neg (by rw [hg]; exact Bool.false_ne_true)]
    have hclt : n_ccorn s.corner < 4 := s.corner.isLt
    have hplt : n_ccorn s.corner < vnodes wf0 := by
      have := vnodes_ge9 wf0
      omega
    constructor
    · refine EnInv_lregister h p.2 s.le (n_ccorn s.corner) ConnectType.corner
        hplt hemp ?_ ?_ ?_ ?_ ?_
      · intro _
        exact hmem
      · intro f hf hpe
        omega
      · intro hpe
        omega
      · intro jj hj hpe
        omega
      · intro f hf _ hor
        have hs := n_split_ge13 ⟨f, hf⟩
        have h0 := n_hface_ge13 ⟨f, hf⟩ 0
        have h1 := n_hface_ge13 ⟨f, hf⟩ 1
        rcases hor with hpe | hpe | hpe <;> omega
    · intro le' p' hp' hne
      refine register_empty_pres p.1 p.2 none s.le (n_ccorn s.corner)
        ConnectType.corner h.hwf hplt le' p' hp' ?_
      rintro ⟨rfl, rfl⟩
      exact hne ⟨hg, rfl, rfl⟩

end P4est

namespace P4est

lemma corner_claims_cons (s : CornerSide) (rest : List CornerSide) :
    corner_claims (s :: rest) =
      if s.ghost then corner_claims rest
      else (s.le, s.corner.val) :: corner_claims rest := by
  by_cases hg : s.ghost = true
  · simp [corner_claims, List.filterMap_cons, hg]
  · simp [corner_claims, List.filterMap_cons, hg]

lemma mem_corner_claims {s : CornerSide} {sides : List CornerSide}
    (hs : s ∈ sides) (hg : s.ghost = false) :
    (s.le, s.corner.val) ∈ corner_claims sides := by
  unfold corner_claims
  rw [List.mem_filterMap]
  refine ⟨s, hs, ?_⟩
  simp [hg]

/-- The fold over the sides of a corner connection preserves the
invariant when every local claim is presented, fresh and
pairwise distinct and every remote side is genuinely remote. -/
lemma corner_fold_EnInv {rank0 : Nat} {fs0 wf0 : Bool} {Vs : List Nat}
    {Fs Hs Cs : List (Nat × Nat)} (sides : List CornerSide) :
    ∀ p : tnodes_meta × Option Nat,
      EnInv rank0 fs0 wf0 Vs Fs Hs Cs p.1 →
      (∀ s ∈ sides, s.ghost = true → s.rank ≠ rank0) →
      (∀ s ∈ sides, s.ghost = false → (s.le, s.corner.val) ∈ Cs) →
      (corner_claims sides).Nodup →
      (∀ s ∈ sides, s.ghost = false →
        en_empty p.1 s.le (n_ccorn s.corner)) →
      EnInv rank0 fs0 wf0 Vs Fs Hs Cs (sides.foldl corner_side p).1 := by
  induction sides with
  | nil => exact fun p h _ _ _ _ => h
  | cons s rest ih =>
      intro p h hgh hcl hnd hemp
      simp only [List.foldl_cons]
      have hcase : (s.ghost = true ∧ s.rank ≠ rank0) ∨
          (s.ghost = false ∧ (s.le, s.corner.val) ∈ Cs ∧
            en_empty p.1 s.le (n_ccorn s.corner)) := by
        cases hg : s.ghost with
        | true => exact Or.inl ⟨rfl, hgh s (List.mem_cons_self _ _) hg⟩
        | false => exact Or.inr ⟨rfl, hcl s (List.mem_cons_self _ _) hg,
            hemp s (List.mem_cons_self _ _) hg⟩
      obtain ⟨h1, htr⟩ := corner_side_EnInv p s h hcase
      have hnd' : (corner_claims rest).Nodup := by
        rw [corner_claims_cons] at hnd
        by_cases hg : s.ghost = true
        · rwa [if_pos hg] at hnd
        · rw [if_neg hg] at hnd
          exact hnd.of_cons
      refine ih (corner_side p s) h1
        (fun x hx => hgh x (List.mem_cons_of_mem _ hx))
        (fun x hx => hcl x (List.mem_cons_of_mem _ hx)) hnd' ?_
      intro x hx hxg
      have hxlt : n_ccorn x.corner < vnodes wf0 := by
        have := x.corner.isLt
        have := vnodes_ge9 wf0
        show x.corner.val < vnodes wf0
        omega
      refine (htr x.le (n_ccorn x.corner) hxlt ?_).mpr
        (hemp x (List.mem_cons_of_mem _ hx) hxg)
      rintro ⟨hsg, hle, hcc⟩
      rw [corner_claims_cons, if_neg (by rw [hsg]; exact Bool.false_ne_true)]
        at hnd
      rw [List.nodup_cons] at hnd
      apply hnd.1
      have hx' : (x.le, x.corner.val) ∈ corner_claims rest :=
        mem_corner_claims hx hxg
      have hcc' : x.corner.val = s.corner.val := hcc
      rw [← hle, ← hcc']
      exact hx'

/-- The boundary-face callback preserves the invariant (the face claim
is presented). -/
lemma faceBoundary_EnInv {rank0 : Nat} {fs0 wf0 : Bool} {Vs : List Nat}
    {Fs Hs Cs : List (Nat × Nat)} {me : tnodes_meta}
    (h : EnInv rank0 fs0 wf0 Vs Fs Hs Cs me) (le : Nat) (face : Fin 4)
    (hF : (le, face.val) ∉ Fs) (hH : (le, face.val) ∉ Hs) :
    EnInv rank0 fs0 wf0 Vs ((le, face.val) :: Fs) Hs Cs
      (if me.with_faces = true then
        (node_lregister me none le (n_mface face) ConnectType.face).1
      else me) := by
  have h' : EnInv rank0 fs0 wf0 Vs ((le, face.val) :: Fs) Hs Cs me :=
    EnInv_mono h (fun _ hx => hx) (fun x hx => List.mem_cons_of_mem _ hx)
      (fun _ hx => hx) (fun _ hx => hx)
  split
  · have hemp : en_empty me le (n_mface face) := by
      unfold en_empty
      rw [n_mface_eq]
      exact h.hmf le face.val face.isLt hF hH
    have hplt : n_mface face < vnodes wf0 := by
      have := n_mface_lt9 face
      have := vnodes_ge9 wf0
      omega
    refine EnInv_lregister h' none le (n_mface face) ConnectType.face
      hplt hemp ?_ ?_ ?_ ?_ ?_
    · intro hlt
      have := n_mface_ge5 face
      omega
    · intro f hf hpe
      rw [n_mface_eq] at hpe
      have hfv : f = face.val := by omega
      subst hfv
      exact Or.inl (List.mem_cons_self _ _)
    · intro hpe
      have := n_mface_ge5 face
      omega
    · intro jj hj hpe
      have := n_mface_lt9 face
      omega
    · intro f hf _ hor
      have hs := n_split_ge13 ⟨f, hf⟩
      have h0 := n_hface_ge13 ⟨f, hf⟩ 0
      have h1 := n_hface_ge13 ⟨f, hf⟩ 1
      have := n_mface_lt9 face
      rcases hor with hpe | hpe | hpe <;> omega
  · exact h'

end P4est

namespace P4est

lemma setLnh_me (st : HState) (k v : Nat) : (setLnh st k v).me = st.me := by
  unfold setLnh
  split <;> rfl

/-- The large ghost side of a hanging face: all contributions are
remote, nothing is written. -/
lemma hang_full_ghost_EnInv {rank0 : Nat} {fs0 wf0 : Bool} {Vs : List Nat}
    {Fs Hs Cs : List (Nat × Nat)} (st : HState) (rank le : Nat)
    (face : Fin 4) (swapi : Bool)
    (h : EnInv rank0 fs0 wf0 Vs Fs Hs Cs st.me) (hr : rank ≠ rank0) :
    EnInv rank0 fs0 wf0 Vs Fs Hs Cs
      (hang_full_ghost st rank le face swapi).me ∧
    (∀ le' p',
      en_empty (hang_full_ghost st rank le face swapi).me le' p'
        ↔ en_empty st.me le' p') := by
  have hB := EnInv_gregister h st.lni le (n_mface face) ConnectType.corner
    rank hr
  have hr1 : rank ≠ st.me.mpirank := by
    rw [h.hmp]
    exact hr
  have hr2 : rank ≠ (node_register st.me st.lni (some rank) le (n_mface face)
      ConnectType.corner).1.mpirank := by
    rw [node_register_mpirank]
    exact hr1
  simp only [hang_full_ghost, node_gregister]
  split
  · constructor
    · simp only [setLnh_me]
      exact EnInv_gregister (EnInv_gregister hB _ le (n_hface face 0)
        ConnectType.face rank hr) _ le (n_hface face 1)
        ConnectType.face rank hr
    · intro le' p'
      simp only [setLnh_me]
      refine Iff.trans (gregister_empty_pres _ _ le (n_hface face 1)
        ConnectType.face rank ?_ le' p') ?_
      · rw [node_register_mpirank]
        exact hr2
      refine Iff.trans (gregister_empty_pres _ _ le (n_hface face 0)
        ConnectType.face rank hr2 le' p') ?_
      exact gregister_empty_pres st.me st.lni le (n_mface face)
        ConnectType.corner rank hr1 le' p'
  · constructor
    · exact hB
    · intro le' p'
      exact gregister_empty_pres st.me st.lni le (n_mface face)
        ConnectType.corner rank hr1 le' p'

end P4est

namespace P4est

/-- One half quadrant of the hanging side: a ghost quadrant with a
genuinely remote rank, or a local quadrant whose hanging corner and face
midpoint are presented and still empty. -/
lemma hang_half_EnInv {rank0 : Nat} {fs0 wf0 : Bool} {Vs : List Nat}
    {Fs Hs Cs : List (Nat × Nat)} (st : HState) (face : Fin 4)
    (q : HalfQuad) (j : Fin 2) (swapi : Bool)
    (h : EnInv rank0 fs0 wf0 Vs Fs Hs Cs st.me)
    (hcase : (q.ghost = true ∧ q.rank ≠ rank0) ∨
      (q.ghost = false ∧ (q.le, hang_corner face j) ∈ Cs ∧
        (q.le, face.val) ∈ Fs ∧
        en_empty st.me q.le (hang_corner face j) ∧
        en_empty st.me q.le (n_mface face))) :
    EnInv rank0 fs0 wf0 Vs Fs Hs Cs (hang_half st face q j swapi).me ∧
    (∀ le' p', p' < vnodes wf0 → (q.ghost = false → le' ≠ q.le) →
      (en_empty (hang_half st face q j swapi).me le' p'
        ↔ en_empty st.me le' p')) := by
  have hclt : hang_corner face j < 4 := hang_corner_lt face j
  have hcvlt : hang_corner face j < vnodes wf0 := by
    have := vnodes_ge9 wf0
    omega
  have hmlt : n_mface face < vnodes wf0 := by
    have := n_mface_lt9 face
    have := vnodes_ge9 wf0
    omega
  simp only [hang_half, node_gregister, node_lregister]
  rcases hcase with ⟨hg, hr⟩ | ⟨hg, hCs, hFs, hec, hem⟩
  · rw [if_pos hg]
    have hr1 : q.rank ≠ st.me.mpirank := by
      rw [h.hmp]
      exact hr
    have hB := EnInv_gregister h st.lni q.le (hang_corner face j)
      ConnectType.corner q.rank hr
    have hr2 : q.rank ≠ (node_register st.me st.lni (some q.rank) q.le
        (hang_corner face j) ConnectType.corner).1.mpirank := by
      rw [node_register_mpirank]
      exact hr1
    split
    · constructor
      · simp only [setLnh_me]
        exact EnInv_gregister hB _ q.le (n_mface face) ConnectType.face
          q.rank hr
      · intro le' p' _ _
        simp only [setLnh_me]
        refine Iff.trans (gregister_empty_pres _ _ q.le (n_mface face)
          ConnectType.face q.rank hr2 le' p') ?_
        exact gregister_empty_pres st.me st.lni q.le (hang_corner face j)
          ConnectType.corner q.rank hr1 le' p'
    · constructor
      · exact hB
      · intro le' p' _ _
        exact gregister_empty_pres st.me st.lni q.le (hang_corner face j)
          ConnectType.corner q.rank hr1 le' p'
  · rw [if_neg (by rw [hg]; exact Bool.false_ne_true)]
    have hB : EnInv rank0 fs0 wf0 Vs Fs Hs Cs
        (node_register st.me st.lni none q.le (hang_corner face j)
          ConnectType.corner).1 := by
      refine EnInv_lregister h st.lni q.le (hang_corner face j)
        ConnectType.corner hcvlt hec ?_ ?_ ?_ ?_ ?_
      · intro _
        exact hCs
      · intro f hf hpe
        omega
      · intro hpe
        omega
      · intro jj hj hpe
        omega
      · intro f hf _ hor
        have hs := n_split_ge13 ⟨f, hf⟩
        have h0 := n_hface_ge13 ⟨f, hf⟩ 0
        have h1 := n_hface_ge13 ⟨f, hf⟩ 1
        rcases hor with hpe | hpe | hpe <;> omega
    have htrB : ∀ le' p', p' < vnodes wf0 →
        ¬ (le' = q.le ∧ p' = hang_corner face j) →
        (en_empty (node_register st.me st.lni none q.le (hang_corner face j)
          ConnectType.corner).1 le' p' ↔ en_empty st.me le' p') :=
      fun le' p' hp' hne => register_empty_pres st.me st.lni none q.le
        (hang_corner face j) ConnectType.corner h.hwf hcvlt le' p' hp' hne
    have hemB : en_empty (node_register st.me st.lni none q.le
        (hang_corner face j) ConnectType.corner).1 q.le (n_mface face) := by
      refine (htrB q.le (n_mface face) hmlt ?_).mpr hem
      rintro ⟨_, hpe⟩
      have := n_mface_ge5 face
      omega
    have hC : EnInv rank0 fs0 wf0 Vs Fs Hs Cs
        (node_register (node_register st.me st.lni none q.le
            (hang_corner face j) ConnectType.corner).1
          (getLnh { st with
            me := (node_register st.me st.lni none q.le (hang_corner face j)
              ConnectType.corner).1,
            lni := some (node_register st.me st.lni none q.le
              (hang_corner face j) ConnectType.corner).2 }
            (if swapi then 1 - j.val else j.val))
          none q.le (n_mface face) ConnectType.face).1 := by
      refine EnInv_lregister hB _ q.le (n_mface face) ConnectType.face
        hmlt hemB ?_ ?_ ?_ ?_ ?_
      · intro hlt
        have := n_mface_ge5 face
        omega
      · intro f hf hpe
        rw [n_mface_eq] at hpe
        have hfv : f = face.val := by omega
        subst hfv
        exact Or.inl hFs
      · intro hpe
        have := n_mface_ge5 face
        omega
      · intro jj hj hpe
        have := n_mface_lt9 face
        omega
      · intro f hf _ hor
        have hs := n_split_ge13 ⟨f, hf⟩
        have h0 := n_hface_ge13 ⟨f, hf⟩ 0
        have h1 := n_hface_ge13 ⟨f, hf⟩ 1
        have := n_mface_lt9 face
        rcases hor with hpe | hpe | hpe <;> omega
    split
    · constructor
      · simp only [setLnh_me]
        exact EnInv_face_code_write hC q.le _
      · intro le' p' hp' hne
        simp only [setLnh_me]
        refine Iff.trans (register_empty_pres _ _ none q.le (n_mface face)
          ConnectType.face ?_ hmlt le' p' hp' ?_) ?_
        · rw [node_register_with_faces]
          exact h.hwf
        · rintro ⟨rfl, _⟩
          exact hne hg rfl
        refine htrB le' p' hp' ?_
        rintro ⟨rfl, _⟩
        exact hne hg rfl
    · constructor
      · exact EnInv_face_code_write hB q.le _
      · intro le' p' hp' hne
        refine htrB le' p' hp' ?_
        rintro ⟨rfl, _⟩
        exact hne hg rfl

end P4est

namespace P4est

lemma n_hface_ne01 (face : Fin 4) : n_hface face 0 ≠ n_hface face 1 := by
  fin_cases face <;> decide

/-- The large local side of a hanging face: promotion, configuration
update, face midpoint, and with faces the split center and the two
half-face midpoints; the invariant survives and other elements' slots
are untouched. -/
lemma hang_full_local_EnInv {rank0 : Nat} {fs0 wf0 : Bool} {Vs : List Nat}
    {Fs Hs Cs : List (Nat × Nat)} (st : HState) (le : Nat) (face : Fin 4)
    (swapi : Bool)
    (h : EnInv rank0 fs0 wf0 Vs Fs Hs Cs st.me)
    (hleV : le ∈ Vs) (hHs : (le, face.val) ∈ Hs)
    (hempMf : en_empty st.me le (n_mface face))
    (hempSp : wf0 = true → en_empty st.me le (n_split face))
    (hempH0 : wf0 = true → en_empty st.me le (n_hface face 0))
    (hempH1 : wf0 = true → en_empty st.me le (n_hface face 1)) :
    EnInv rank0 fs0 wf0 Vs Fs Hs Cs (hang_full_local st le face swapi).me ∧
    (∀ le' p', p' < vnodes wf0 → le' ≠ le →
      (en_empty (hang_full_local st le face swapi).me le' p'
        ↔ en_empty st.me le' p')) := by
  have hmlt : n_mface face < vnodes wf0 := by
    have := n_mface_lt9 face
    have := vnodes_ge9 wf0
    omega
  obtain ⟨hA, hAtr, hAcfg⟩ := EnInv_promote_config h le face hleV
  have hempMfA : en_empty (config_write (hang_promote st.me le) le
      (config_face_update ((hang_promote st.me le).configuration le) face))
      le (n_mface face) := by
    refine (hAtr le (n_mface face) hmlt ?_).mpr hempMf
    rintro ⟨_, hmem⟩
    have h5 := n_mface_ge5 face
    have h9 := n_mface_lt9 face
    simp only [List.mem_cons, List.not_mem_nil, or_false] at hmem
    rcases hmem with he | he | he | he | he <;> omega
  have hB : EnInv rank0 fs0 wf0 Vs Fs Hs Cs
      (node_register (config_write (hang_promote st.me le) le
        (config_face_update ((hang_promote st.me le).configuration le) face))
        st.lni none le (n_mface face) ConnectType.corner).1 := by
    refine EnInv_lregister hA st.lni le (n_mface face) ConnectType.corner
      hmlt hempMfA ?_ ?_ ?_ ?_ ?_
    · intro hlt
      have := n_mface_ge5 face
      omega
    · intro f hf hpe
      rw [n_mface_eq] at hpe
      have hfv : f = face.val := by omega
      subst hfv
      exact Or.inr hHs
    · intro hpe
      have := n_mface_ge5 face
      omega
    · intro jj hj hpe
      have := n_mface_lt9 face
      omega
    · intro f hf _ hor
      have hs := n_split_ge13 ⟨f, hf⟩
      have h0 := n_hface_ge13 ⟨f, hf⟩ 0
      have h1 := n_hface_ge13 ⟨f, hf⟩ 1
      have := n_mface_lt9 face
      rcases hor with hpe | hpe | hpe <;> omega
  have htrB : ∀ le' p', p' < vnodes wf0 →
      ¬ (le' = le ∧ p' = n_mface face) →
      (en_empty (node_register (config_write (hang_promote st.me le) le
        (config_face_update ((hang_promote st.me le).configuration le) face))
        st.lni none le (n_mface face) ConnectType.corner).1 le' p'
        ↔ en_empty (config_write (hang_promote st.me le) le
          (config_face_update ((hang_promote st.me le).configuration le)
            face)) le' p') :=
    fun le' p' hp' hne => register_empty_pres _ st.lni none le (n_mface face)
      ConnectType.corner hA.hwf hmlt le' p' hp' hne
  simp only [hang_full_local, node_lregister]
  split
  · rename_i hbw
    have hwt : wf0 = true := by
      rw [← hB.hwf]
      exact hbw
    have hsplt : n_split face < vnodes wf0 := by
      rw [hwt]
      have := n_split_lt25 face
      norm_num [vnodes]
      omega
    have hh0lt : n_hface face 0 < vnodes wf0 := by
      rw [hwt]
      have := n_hface_lt25 face 0
      norm_num [vnodes]
      omega
    have hh1lt : n_hface face 1 < vnodes wf0 := by
      rw [hwt]
      have := n_hface_lt25 face 1
      norm_num [vnodes]
      omega
    have hnotin : ∀ p : Nat, 13 ≤ p →
        ¬ (le = le ∧ p ∈ ([4, 9, 10, 11, 12] : List Nat)) := by
      rintro p h13 ⟨_, hmem⟩
      simp only [List.mem_cons, List.not_mem_nil, or_false] at hmem
      rcases hmem with he | he | he | he | he <;> omega
    have hempSpB : en_empty (node_register (config_write
        (hang_promote st.me le) le (config_face_update
          ((hang_promote st.me le).configuration le) face))
        st.lni none le (n_mface face) ConnectType.corner).1
        le (n_split face) := by
      refine (htrB le (n_split face) hsplt ?_).mpr
        ((hAtr le (n_split face) hsplt
          (hnotin _ (n_split_ge13 face))).mpr (hempSp hwt))
      rintro ⟨_, hpe⟩
      have := n_split_ge13 face
      have := n_mface_lt9 face
      omega
    have hempH0B : en_empty (node_register (config_write
        (hang_promote st.me le) le (config_face_update
          ((hang_promote st.me le).configuration le) face))
        st.lni none le (n_mface face) ConnectType.corner).1
        le (n_hface face 0) := by
      refine (htrB le (n_hface face 0) hh0lt ?_).mpr
        ((hAtr le (n_hface face 0) hh0lt
          (hnotin _ (n_hface_ge13 face 0))).mpr (hempH0 hwt))
      rintro ⟨_, hpe⟩
      have := n_hface_ge13 face 0
      have := n_mface_lt9 face
      omega
    have hempH1B : en_empty (node_register (config_write
        (hang_promote st.me le) le (config_face_update
          ((hang_promote st.me le).configuration le) face))
        st.lni none le (n_mface face) ConnectType.corner).1
        le (n_hface face 1) := by
      refine (htrB le (n_hface face 1) hh1lt ?_).mpr
        ((hAtr le (n_hface face 1) hh1lt
          (hnotin _ (n_hface_ge13 face 1))).mpr (hempH1 hwt))
      rintro ⟨_, hpe⟩
      have := n_hface_ge13 face 1
      have := n_mface_lt9 face
      omega
    have hC : EnInv rank0 fs0 wf0 Vs Fs Hs Cs
        (node_register (node_register (config_write (hang_promote st.me le)
          le (config_face_update
            ((hang_promote st.me le).configuration le) face))
          st.lni none le (n_mface face) ConnectType.corner).1
          none none le (n_split face) ConnectType.face).1 := by
      refine EnInv_lregister hB none le (n_split face) ConnectType.face
        hsplt hempSpB ?_ ?_ ?_ ?_ ?_
      · intro hlt
        have := n_split_ge13 face
        omega
      · intro f hf hpe
        have := n_split_ge13 face
        omega
      · intro hpe
        have := n_split_ge13 face
        omega
      · intro jj hj hpe
        have := n_split_ge13 face
        omega
      · intro f hf _ hor
        rcases hor with hpe | hpe | hpe
        · have hfe : face = ⟨f, hf⟩ := n_split_inj hpe
          refine ?_
          have : f = face.val := by rw [hfe]
          subst this
          exact hHs
        · exact absurd hpe (n_split_ne_hface face ⟨f, hf⟩ 0)
        · exact absurd hpe (n_split_ne_hface face ⟨f, hf⟩ 1)
    have htrC : ∀ le' p', p' < vnodes wf0 →
        ¬ (le' = le ∧ p' = n_split face) →
        (en_empty (node_register (node_register (config_write
          (hang_promote st.me le) le (config_face_update
            ((hang_promote st.me le).configuration le) face))
          st.lni none le (n_mface face) ConnectType.corner).1
          none none le (n_split face) ConnectType.face).1 le' p'
          ↔ en_empty (node_register (config_write (hang_promote st.me le)
            le (config_face_update
              ((hang_promote st.me le).configuration le) face))
            st.lni none le (n_mface face) ConnectType.corner).1 le' p') :=
      fun le' p' hp' hne => register_empty_pres _ none none le (n_split face)
        ConnectType.face hB.hwf hsplt le' p' hp' hne
    have hempH0C : en_empty (node_register (node_register (config_write
        (hang_promote st.me le) le (config_face_update
          ((hang_promote st.me le).configuration le) face))
        st.lni none le (n_mface face) ConnectType.corner).1
        none none le (n_split face) ConnectType.face).1
        le (n_hface face 0) := by
      refine (htrC le (n_hface face 0) hh0lt ?_).mpr hempH0B
      rintro ⟨_, hpe⟩
      exact n_split_ne_hface face face 0 hpe.symm
    have hempH1C : en_empty (node_register (node_register (config_write
        (hang_promote st.me le) le (config_face_update
          ((hang_promote st.me le).configuration le) face))
        st.lni none le (n_mface face) ConnectType.corner).1
        none none le (n_split face) ConnectType.face).1
        le (n_hface face 1) := by
      refine (htrC le (n_hface face 1) hh1lt ?_).mpr hempH1B
      rintro ⟨_, hpe⟩
      exact n_split_ne_hface face face 1 hpe.symm
    have hcovH : ∀ jj : Fin 2, ∀ f : Nat, ∀ hf : f < 4,
        (n_hface face jj = n_split ⟨f, hf⟩ ∨
          n_hface face jj = n_hface ⟨f, hf⟩ 0 ∨
          n_hface face jj = n_hface ⟨f, hf⟩ 1) → (le, f) ∈ Hs := by
      intro jj f hf hor
      rcases hor with hpe | hpe | hpe
      · exact absurd hpe.symm (n_split_ne_hface ⟨f, hf⟩ face jj)
      · obtain ⟨hfe, _⟩ := n_hface_inj hpe
        have : f = face.val := by rw [hfe]
        subst this
        exact hHs
      · obtain ⟨hfe, _⟩ := n_hface_inj hpe
        have : f = face.val := by rw [hfe]
        subst this
        exact hHs
    have hnum : ∀ jj : Fin 2, 13 ≤ n_hface face jj :=
      fun jj => n_hface_ge13 face jj
    have hD : ∀ olni, EnInv rank0 fs0 wf0 Vs Fs Hs Cs
        (node_register (node_register (node_register (config_write
          (hang_promote st.me le) le (config_face_update
            ((hang_promote st.me le).configuration le) face))
          st.lni none le (n_mface face) ConnectType.corner).1
          none none le (n_split face) ConnectType.face).1
          olni none le (n_hface face 0) ConnectType.face).1 := by
      intro olni
      refine EnInv_lregister hC olni le (n_hface face 0) ConnectType.face
        hh0lt hempH0C ?_ ?_ ?_ ?_ ?_
      · intro hlt
        have := hnum 0
        omega
      · intro f hf hpe
        have := hnum 0
        omega
      · intro hpe
        have := hnum 0
        omega
      · intro jj hj hpe
        have := hnum 0
        omega
      · intro f hf _ hor
        exact hcovH 0 f hf hor
    have htrD : ∀ olni, ∀ le' p', p' < vnodes wf0 →
        ¬ (le' = le ∧ p' = n_hface face 0) →
        (en_empty (node_register (node_register (node_register (config_write
          (hang_promote st.me le) le (config_face_update
            ((hang_promote st.me le).configuration le) face))
          st.lni none le (n_mface face) ConnectType.corner).1
          none none le (n_split face) ConnectType.face).1
          olni none le (n_hface face 0) ConnectType.face).1 le' p'
          ↔ en_empty (node_register (node_register (config_write
            (hang_promote st.me le) le (config_face_update
              ((hang_promote st.me le).configuration le) face))
            st.lni none le (n_mface face) ConnectType.corner).1
            none none le (n_split face) ConnectType.face).1 le' p') :=
      fun olni le' p' hp' hne => register_empty_pres _ olni none le
        (n_hface face 0) ConnectType.face hC.hwf hh0lt le' p' hp' hne
    have hempH1D : ∀ olni, en_empty (node_register (node_register
        (node_register (config_write (hang_promote st.me le) le
          (config_face_update
            ((hang_promote st.me le).configuration le) face))
        st.lni none le (n_mface face) ConnectType.corner).1
        none none le (n_split face) ConnectType.face).1
        olni none le (n_hface face 0) ConnectType.face).1
        le (n_hface face 1) := by
      intro olni
      refine (htrD olni le (n_hface face 1) hh1lt ?_).mpr hempH1C
      rintro ⟨_, hpe⟩
      exact n_hface_ne01 face hpe.symm
    constructor
    · simp only [setLnh_me]
      refine EnInv_lregister (hD _) _ le (n_hface face 1) ConnectType.face
        hh1lt (hempH1D _) ?_ ?_ ?_ ?_ ?_
      · intro hlt
        have := hnum 1
        omega
      · intro f hf hpe
        have := hnum 1
        omega
      · intro hpe
        have := hnum 1
        omega
      · intro jj hj hpe
        have := hnum 1
        omega
      · intro f hf _ hor
        exact hcovH 1 f hf hor
    · intro le' p' hp' hne
      simp only [setLnh_me]
      refine Iff.trans (register_empty_pres _ _ none le (n_hface face 1)
        ConnectType.face (hD _).hwf hh1lt le' p' hp'
        (by rintro ⟨rfl, _⟩; exact hne rfl)) ?_
      refine Iff.trans (htrD _ le' p' hp'
        (by rintro ⟨rfl, _⟩; exact hne rfl)) ?_
      refine Iff.trans (htrC le' p' hp'
        (by rintro ⟨rfl, _⟩; exact hne rfl)) ?_
      refine Iff.trans (htrB le' p' hp'
        (by rintro ⟨rfl, _⟩; exact hne rfl)) ?_
      exact hAtr le' p' hp' (by rintro ⟨rfl, _⟩; exact hne rfl)
  · constructor
    · exact hB
    · intro le' p' hp' hne
      refine Iff.trans (htrB le' p' hp'
        (by rintro ⟨rfl, _⟩; exact hne rfl)) ?_
      exact hAtr le' p' hp' (by rintro ⟨rfl, _⟩; exact hne rfl)

end P4est

namespace P4est

/-- Dispatch over the ghostness of the large side of a hanging face. -/
lemma hang_side_full_EnInv {rank0 : Nat} {fs0 wf0 : Bool} {Vs : List Nat}
    {Fs Hs Cs : List (Nat × Nat)} (st : HState) (fs : FullSide)
    (swapi : Bool)
    (h : EnInv rank0 fs0 wf0 Vs Fs Hs Cs st.me)
    (hcase : (fs.ghost = true ∧ fs.rank ≠ rank0) ∨
      (fs.ghost = false ∧ fs.le ∈ Vs ∧ (fs.le, fs.face.val) ∈ Hs ∧
        en_empty st.me fs.le (n_mface fs.face) ∧
        (wf0 = true → en_empty st.me fs.le (n_split fs.face) ∧
          en_empty st.me fs.le (n_hface fs.face 0) ∧
          en_empty st.me fs.le (n_hface fs.face 1)))) :
    EnInv rank0 fs0 wf0 Vs Fs Hs Cs (hang_side_full st fs swapi).me ∧
    (∀ le' p', p' < vnodes wf0 → (fs.ghost = false → le' ≠ fs.le) →
      (en_empty (hang_side_full st fs swapi).me le' p'
        ↔ en_empty st.me le' p')) := by
  unfold hang_side_full
  rcases hcase with ⟨hg, hr⟩ | ⟨hg, hV, hH, hm, hsp⟩
  · rw [if_pos hg]
    obtain ⟨h1, h2⟩ := hang_full_ghost_EnInv st fs.rank fs.le fs.face swapi
      h hr
    exact ⟨h1, fun le' p' _ _ => h2 le' p'⟩
  · rw [if_neg (by rw [hg]; exact Bool.false_ne_true)]
    obtain ⟨h1, h2⟩ := hang_full_local_EnInv st fs.le fs.face swapi h hV hH
      hm (fun hw => (hsp hw).1) (fun hw => (hsp hw).2.1)
      (fun hw => (hsp hw).2.2)
    exact ⟨h1, fun le' p' hp' hne => h2 le' p' hp' (hne hg)⟩

/-- Both halves of the hanging side in order. -/
lemma hang_side_hang_EnInv {rank0 : Nat} {fs0 wf0 : Bool} {Vs : List Nat}
    {Fs Hs Cs : List (Nat × Nat)} (st : HState) (hs : HangSide)
    (swapi : Bool)
    (h : EnInv rank0 fs0 wf0 Vs Fs Hs Cs st.me)
    (hcase0 : (hs.q0.ghost = true ∧ hs.q0.rank ≠ rank0) ∨
      (hs.q0.ghost = false ∧ (hs.q0.le, hang_corner hs.face 0) ∈ Cs ∧
        (hs.q0.le, hs.face.val) ∈ Fs ∧
        en_empty st.me hs.q0.le (hang_corner hs.face 0) ∧
        en_empty st.me hs.q0.le (n_mface hs.face)))
    (hcase1 : (hs.q1.ghost = true ∧ hs.q1.rank ≠ rank0) ∨
      (hs.q1.ghost = false ∧ (hs.q1.le, hang_corner hs.face 1) ∈ Cs ∧
        (hs.q1.le, hs.face.val) ∈ Fs ∧
        en_empty st.me hs.q1.le (hang_corner hs.face 1) ∧
        en_empty st.me hs.q1.le (n_mface hs.face)))
    (hdist : hs.q0.ghost = false → hs.q1.ghost = false →
      hs.q0.le ≠ hs.q1.le) :
    EnInv rank0 fs0 wf0 Vs Fs Hs Cs (hang_side_hang st hs swapi).me ∧
    (∀ le' p', p' < vnodes wf0 →
      (hs.q0.ghost = false → le' ≠ hs.q0.le) →
      (hs.q1.ghost = false → le' ≠ hs.q1.le) →
      (en_empty (hang_side_hang st hs swapi).me le' p'
        ↔ en_empty st.me le' p')) := by
  unfold hang_side_hang
  obtain ⟨h1, htr1⟩ := hang_half_EnInv st hs.face hs.q0 0 swapi h hcase0
  have hq1lt : hang_corner hs.face 1 < vnodes wf0 := by
    have := hang_corner_lt hs.face 1
    have := vnodes_ge9 wf0
    omega
  have hmlt : n_mface hs.face < vnodes wf0 := by
    have := n_mface_lt9 hs.face
    have := vnodes_ge9 wf0
    omega
  have hcase1' : (hs.q1.ghost = true ∧ hs.q1.rank ≠ rank0) ∨
      (hs.q1.ghost = false ∧ (hs.q1.le, hang_corner hs.face 1) ∈ Cs ∧
        (hs.q1.le, hs.face.val) ∈ Fs ∧
        en_empty (hang_half st hs.face hs.q0 0 swapi).me hs.q1.le
          (hang_corner hs.face 1) ∧
        en_empty (hang_half st hs.face hs.q0 0 swapi).me hs.q1.le
          (n_mface hs.face)) := by
    rcases hcase1 with hgh | ⟨hg1, hc1, hf1, he1, he2⟩
    · exact Or.inl hgh
    · refine Or.inr ⟨hg1, hc1, hf1, ?_, ?_⟩
      · refine (htr1 hs.q1.le (hang_corner hs.face 1) hq1lt ?_).mpr he1
        intro hg0
        exact (hdist hg0 hg1).symm
      · refine (htr1 hs.q1.le (n_mface hs.face) hmlt ?_).mpr he2
        intro hg0
        exact (hdist hg0 hg1).symm
  obtain ⟨h2, htr2⟩ := hang_half_EnInv (hang_half st hs.face hs.q0 0 swapi)
    hs.face hs.q1 1 swapi h1 hcase1'
  refine ⟨h2, ?_⟩
  intro le' p' hp' hne0 hne1
  refine Iff.trans (htr2 le' p' hp' ?_) (htr1 le' p' hp' ?_)
  · intro hg1
    exact hne1 hg1
  · intro hg0
    exact hne0 hg0

end P4est

namespace P4est

lemma side_adm_decode {rank0 : Nat} {Fs Hs : List (Nat × Nat)}
    {s : FullSide} (h : side_adm rank0 Fs Hs s = true) :
    (s.ghost = true ∧ s.rank ≠ rank0) ∨
    (s.ghost = false ∧ (s.le, s.face.val) ∉ Fs ∧
      (s.le, s.face.val) ∉ Hs) := by
  unfold side_adm at h
  cases hg : s.ghost with
  | true =>
      rw [hg] at h
      simp at h
      exact Or.inl ⟨rfl, h⟩
  | false =>
      rw [hg] at h
      simp at h
      exact Or.inr ⟨rfl, h.1, h.2⟩

lemma half_adm_decode {rank0 : Nat} {Fs Hs Cs : List (Nat × Nat)}
    {face : Fin 4} {q : HalfQuad} {j : Fin 2}
    (h : half_adm rank0 Fs Hs Cs face q j = true) :
    (q.ghost = true ∧ q.rank ≠ rank0) ∨
    (q.ghost = false ∧ (q.le, hang_corner face j) ∉ Cs ∧
      (q.le, face.val) ∉ Fs ∧ (q.le, face.val) ∉ Hs) := by
  unfold half_adm at h
  cases hg : q.ghost with
  | true =>
      rw [hg] at h
      simp at h
      exact Or.inl ⟨rfl, h⟩
  | false =>
      rw [hg] at h
      simp at h
      exact Or.inr ⟨rfl, h.1.1, h.1.2, h.2⟩

end P4est

namespace P4est

lemma EnInv_mface_empty {rank0 : Nat} {fs0 wf0 : Bool} {Vs : List Nat}
    {Fs Hs Cs : List (Nat × Nat)} {me : tnodes_meta}
    (h : EnInv rank0 fs0 wf0 Vs Fs Hs Cs me) (le : Nat) (face : Fin 4)
    (hF : (le, face.val) ∉ Fs) (hH : (le, face.val) ∉ Hs) :
    en_empty me le (n_mface face) := by
  unfold en_empty
  rw [n_mface_eq]
  exact h.hmf le face.val face.isLt hF hH

/-- A conforming face connection preserves the invariant; both local
face claims become presented. -/
lemma faceConform_EnInv {rank0 : Nat} {fs0 wf0 : Bool} {Vs : List Nat}
    {Fs Hs Cs : List (Nat × Nat)} {me : tnodes_meta}
    (h : EnInv rank0 fs0 wf0 Vs Fs Hs Cs me) (s0 s1 : FullSide)
    (hadm : ev_adm rank0 Vs Fs Hs Cs (Event.faceConform s0 s1) = true) :
    EnInv rank0 fs0 wf0 Vs
      (((if s0.ghost then [] else [(s0.le, s0.face.val)]) ++
        (if s1.ghost then [] else [(s1.le, s1.face.val)])) ++ Fs) Hs Cs
      (if me.with_faces = true then
        (conform_side (conform_side (me, none) s0) s1).1 else me) := by
  simp only [ev_adm, Bool.and_eq_true] at hadm
  obtain ⟨⟨ha0, ha1⟩, hd⟩ := hadm
  have hdist : s0.ghost = false → s1.ghost = false →
      (s0.le, s0.face.val) ≠ (s1.le, s1.face.val) := by
    intro hg0 hg1 he
    rw [hg0, hg1] at hd
    have hd' : decide ((s0.le, s0.face.val) ≠ (s1.le, s1.face.val))
        = true := hd
    exact absurd he (of_decide_eq_true hd')
  have h' : EnInv rank0 fs0 wf0 Vs
      (((if s0.ghost then [] else [(s0.le, s0.face.val)]) ++
        (if s1.ghost then [] else [(s1.le, s1.face.val)])) ++ Fs) Hs Cs me :=
    EnInv_mono h (fun _ hx => hx)
      (fun x hx => List.mem_append_right _ hx)
      (fun _ hx => hx) (fun _ hx => hx)
  by_cases hwfme : me.with_faces = true
  rotate_left
  · rw [if_neg hwfme]
    exact h'
  rw [if_pos hwfme]
  · have hcase0 : (s0.ghost = true ∧ s0.rank ≠ rank0) ∨
        (s0.ghost = false ∧ (s0.le, s0.face.val) ∈
          (((if s0.ghost then [] else [(s0.le, s0.face.val)]) ++
            (if s1.ghost then [] else [(s1.le, s1.face.val)])) ++ Fs) ∧
          en_empty me s0.le (n_mface s0.face)) := by
      rcases side_adm_decode ha0 with ⟨hg, hr⟩ | ⟨hg, hF, hH⟩
      · exact Or.inl ⟨hg, hr⟩
      · refine Or.inr ⟨hg, ?_, EnInv_mface_empty h s0.le s0.face hF hH⟩
        simp [hg]
    obtain ⟨hc0, htr0⟩ := conform_side_EnInv (me, none) s0 h' hcase0
    have hmlt1 : n_mface s1.face < vnodes wf0 := by
      have := n_mface_lt9 s1.face
      have := vnodes_ge9 wf0
      omega
    have hcase1 : (s1.ghost = true ∧ s1.rank ≠ rank0) ∨
        (s1.ghost = false ∧ (s1.le, s1.face.val) ∈
          (((if s0.ghost then [] else [(s0.le, s0.face.val)]) ++
            (if s1.ghost then [] else [(s1.le, s1.face.val)])) ++ Fs) ∧
          en_empty (conform_side (me, none) s0).1 s1.le
            (n_mface s1.face)) := by
      rcases side_adm_decode ha1 with ⟨hg, hr⟩ | ⟨hg, hF, hH⟩
      · exact Or.inl ⟨hg, hr⟩
      · refine Or.inr ⟨hg, by simp [hg], ?_⟩
        refine (htr0 s1.le (n_mface s1.face) hmlt1 ?_).mpr
          (EnInv_mface_empty h s1.le s1.face hF hH)
        rintro ⟨hg0, hle, hmf⟩
        have hfv : s1.face.val = s0.face.val := by
          rw [n_mface_eq, n_mface_eq] at hmf
          omega
        exact hdist hg0 hg (by rw [hle, hfv])
    obtain ⟨hc1, _⟩ := conform_side_EnInv (conform_side (me, none) s0) s1
      hc0 hcase1
    exact hc1

end P4est

namespace P4est

/-- A hanging face connection preserves the invariant; the big local
side's face becomes a presented hanging face, the local halves' faces
and hanging corners become presented. -/
lemma faceHanging_EnInv {rank0 : Nat} {fs0 wf0 : Bool} {Vs : List Nat}
    {Fs Hs Cs : List (Nat × Nat)} {me : tnodes_meta}
    (h : EnInv rank0 fs0 wf0 Vs Fs Hs Cs me)
    (o hf : Bool) (fs : FullSide) (hs : HangSide)
    (hadm : ev_adm rank0 Vs Fs Hs Cs (Event.faceHanging o hf fs hs) = true) :
    EnInv rank0 fs0 wf0 Vs
      (((if hs.q0.ghost then [] else [(hs.q0.le, hs.face.val)]) ++
        (if hs.q1.ghost then [] else [(hs.q1.le, hs.face.val)])) ++ Fs)
      ((if fs.ghost then [] else [(fs.le, fs.face.val)]) ++ Hs)
      (((if hs.q0.ghost then [] else [(hs.q0.le, hang_corner hs.face 0)]) ++
        (if hs.q1.ghost then [] else [(hs.q1.le, hang_corner hs.face 1)]))
        ++ Cs)
      (apply_event me (Event.faceHanging o hf fs hs)) := by
  simp only [ev_adm, Bool.and_eq_true] at hadm
  obtain ⟨⟨⟨⟨⟨hbig, hh0⟩, hh1⟩, h01⟩, hd0⟩, hd1⟩ := hadm
  have hbigd : (fs.ghost = true ∧ fs.rank ≠ rank0) ∨
      (fs.ghost = false ∧ fs.le ∈ Vs ∧ (fs.le, fs.face.val) ∉ Fs ∧
        (fs.le, fs.face.val) ∉ Hs) := by
    cases hg : fs.ghost with
    | true =>
        rw [hg] at hbig
        simp at hbig
        exact Or.inl ⟨rfl, hbig⟩
    | false =>
        rw [hg] at hbig
        simp at hbig
        exact Or.inr ⟨rfl, hbig.1.1, hbig.1.2, hbig.2⟩
  have hq0d := half_adm_decode hh0
  have hq1d := half_adm_decode hh1
  have hdist01 : hs.q0.ghost = false → hs.q1.ghost = false →
      hs.q0.le ≠ hs.q1.le := by
    intro hg0 hg1
    rw [hg0, hg1] at h01
    have h01' : (hs.q0.le != hs.q1.le) = true := h01
    exact bne_iff_ne.mp h01'
  have hdistf0 : fs.ghost = false → hs.q0.ghost = false →
      fs.le ≠ hs.q0.le := by
    intro hg hg0
    rw [hg, hg0] at hd0
    have hd0' : (fs.le != hs.q0.le) = true := hd0
    exact bne_iff_ne.mp hd0'
  have hdistf1 : fs.ghost = false → hs.q1.ghost = false →
      fs.le ≠ hs.q1.le := by
    intro hg hg1
    rw [hg, hg1] at hd1
    have hd1' : (fs.le != hs.q1.le) = true := hd1
    exact bne_iff_ne.mp hd1'
  have h' : EnInv rank0 fs0 wf0 Vs
      (((if hs.q0.ghost then [] else [(hs.q0.le, hs.face.val)]) ++
        (if hs.q1.ghost then [] else [(hs.q1.le, hs.face.val)])) ++ Fs)
      ((if fs.ghost then [] else [(fs.le, fs.face.val)]) ++ Hs)
      (((if hs.q0.ghost then [] else [(hs.q0.le, hang_corner hs.face 0)]) ++
        (if hs.q1.ghost then [] else [(hs.q1.le, hang_corner hs.face 1)]))
        ++ Cs) me :=
    EnInv_mono h (fun _ hx => hx)
      (fun x hx => List.mem_append_right _ hx)
      (fun x hx => List.mem_append_right _ hx)
      (fun x hx => List.mem_append_right _ hx)
  have hcase0 : (hs.q0.ghost = true ∧ hs.q0.rank ≠ rank0) ∨
      (hs.q0.ghost = false ∧ (hs.q0.le, hang_corner hs.face 0) ∈
        (((if hs.q0.ghost then [] else [(hs.q0.le, hang_corner hs.face 0)])
          ++ (if hs.q1.ghost then []
            else [(hs.q1.le, hang_corner hs.face 1)])) ++ Cs) ∧
        (hs.q0.le, hs.face.val) ∈
          (((if hs.q0.ghost then [] else [(hs.q0.le, hs.face.val)]) ++
            (if hs.q1.ghost then [] else [(hs.q1.le, hs.face.val)])) ++ Fs) ∧
        en_empty me hs.q0.le (hang_corner hs.face 0) ∧
        en_empty me hs.q0.le (n_mface hs.face)) := by
    rcases hq0d with ⟨hg, hr⟩ | ⟨hg, hC, hF, hH⟩
    · exact Or.inl ⟨hg, hr⟩
    · refine Or.inr ⟨hg, by simp [hg], by simp [hg], ?_, ?_⟩
      · exact h.hcr hs.q0.le (hang_corner hs.face 0)
          (hang_corner_lt hs.face 0) hC
      · exact EnInv_mface_empty h hs.q0.le hs.face hF hH
  have hcase1 : (hs.q1.ghost = true ∧ hs.q1.rank ≠ rank0) ∨
      (hs.q1.ghost = false ∧ (hs.q1.le, hang_corner hs.face 1) ∈
        (((if hs.q0.ghost then [] else [(hs.q0.le, hang_corner hs.face 0)])
          ++ (if hs.q1.ghost then []
            else [(hs.q1.le, hang_corner hs.face 1)])) ++ Cs) ∧
        (hs.q1.le, hs.face.val) ∈
          (((if hs.q0.ghost then [] else [(hs.q0.le, hs.face.val)]) ++
            (if hs.q1.ghost then [] else [(hs.q1.le, hs.face.val)])) ++ Fs) ∧
        en_empty me hs.q1.le (hang_corner hs.face 1) ∧
        en_empty me hs.q1.le (n_mface hs.face)) := by
    rcases hq1d with ⟨hg, hr⟩ | ⟨hg, hC, hF, hH⟩
    · exact Or.inl ⟨hg, hr⟩
    · refine Or.inr ⟨hg, by simp [hg], by simp [hg], ?_, ?_⟩
      · exact h.hcr hs.q1.le (hang_corner hs.face 1)
          (hang_corner_lt hs.face 1) hC
      · exact EnInv_mface_empty h hs.q1.le hs.face hF hH
  have hmflt : n_mface fs.face < vnodes wf0 := by
    have := n_mface_lt9 fs.face
    have := vnodes_ge9 wf0
    omega
  simp only [apply_event]
  by_cases hhf : hf = true
  · rw [if_pos hhf]
    obtain ⟨hH1, htrH⟩ := hang_side_hang_EnInv
      (⟨me, none, none, none⟩ : HState) hs false h' hcase0 hcase1 hdist01
    have hcaseBig : (fs.ghost = true ∧ fs.rank ≠ rank0) ∨
        (fs.ghost = false ∧ fs.le ∈ Vs ∧ (fs.le, fs.face.val) ∈
          ((if fs.ghost then [] else [(fs.le, fs.face.val)]) ++ Hs) ∧
          en_empty (hang_side_hang (⟨me, none, none, none⟩ : HState) hs
            false).me fs.le (n_mface fs.face) ∧
          (wf0 = true →
            en_empty (hang_side_hang (⟨me, none, none, none⟩ : HState) hs
              false).me fs.le (n_split fs.face) ∧
            en_empty (hang_side_hang (⟨me, none, none, none⟩ : HState) hs
              false).me fs.le (n_hface fs.face 0) ∧
            en_empty (hang_side_hang (⟨me, none, none, none⟩ : HState) hs
              false).me fs.le (n_hface fs.face 1))) := by
      rcases hbigd with ⟨hg, hr⟩ | ⟨hg, hV, hF, hH⟩
      · exact Or.inl ⟨hg, hr⟩
      · refine Or.inr ⟨hg, hV, by simp [hg], ?_, ?_⟩
        · refine (htrH fs.le (n_mface fs.face) hmflt
            (fun hgq => hdistf0 hg hgq) (fun hgq => hdistf1 hg hgq)).mpr ?_
          exact EnInv_mface_empty h fs.le fs.face
            (fun hm => hF (by simpa using hm))
            (fun hm => hH (by simpa using hm))
        · intro hw
          obtain ⟨e1, e2, e3⟩ := h.hsp fs.le fs.face.val fs.face.isLt hH hw
          have hslt : n_split fs.face < vnodes wf0 := by
            rw [hw]
            have := n_split_lt25 fs.face
            norm_num [vnodes]
            omega
          have h0lt : n_hface fs.face 0 < vnodes wf0 := by
            rw [hw]
            have := n_hface_lt25 fs.face 0
            norm_num [vnodes]
            omega
          have h1lt : n_hface fs.face 1 < vnodes wf0 := by
            rw [hw]
            have := n_hface_lt25 fs.face 1
            norm_num [vnodes]
            omega
          exact ⟨(htrH fs.le (n_split fs.face) hslt
              (fun hgq => hdistf0 hg hgq) (fun hgq => hdistf1 hg hgq)).mpr e1,
            (htrH fs.le (n_hface fs.face 0) h0lt
              (fun hgq => hdistf0 hg hgq) (fun hgq => hdistf1 hg hgq)).mpr e2,
            (htrH fs.le (n_hface fs.face 1) h1lt
              (fun hgq => hdistf0 hg hgq) (fun hgq => hdistf1 hg hgq)).mpr e3⟩
    exact (hang_side_full_EnInv _ fs o hH1 hcaseBig).1
  · rw [if_neg hhf]
    have hcaseBig : (fs.ghost = true ∧ fs.rank ≠ rank0) ∨
        (fs.ghost = false ∧ fs.le ∈ Vs ∧ (fs.le, fs.face.val) ∈
          ((if fs.ghost then [] else [(fs.le, fs.face.val)]) ++ Hs) ∧
          en_empty me fs.le (n_mface fs.face) ∧
          (wf0 = true →
            en_empty me fs.le (n_split fs.face) ∧
            en_empty me fs.le (n_hface fs.face 0) ∧
            en_empty me fs.le (n_hface fs.face 1))) := by
      rcases hbigd with ⟨hg, hr⟩ | ⟨hg, hV, hF, hH⟩
      · exact Or.inl ⟨hg, hr⟩
      · refine Or.inr ⟨hg, hV, by simp [hg], ?_, ?_⟩
        · exact EnInv_mface_empty h fs.le fs.face
            (fun hm => hF (by simpa using hm))
            (fun hm => hH (by simpa using hm))
        · intro hw
          exact h.hsp fs.le fs.face.val fs.face.isLt hH hw
    obtain ⟨hF1, htrF⟩ := hang_side_full_EnInv
      (⟨me, none, none, none⟩ : HState) fs false h' hcaseBig
    have hq0lt : hang_corner hs.face 0 < vnodes wf0 := by
      have := hang_corner_lt hs.face 0
      have := vnodes_ge9 wf0
      omega
    have hq1lt : hang_corner hs.face 1 < vnodes wf0 := by
      have := hang_corner_lt hs.face 1
      have := vnodes_ge9 wf0
      omega
    have hmlt : n_mface hs.face < vnodes wf0 := by
      have := n_mface_lt9 hs.face
      have := vnodes_ge9 wf0
      omega
    have hcase0' : (hs.q0.ghost = true ∧ hs.q0.rank ≠ rank0) ∨
        (hs.q0.ghost = false ∧ (hs.q0.le, hang_corner hs.face 0) ∈
          (((if hs.q0.ghost then [] else [(hs.q0.le, hang_corner hs.face 0)])
            ++ (if hs.q1.ghost then []
              else [(hs.q1.le, hang_corner hs.face 1)])) ++ Cs) ∧
          (hs.q0.le, hs.face.val) ∈
            (((if hs.q0.ghost then [] else [(hs.q0.le, hs.face.val)]) ++
              (if hs.q1.ghost then [] else [(hs.q1.le, hs.face.val)])) ++ Fs)
            ∧
          en_empty (hang_side_full (⟨me, none, none, none⟩ : HState) fs
            false).me hs.q0.le (hang_corner hs.face 0) ∧
          en_empty (hang_side_full (⟨me, none, none, none⟩ : HState) fs
            false).me hs.q0.le (n_mface hs.face)) := by
      rcases hcase0 with ⟨hg, hr⟩ | ⟨hg, hC, hFm, he1, he2⟩
      · exact Or.inl ⟨hg, hr⟩
      · refine Or.inr ⟨hg, hC, hFm, ?_, ?_⟩
        · exact (htrF hs.q0.le (hang_corner hs.face 0) hq0lt
            (fun hgf => (hdistf0 hgf hg).symm)).mpr he1
        · exact (htrF hs.q0.le (n_mface hs.face) hmlt
            (fun hgf => (hdistf0 hgf hg).symm)).mpr he2
    have hcase1' : (hs.q1.ghost = true ∧ hs.q1.rank ≠ rank0) ∨
        (hs.q1.ghost = false ∧ (hs.q1.le, hang_corner hs.face 1) ∈
          (((if hs.q0.ghost then [] else [(hs.q0.le, hang_corner hs.face 0)])
            ++ (if hs.q1.ghost then []
              else [(hs.q1.le, hang_corner hs.face 1)])) ++ Cs) ∧
          (hs.q1.le, hs.face.val) ∈
            (((if hs.q0.ghost then [] else [(hs.q0.le, hs.face.val)]) ++
              (if hs.q1.ghost then [] else [(hs.q1.le, hs.face.val)])) ++ Fs)
            ∧
          en_empty (hang_side_full (⟨me, none, none, none⟩ : HState) fs
            false).me hs.q1.le (hang_corner hs.face 1) ∧
          en_empty (hang_side_full (⟨me, none, none, none⟩ : HState) fs
            false).me hs.q1.le (n_mface hs.face)) := by
      rcases hcase1 with ⟨hg, hr⟩ | ⟨hg, hC, hFm, he1, he2⟩
      · exact Or.inl ⟨hg, hr⟩
      · refine Or.inr ⟨hg, hC, hFm, ?_, ?_⟩
        · exact (htrF hs.q1.le (hang_corner hs.face 1) hq1lt
            (fun hgf => (hdistf1 hgf hg).symm)).mpr he1
        · exact (htrF hs.q1.le (n_mface hs.face) hmlt
            (fun hgf => (hdistf1 hgf hg).symm)).mpr he2
    exact (hang_side_hang_EnInv _ hs o hF1 hcase0' hcase1' hdist01).1

end P4est

namespace P4est

/-- A corner connection preserves the invariant; the local corner
claims become presented. -/
lemma cornerEvent_EnInv {rank0 : Nat} {fs0 wf0 : Bool} {Vs : List Nat}
    {Fs Hs Cs : List (Nat × Nat)} {me : tnodes_meta}
    (h : EnInv rank0 fs0 wf0 Vs Fs Hs Cs me) (sides : List CornerSide)
    (hadm : ev_adm rank0 Vs Fs Hs Cs (Event.cornerEvent sides) = true) :
    EnInv rank0 fs0 wf0 Vs Fs Hs (corner_claims sides ++ Cs)
      (apply_event me (Event.cornerEvent sides)) := by
  simp only [ev_adm, Bool.and_eq_true] at hadm
  obtain ⟨⟨ha, hb⟩, hc⟩ := hadm
  have hnd : (corner_claims sides).Nodup := of_decide_eq_true hb
  have hgh : ∀ s ∈ sides, s.ghost = true → s.rank ≠ rank0 := by
    intro s hs hg
    have := List.all_eq_true.mp ha s hs
    rw [hg] at this
    have h' : (s.rank != rank0) = true := this
    exact bne_iff_ne.mp h'
  have hfresh : ∀ s ∈ sides, s.ghost = false →
      (s.le, s.corner.val) ∉ Cs := by
    intro s hs hg
    have := List.all_eq_true.mp hc s hs
    rw [hg] at this
    simpa using this
  have h' : EnInv rank0 fs0 wf0 Vs Fs Hs (corner_claims sides ++ Cs) me :=
    EnInv_mono h (fun _ hx => hx) (fun _ hx => hx) (fun _ hx => hx)
      (fun x hx => List.mem_append_right _ hx)
  exact corner_fold_EnInv sides (me, none) h' hgh
    (fun s hs hg => List.mem_append_left _ (mem_corner_claims hs hg)) hnd
    (fun s hs hg => h.hcr s.le (n_ccorn s.corner)
      (show s.corner.val < 4 from s.corner.isLt) (hfresh s hs hg))

/-- A single admissible callback event preserves the invariant with the
presented-entity sets extended accordingly. -/
lemma apply_event_EnInv {rank0 : Nat} {fs0 wf0 : Bool} {Vs : List Nat}
    {Fs Hs Cs : List (Nat × Nat)} {me : tnodes_meta}
    (h : EnInv rank0 fs0 wf0 Vs Fs Hs Cs me) (e : Event)
    (hadm : ev_adm rank0 Vs Fs Hs Cs e = true) :
    EnInv rank0 fs0 wf0 (ev_vs e ++ Vs) (ev_fs e ++ Fs) (ev_hs e ++ Hs)
      (ev_cs e ++ Cs) (apply_event me e) := by
  cases e with
  | volume le level childid =>
      have hle : le ∉ Vs := by simpa [ev_adm] using hadm
      exact iter_volume1_EnInv h le level childid hle
  | faceBoundary le face =>
      simp only [ev_adm, Bool.and_eq_true] at hadm
      have hF : (le, face.val) ∉ Fs := by simpa using hadm.1
      have hH : (le, face.val) ∉ Hs := by simpa using hadm.2
      exact faceBoundary_EnInv h le face hF hH
  | faceConform s0 s1 => exact faceConform_EnInv h s0 s1 hadm
  | faceHanging o hf fs hs => exact faceHanging_EnInv h o hf fs hs hadm
  | cornerEvent sides => exact cornerEvent_EnInv h sides hadm

/-- An admissible event stream preserves the invariant across the whole
fold. -/
lemma iterate_EnInv {rank0 : Nat} {fs0 wf0 : Bool}
    (evs : List Event) :
    ∀ (Vs : List Nat) (Fs Hs Cs : List (Nat × Nat)) (me : tnodes_meta),
      EnInv rank0 fs0 wf0 Vs Fs Hs Cs me →
      adm rank0 evs Vs Fs Hs Cs = true →
      ∃ Vs' Fs' Hs' Cs',
        EnInv rank0 fs0 wf0 Vs' Fs' Hs' Cs' (p4est_iterate me evs) := by
  induction evs with
  | nil => exact fun Vs Fs Hs Cs me h _ => ⟨Vs, Fs, Hs, Cs, h⟩
  | cons e rest ih =>
      intro Vs Fs Hs Cs me h hadm
      simp only [adm, Bool.and_eq_true] at hadm
      exact ih _ _ _ _ _ (apply_event_EnInv h e hadm.1) hadm.2

/-- The initial control structure satisfies the invariant with no
entity presented yet. -/
lemma init_meta_EnInv (rank0 : Nat) (fs0 wf0 : Bool) :
    EnInv rank0 fs0 wf0 [] [] [] [] (init_meta fs0 wf0 rank0) := by
  refine ⟨rfl, rfl, rfl, rfl, ?_, ?_, ?_, ?_, ?_, ?_, ?_, ?_⟩
  · intro l
    show config_domain 0
    left
    decide
  · intro le _
    rfl
  · intro le f _ _ _
    rfl
  · intro le c _ _
    rfl
  · intro le f hf _ _
    exact ⟨rfl, rfl, rfl⟩
  · intro le _ _
    rfl
  · intro le _ _
    rfl
  · intro le j _ _ _
    rfl

end P4est

namespace P4est

/-- C9: during traversal, each local element-node slot is assigned at
most once — under any admissible event stream every `node_register`
write to `element_nodes[le * vnodes + nodene]` finds the sentinel -1 in
that slot (the `ok` flag conjoins the C assertion
`element_nodes[...] == -1` at every local write), so no registration
overwrites an earlier assignment. -/
theorem C9_element_node_slot_write_once (fs0 wf0 : Bool) (rank0 : Nat)
    (evs : List Event)
    (hadm : adm rank0 evs [] [] [] [] = true) :
    (tnodes_traverse fs0 wf0 rank0 evs).ok = true := by
  obtain ⟨Vs', Fs', Hs', Cs', h⟩ :=
    iterate_EnInv evs [] [] [] [] (init_meta fs0 wf0 rank0)
      (init_meta_EnInv rank0 fs0 wf0) hadm
  exact h.hok

/-- An admissible event stream exercising every callback kind: three
volume callbacks, a conforming face, a hanging face, a boundary face, a
ghost-sided conforming face and a two-sided corner. -/
def c9_events : List Event :=
  [Event.volume 0 0 0,
   Event.volume 1 1 0,
   Event.volume 2 1 1,
   Event.faceConform ⟨false, 0, 1, 0⟩ ⟨false, 0, 2, 1⟩,
   Event.faceHanging false true ⟨false, 0, 0, 2⟩
     ⟨3, ⟨false, 0, 1⟩, ⟨false, 0, 2⟩⟩,
   Event.faceBoundary 0 0,
   Event.faceConform ⟨true, 1, 5, 0⟩ ⟨false, 0, 0, 1⟩,
   Event.cornerEvent [⟨false, 0, 1, 2⟩, ⟨false, 0, 2, 3⟩]]

theorem C9_element_node_slot_write_once_witness :
    adm 0 c9_events [] [] [] [] = true ∧
    (tnodes_traverse false true 0 c9_events).ok = true :=
  ⟨by decide,
   C9_element_node_slot_write_once false true 0 c9_events (by decide)⟩

end P4est
